import Mathlib

/-!
Orionpp: bracket matcher and line highlighter.

A shallow embedding of `CodeEditor::findMatchingBracket` (src/codeeditor.cpp)
and of `CppHighlighter::highlightBlock` (src/CppHighlighter.cpp).

Modelling conventions.
* A `QString` is a `List Char`; `text.at(i)` is `charAt text i`.
* C++ `int` values are `Int`; no text is long enough for an index or a depth
  to overflow, so no wrap-around is modelled.
* The `while` loop of `findMatchingBracket` is iterated with a fuel counter;
  running out of fuel is reported as `none`, a returned value as `some r`.
-/

namespace CodeEditor

/-- The local `enum State` of `findMatchingBracket`. -/
inductive State where
  | Normal
  | InString
  | InChar
  | InLineComment
  | InBlockComment
  deriving DecidableEq, Repr

/-- The call `text.at(i)`; every call site guards the index. -/
def charAt (text : List Char) (i : Int) : Char :=
  text.getD i.toNat (Char.ofNat 0)

/-- The loop variables `i`, `depth`, `state`, `stringQuote`. -/
structure Scan where
  i : Int
  depth : Int
  state : State
  stringQuote : Char
  deriving DecidableEq, Repr

/-- One pass through the body of the `while` loop, entered with
`0 <= i < text.length()`: either `return i` (left) or the loop variables
after `i += direction` (right). -/
def step (text : List Char) (bracket targetBracket : Char) (direction : Int)
    (s : Scan) : Int ⊕ Scan :=
  let c := charAt text s.i
  match s.state with
  | State.Normal =>
    if c = '"' ∨ c = '\'' then
      Sum.inr { s with i := s.i + direction,
                       state := if c = '"' then State.InString else State.InChar,
                       stringQuote := c }
    else if c = '/' ∧ s.i + 1 < text.length then
      if charAt text (s.i + 1) = '/' then
        Sum.inr { s with i := s.i + 1 + direction, state := State.InLineComment }
      else if charAt text (s.i + 1) = '*' then
        Sum.inr { s with i := s.i + 1 + direction, state := State.InBlockComment }
      else
        Sum.inr { s with i := s.i + direction }
    else if c = bracket then
      Sum.inr { s with i := s.i + direction, depth := s.depth + 1 }
    else if c = targetBracket then
      if s.depth = 0 then Sum.inl s.i
      else Sum.inr { s with i := s.i + direction, depth := s.depth - 1 }
    else
      Sum.inr { s with i := s.i + direction }
  | State.InString | State.InChar =>
    if c = s.stringQuote ∧ (s.i = 0 ∨ charAt text (s.i - 1) ≠ '\\') then
      Sum.inr { s with i := s.i + direction, state := State.Normal }
    else
      Sum.inr { s with i := s.i + direction }
  | State.InLineComment =>
    if c = '\n' then
      Sum.inr { s with i := s.i + direction, state := State.Normal }
    else
      Sum.inr { s with i := s.i + direction }
  | State.InBlockComment =>
    if c = '*' ∧ s.i + 1 < text.length ∧ charAt text (s.i + 1) = '/' then
      Sum.inr { s with i := s.i + 1 + direction, state := State.Normal }
    else
      Sum.inr { s with i := s.i + direction }

/-- The `while (i >= 0 && i < text.length())` loop followed by `return -1`.
The first argument bounds the number of iterations; `none` means the bound
was reached. -/
def scanLoop (text : List Char) (bracket targetBracket : Char) (direction : Int) :
    Nat → Scan → Option Int
  | 0, _ => none
  | fuel + 1, s =>
    if 0 ≤ s.i ∧ s.i < text.length then
      match step text bracket targetBracket direction s with
      | Sum.inl r => some r
      | Sum.inr s' => scanLoop text bracket targetBracket direction fuel s'
    else some (-1)

/-- The `if`/`else if` chain choosing `targetBracket` and `direction`;
`none` is the final `else` (not a bracket). -/
def bracketInfo (bracket : Char) : Option (Char × Int) :=
  if bracket = '(' then some (')', 1)
  else if bracket = ')' then some ('(', -1)
  else if bracket = '{' then some ('}', 1)
  else if bracket = '}' then some ('{', -1)
  else if bracket = '[' then some (']', 1)
  else if bracket = ']' then some ('[', -1)
  else none

/-- The body of `CodeEditor::findMatchingBracket(text, pos)`, with the number
of loop iterations allowed as a parameter. -/
def findMatchingBracketWith (fuel : Nat) (text : List Char) (pos : Int) : Option Int :=
  if pos < 0 ∨ pos ≥ text.length then some (-1)
  else
    let bracket := charAt text pos
    match bracketInfo bracket with
    | none => some (-1)
    | some (targetBracket, direction) =>
      scanLoop text bracket targetBracket direction fuel
        { i := pos + direction, depth := 0, state := State.Normal,
          stringQuote := Char.ofNat 0 }

/-- The function `CodeEditor::findMatchingBracket(text, pos)`. The loop gets
`2 * text.length + 2` iterations, which is always enough
(`findMatchingBracket_isSome`): `some r` is the returned `int`. -/
def findMatchingBracket (text : List Char) (pos : Int) : Option Int :=
  findMatchingBracketWith (2 * text.length + 2) text pos

/-- The characters of `text` strictly between offsets `p` and `q`. -/
def between (text : List Char) (p q : Nat) : List Char :=
  (text.drop (p + 1)).take (q - (p + 1))

/-- Offset `q` lies after `p`, holds `t`, and as many `b` as `t` lie strictly
between `p` and `q`. -/
def DepthMatch (text : List Char) (b t : Char) (p q : Nat) : Prop :=
  p < q ∧ text[q]? = some t ∧ (between text p q).count b = (between text p q).count t

instance (text : List Char) (b t : Char) (p q : Nat) : Decidable (DepthMatch text b t p q) := by
  unfold DepthMatch
  infer_instance

/-- Relative form of `DepthMatch` for the text after the start bracket, with
the scan at depth `d`. -/
def RelMatch (b t : Char) (rest : List Char) (d n : Nat) : Prop :=
  rest[n]? = some t ∧ d + (rest.take n).count b = (rest.take n).count t

/-- The three delimiter pairs, opening character first. -/
def bracketPairs : List (Char × Char) := [('(', ')'), ('{', '}'), ('[', ']')]

/-- Well-nested strings over the six delimiter characters. -/
inductive Balanced : List Char → Prop where
  | nil : Balanced []
  | wrap {o c : Char} {s : List Char} :
      (o, c) ∈ bracketPairs → Balanced s → Balanced (o :: s ++ [c])
  | append {s u : List Char} : Balanced s → Balanced u → Balanced (s ++ u)

/-- An offset found in a suffix of the text, expressed in the whole text
(`a` characters come before the suffix); -1 stays -1. -/
def shiftResult (a : Int) (r : Int) : Int := if r = -1 then -1 else r + a

/-- The loop variables with the index moved by `a`. -/
def shiftScan (a : Int) (s : Scan) : Scan := { s with i := s.i + a }

/-- Nesting height of a string: +1 for each opening bracket, -1 for each
closing bracket. -/
def height : List Char → Int
  | [] => 0
  | x :: xs =>
    (if x ∈ bracketPairs.map Prod.fst then 1
     else if x ∈ bracketPairs.map Prod.snd then -1 else 0) + height xs

/-- The offsets passed to `text.at` during one pass through the loop body,
in the order of evaluation; `&&` and `||` evaluate their right operand only
when the left one does not decide. -/
def stepReads (text : List Char) (s : Scan) : List Int :=
  let c := charAt text s.i
  s.i ::
    (match s.state with
     | State.Normal =>
       if c = '"' ∨ c = '\'' then []
       else if c = '/' ∧ s.i + 1 < text.length then [s.i + 1] else []
     | State.InString | State.InChar =>
       if c = s.stringQuote ∧ s.i ≠ 0 then [s.i - 1] else []
     | State.InLineComment => []
     | State.InBlockComment =>
       if c = '*' ∧ s.i + 1 < text.length then [s.i + 1] else [])

/-- Invariant of the backward scan in front of a text that starts with
`(/*`: a string state holds a quote character as `stringQuote`, and the state
at offset 0 is not `Normal`. -/
def BackInv (s : Scan) : Prop :=
  ((s.state = State.InString ∨ s.state = State.InChar) →
      (s.stringQuote = '"' ∨ s.stringQuote = '\'')) ∧
    (s.i = 0 → s.state ≠ State.Normal)

end CodeEditor

/-!
The line highlighter.

`QRegularExpression` is modelled by a backtracking matcher for the fragment
of the PCRE syntax that the patterns of `CppHighlighter` use: literals,
character classes, concatenation, ordered alternation, the greedy star, `\b`,
`^` and a positive lookahead. The options are those of a default
`QRegularExpression`: `.` is every character but the line feed, `\w`, `\s`
and `\b` are the ASCII ones, `^` is the start of the subject. One `Char` stands
for one `QChar`, and the matcher's resource limit is not modelled.

`QSyntaxHighlighter::setFormat(start, count, format)` overwrites the formats of
the characters `start <= i < min(start + count, length)` and does nothing
when `start` is out of range; `highlightBlock` is modelled by the list of its
`setFormat` calls, the resulting per-character formats and the block state.
-/

namespace CppHighlighter

/-- The fragment of the pattern syntax in use. -/
inductive Regex where
  /-- a literal character -/
  | lit (c : Char)
  /-- one character of a class: `[...]`, `.`, `\s`, `\w` -/
  | cls (p : Char → Bool)
  /-- concatenation -/
  | seq (r1 r2 : Regex)
  /-- ordered alternation `r1|r2` -/
  | alt (r1 r2 : Regex)
  /-- greedy repetition `r*` -/
  | star (r : Regex)
  /-- the empty pattern -/
  | empty
  /-- the assertion `\b` -/
  | wordBoundary
  /-- the assertion `^` -/
  | lineStart
  /-- the assertion `(?=r)` -/
  | lookahead (r : Regex)

/-- The class `\w`. -/
def isWordChar (c : Char) : Bool := c.isAlphanum || c == '_'

/-- The class `\s`. -/
def isSpaceChar (c : Char) : Bool :=
  c == ' ' || c == '\t' || c == '\n' || c == Char.ofNat 11 || c == Char.ofNat 12 || c == '\r'

/-- The class `[0-9A-Fa-f]`. -/
def isHexDigit (c : Char) : Bool :=
  c.isDigit || (decide ('A' ≤ c) && decide (c ≤ 'F')) || (decide ('a' ≤ c) && decide (c ≤ 'f'))

/-- Whether the character at `pos` exists and is a word character. -/
def wordAt (text : List Char) (pos : Nat) : Bool :=
  match text[pos]? with
  | some c => isWordChar c
  | none => false

/-- The greedy star: one more iteration of the body first, then, on
backtracking, the rest of the pattern. `n` bounds the number of iterations
by the number of characters left. -/
def starLoop (body : Nat → (Nat → Option Nat) → Option Nat) :
    Nat → Nat → (Nat → Option Nat) → Option Nat
  | 0, pos, k => k pos
  | n + 1, pos, k =>
    (body pos (fun p => if pos < p then starLoop body n p k else k p)).orElse
      (fun _ => k pos)

/-- Backtracking match of `r` at offset `pos`, in continuation-passing style:
`k` matches the rest of the pattern and gives the end of the whole match. -/
def matchAt (text : List Char) : Regex → Nat → (Nat → Option Nat) → Option Nat
  | Regex.lit c, pos, k => if text[pos]? = some c then k (pos + 1) else none
  | Regex.cls p, pos, k =>
    match text[pos]? with
    | some c => if p c then k (pos + 1) else none
    | none => none
  | Regex.seq r1 r2, pos, k => matchAt text r1 pos (fun p => matchAt text r2 p k)
  | Regex.alt r1 r2, pos, k => (matchAt text r1 pos k).orElse (fun _ => matchAt text r2 pos k)
  | Regex.star r, pos, k => starLoop (matchAt text r) (text.length - pos) pos k
  | Regex.empty, pos, k => k pos
  | Regex.wordBoundary, pos, k =>
    if (decide (0 < pos) && wordAt text (pos - 1)) != wordAt text pos then k pos else none
  | Regex.lineStart, pos, k => if pos = 0 then k pos else none
  | Regex.lookahead r, pos, k =>
    match matchAt text r pos some with
    | some _ => k pos
    | none => none

/-- The leftmost match starting at one of the next `n` offsets from `start`
on: its start and its end. -/
def searchFrom (re : Regex) (text : List Char) : Nat → Nat → Option (Nat × Nat)
  | 0, _ => none
  | n + 1, start =>
    match matchAt text re start some with
    | some e => some (start, e)
    | none => searchFrom re text n (start + 1)

/-- The first match at or after `start` (`QRegularExpression::match(text, from)`). -/
def firstMatch (re : Regex) (text : List Char) (start : Nat) : Option (Nat × Nat) :=
  searchFrom re text (text.length + 1 - start) start

/-- The successive matches from `start` on, each as `(capturedStart,
capturedLength)`; the search resumes where the previous match ended. -/
def globalMatchFrom (re : Regex) (text : List Char) : Nat → Nat → List (Nat × Nat)
  | 0, _ => []
  | n + 1, start =>
    match firstMatch re text start with
    | none => []
    | some (s, e) =>
      (s, e - s) :: globalMatchFrom re text n (if s < e then e else e + 1)

/-- The matches delivered by `re.globalMatch(text)`. -/
def globalMatch (re : Regex) (text : List Char) : List (Nat × Nat) :=
  globalMatchFrom re text (text.length + 1) 0

/-- The call `text.indexOf(re, from)` for `from >= 0`: the start of the first
match at or after `from` together with its `capturedLength`, -1 when there
is none. -/
def indexOf (text : List Char) (re : Regex) (start : Int) : Int × Int :=
  match firstMatch re text start.toNat with
  | some (s, e) => ((s : Int), ((e - s : Nat) : Int))
  | none => (-1, 0)

/-- The `QTextCharFormat` members of `CppHighlighter`. -/
inductive Format where
  | keywordFormat
  | typeFormat
  | functionFormat
  | singleLineCommentFormat
  | multiLineCommentFormat
  | stringFormat
  | numberFormat
  | preprocessorFormat
  deriving DecidableEq, Repr

/-- The struct `HighlightingRule`. -/
structure HighlightingRule where
  pattern : Regex
  format : Format

/-- A pattern for a fixed sequence of characters. -/
def Regex.str : List Char → Regex
  | [] => Regex.empty
  | [c] => Regex.lit c
  | c :: cs => Regex.seq (Regex.lit c) (Regex.str cs)

/-- The pattern `r+`. -/
def Regex.plus (r : Regex) : Regex := Regex.seq r (Regex.star r)

/-- The pattern `(r)?`. -/
def Regex.opt (r : Regex) : Regex := Regex.alt r Regex.empty

/-- The pattern `\bword\b`. -/
def Regex.word (w : String) : Regex :=
  Regex.seq Regex.wordBoundary (Regex.seq (Regex.str w.toList) Regex.wordBoundary)

/-- The list `keywordPatterns`. -/
def keywordPatterns : List Regex :=
  ["if", "else", "for", "while", "return", "break", "continue", "switch", "case",
   "default", "do", "const", "static", "extern", "namespace", "class", "constexpr",
   "nullptr", "auto", "override", "final", "noexcept", "template"].map Regex.word

/-- The list `typePatterns`. -/
def typePatterns : List Regex :=
  ["int", "float", "double", "char", "bool", "void", "short", "long", "signed",
   "unsigned"].map Regex.word

/-- The pattern `\b[A-Za-z_][A-Za-z0-9_]*(?=\()`. -/
def functionPattern : Regex :=
  Regex.seq Regex.wordBoundary
    (Regex.seq (Regex.cls (fun c => c.isAlpha || c == '_'))
      (Regex.seq (Regex.star (Regex.cls isWordChar)) (Regex.lookahead (Regex.lit '('))))

/-- The pattern `\b[0-9]+(\.[0-9]+)?\b`. -/
def numberPattern : Regex :=
  Regex.seq Regex.wordBoundary
    (Regex.seq (Regex.plus (Regex.cls Char.isDigit))
      (Regex.seq
        (Regex.opt (Regex.seq (Regex.lit '.') (Regex.plus (Regex.cls Char.isDigit))))
        Regex.wordBoundary))

/-- The pattern `\b0x[0-9A-Fa-f]+\b`. -/
def hexPattern : Regex :=
  Regex.seq Regex.wordBoundary
    (Regex.seq (Regex.lit '0')
      (Regex.seq (Regex.lit 'x')
        (Regex.seq (Regex.plus (Regex.cls isHexDigit)) Regex.wordBoundary)))

/-- The pattern `^#\s*\w+`. -/
def preprocessorPattern : Regex :=
  Regex.seq Regex.lineStart
    (Regex.seq (Regex.lit '#')
      (Regex.seq (Regex.star (Regex.cls isSpaceChar)) (Regex.plus (Regex.cls isWordChar))))

/-- The pattern `//[^\n]*` (the class holds a line feed character). -/
def singleLineCommentPattern : Regex :=
  Regex.seq (Regex.lit '/')
    (Regex.seq (Regex.lit '/') (Regex.star (Regex.cls (fun c => c != '\n'))))

/-- The member `highlightingRules` as the constructor fills it. -/
def highlightingRules : List HighlightingRule :=
  keywordPatterns.map (fun p => ⟨p, Format.keywordFormat⟩) ++
  typePatterns.map (fun p => ⟨p, Format.typeFormat⟩) ++
  [⟨functionPattern, Format.functionFormat⟩,
   ⟨numberPattern, Format.numberFormat⟩,
   ⟨hexPattern, Format.numberFormat⟩,
   ⟨preprocessorPattern, Format.preprocessorFormat⟩,
   ⟨singleLineCommentPattern, Format.singleLineCommentFormat⟩]

/-- The member `commentStartExpression`, the pattern `/\*`. -/
def commentStartExpression : Regex := Regex.seq (Regex.lit '/') (Regex.lit '*')

/-- The member `commentEndExpression`, the pattern `\*/`. -/
def commentEndExpression : Regex := Regex.seq (Regex.lit '*') (Regex.lit '/')

/-- One alternative of `stringPattern`: `q(\\.|[^q])*q`. -/
def quoted (q : Char) : Regex :=
  Regex.seq (Regex.lit q)
    (Regex.seq
      (Regex.star (Regex.alt (Regex.seq (Regex.lit '\\') (Regex.cls (fun c => c != '\n')))
        (Regex.cls (fun c => c != q))))
      (Regex.lit q))

/-- The local `stringPattern`, the pattern `"(\\.|[^"])*"|'(\\.|[^'])*'`. -/
def stringPattern : Regex := Regex.alt (quoted '"') (quoted '\'')

/-- One call `setFormat(start, count, format)`. -/
structure FormatCall where
  start : Int
  count : Int
  format : Format
  deriving DecidableEq, Repr

/-- The effect of `QSyntaxHighlighter::setFormat` on the per-character
formats of the block. -/
def setFormat (formats : List (Option Format)) (c : FormatCall) : List (Option Format) :=
  if c.start < 0 ∨ c.start ≥ formats.length then formats
  else
    formats.enum.map (fun (ix : Nat × Option Format) =>
      if c.start ≤ ix.1 ∧ (ix.1 : Int) < min (c.start + c.count) formats.length
      then some c.format else ix.2)

/-- The formats of a block of `n` characters after the given calls. -/
def applyCalls (n : Nat) (calls : List FormatCall) : List (Option Format) :=
  calls.foldl setFormat (List.replicate n none)

/-- The loop `for (i = start; i < start + length; ++i) isInString[i] = true`. -/
def markRange (mask : List Bool) (start length : Nat) : List Bool :=
  mask.enum.map (fun (ix : Nat × Bool) =>
    if start ≤ ix.1 ∧ ix.1 < start + length then true else ix.2)

/-- The vector `isInString` after the string loop. -/
def stringMask (text : List Char) : List Bool :=
  (globalMatch stringPattern text).foldl (fun m sl => markRange m sl.1 sl.2)
    (List.replicate text.length false)

/-- The `setFormat` calls of the string loop. -/
def stringCalls (text : List Char) : List FormatCall :=
  (globalMatch stringPattern text).map
    (fun sl => ⟨(sl.1 : Int), (sl.2 : Int), Format.stringFormat⟩)

/-- The flag `skip` for a match: some `i` of the match has
`i < isInString.size() && isInString[i]`. -/
def skipMatch (mask : List Bool) (start length : Nat) : Bool :=
  (List.range length).any (fun j => decide (start + j < mask.length) && mask.getD (start + j) false)

/-- The `setFormat` calls of one rule. The test `&rule.format == &stringFormat`
compares the address of a copy stored in the rule vector with that of the
member, so it never holds. -/
def callsOfRule (text : List Char) (mask : List Bool) (rule : HighlightingRule) :
    List FormatCall :=
  ((globalMatch rule.pattern text).filter (fun sl => !skipMatch mask sl.1 sl.2)).map
    (fun sl => ⟨(sl.1 : Int), (sl.2 : Int), rule.format⟩)

/-- The `setFormat` calls of the loop over the rules. -/
def ruleCallsWith (rules : List HighlightingRule) (text : List Char) : List FormatCall :=
  rules.flatMap (callsOfRule text (stringMask text))

/-- The `setFormat` calls of the loop over `highlightingRules`. -/
def ruleCalls (text : List Char) : List FormatCall :=
  ruleCallsWith highlightingRules text

/-- The loop `while (startIndex >= 0)` of the block-comment part: the calls
made and the block state at the end. The first argument bounds the number
of iterations; `none` means the bound was reached. -/
def commentLoop (text : List Char) (mask : List Bool) :
    Nat → Int → List FormatCall → Int → Option (List FormatCall × Int)
  | 0, _, _, _ => none
  | fuel + 1, startIndex, calls, blockState =>
    if startIndex ≥ 0 then
      if startIndex < mask.length ∧ mask.getD startIndex.toNat false = true then
        commentLoop text mask fuel (indexOf text commentStartExpression (startIndex + 1)).1
          calls blockState
      else
        let endMatch := indexOf text commentEndExpression startIndex
        let endIndex := endMatch.1
        let blockState' := if endIndex = -1 then 1 else blockState
        let commentLength :=
          if endIndex = -1 then (text.length : Int) - startIndex
          else endIndex - startIndex + endMatch.2
        commentLoop text mask fuel
          (indexOf text commentStartExpression (startIndex + commentLength)).1
          (calls ++ [⟨startIndex, commentLength, Format.multiLineCommentFormat⟩]) blockState'
    else some (calls, blockState)

/-- The block-comment part of `highlightBlock`, from `setCurrentBlockState(0)`
on: its calls and the block state. -/
def commentPass (text : List Char) (previousBlockState : Int) :
    Option (List FormatCall × Int) :=
  commentLoop text (stringMask text) (text.length + 2)
    (if previousBlockState ≠ 1 then (indexOf text commentStartExpression 0).1 else 0) [] 0

/-- What a run of `highlightBlock` leaves behind. -/
structure BlockResult where
  /-- the `setFormat` calls, in order -/
  calls : List FormatCall
  /-- the format of each character after the calls -/
  formats : List (Option Format)
  /-- the value given to `setCurrentBlockState` last -/
  blockState : Int
  deriving DecidableEq, Repr

/-- The function `CppHighlighter::highlightBlock(text)` run with the given
`previousBlockState()`. -/
def highlightBlock (text : List Char) (previousBlockState : Int) : Option BlockResult :=
  match commentPass text previousBlockState with
  | none => none
  | some (commentCalls, blockState) =>
    let calls := stringCalls text ++ ruleCalls text ++ commentCalls
    some { calls := calls, formats := applyCalls text.length calls, blockState := blockState }

/-- A comment open marker `/*` starts at offset `j`. -/
def IsOpenAt (text : List Char) (j : Nat) : Prop :=
  text[j]? = some '/' ∧ text[j + 1]? = some '*'

instance (text : List Char) (j : Nat) : Decidable (IsOpenAt text j) := by
  unfold IsOpenAt
  infer_instance

/-- A comment close marker `*/` starts at offset `j`. -/
def IsCloseAt (text : List Char) (j : Nat) : Prop :=
  text[j]? = some '*' ∧ text[j + 1]? = some '/'

instance (text : List Char) (j : Nat) : Decidable (IsCloseAt text j) := by
  unfold IsCloseAt
  infer_instance

/-- The format of character `i` in a vector of formats (`none`: no format set,
or no such character). -/
def formatAt (formats : List (Option Format)) (i : Nat) : Option Format :=
  formats.getD i none

/-- The call reaches character `i`: its start is a valid offset and
`start <= i < start + count`. -/
def Covers (c : FormatCall) (i : Nat) : Prop :=
  0 ≤ c.start ∧ c.start ≤ i ∧ (i : Int) < c.start + c.count

instance (c : FormatCall) (i : Nat) : Decidable (Covers c i) := by
  unfold Covers
  infer_instance

/-- Character `i` lies in the match with start `m.1` and length `m.2`. -/
def InMatch (m : Nat × Nat) (i : Nat) : Prop := m.1 ≤ i ∧ i < m.1 + m.2

instance (m : Nat × Nat) (i : Nat) : Decidable (InMatch m i) := by
  unfold InMatch
  infer_instance

/-- A line-comment marker `//` starts at offset `j`. -/
def IsLineCommentAt (text : List Char) (j : Nat) : Prop :=
  text[j]? = some '/' ∧ text[j + 1]? = some '/'

instance (text : List Char) (j : Nat) : Decidable (IsLineCommentAt text j) := by
  unfold IsLineCommentAt
  infer_instance

/-- Rule `r` has a match on character `i` that the mask test lets through,
so that the rule loop tags it. -/
def Applied (text : List Char) (r : HighlightingRule) (i : Nat) : Prop :=
  ∃ m ∈ globalMatch r.pattern text,
    InMatch m i ∧ skipMatch (stringMask text) m.1 m.2 = false

instance (text : List Char) (r : HighlightingRule) (i : Nat) : Decidable (Applied text r i) := by
  unfold Applied
  infer_instance

/-- One pass through the body of the loop `while (startIndex >= 0)`. -/
structure CommentStep where
  /-- the offset at which `isInString` is read; `none` when the test
  `startIndex < isInString.size()` fails, so that the read is not evaluated -/
  maskRead : Option Int
  /-- the `setFormat` call; `none` on the `continue` path -/
  call : Option FormatCall
  /-- whether `setCurrentBlockState(1)` is called -/
  unterminated : Bool
  /-- the new value of `startIndex` -/
  next : Int

/-- The body of the loop `while (startIndex >= 0)`, entered with the given
`startIndex`. -/
def commentStep (text : List Char) (mask : List Bool) (startIndex : Int) : CommentStep :=
  let maskRead := if startIndex < mask.length then some startIndex else none
  if startIndex < mask.length ∧ mask.getD startIndex.toNat false = true then
    { maskRead := maskRead, call := none, unterminated := false,
      next := (indexOf text commentStartExpression (startIndex + 1)).1 }
  else
    let endMatch := indexOf text commentEndExpression startIndex
    let endIndex := endMatch.1
    let commentLength :=
      if endIndex = -1 then (text.length : Int) - startIndex
      else endIndex - startIndex + endMatch.2
    { maskRead := maskRead,
      call := some ⟨startIndex, commentLength, Format.multiLineCommentFormat⟩,
      unterminated := decide (endIndex = -1),
      next := (indexOf text commentStartExpression (startIndex + commentLength)).1 }

/-- The offsets `i` of the assignments `isInString[i] = true` of the string
loop. -/
def maskWrites (text : List Char) : List Nat :=
  (globalMatch stringPattern text).flatMap
    (fun sl => (List.range sl.2).map (fun j => sl.1 + j))

/-- The offsets at which `isInString` can be read while `skip` is computed
for a match: the offsets `i` of the match that pass the test
`i < isInString.size()`. -/
def skipReads (mask : List Bool) (start length : Nat) : List Nat :=
  ((List.range length).map (fun j => start + j)).filter (fun i => decide (i < mask.length))

/-- The least offset among `start`, ..., `start + n - 1` that satisfies `p`. -/
def findFrom (p : Nat → Bool) : Nat → Nat → Option Nat
  | 0, _ => none
  | n + 1, start => if p start then some start else findFrom p n (start + 1)

/-- Following the spec's words: the first `/*` of the line at or after
offset `start`. -/
def firstOpen (text : List Char) (start : Nat) : Option Nat :=
  findFrom (fun j => decide (IsOpenAt text j)) (text.length - start) start

/-- Following the spec's words: the first `*/` of the line at or after
offset `start`. -/
def firstClose (text : List Char) (start : Nat) : Option Nat :=
  findFrom (fun j => decide (IsCloseAt text j)) (text.length - start) start

/-- Following the spec's words: the block comments of a line found left to
right from offset `start` on, as spans `(offset, length)`, and the output
state. The first `/*` at or after `start` is paired with the first `*/` that
follows, which is one at a greater offset than the `/*`; the span runs from
the open marker through the close marker, and the scan resumes right after
the close marker. A `/*` without a `*/` gives a span to the end of the line
and state 1 (`InsideBlockComment`); otherwise the state is 0 (`Normal`). The
first argument bounds the number of comments; `none` means the bound was
reached. -/
def specComments (text : List Char) : Nat → Nat → Option (List (Nat × Nat) × Int)
  | 0, _ => none
  | fuel + 1, start =>
    match firstOpen text start with
    | none => some ([], 0)
    | some s =>
      match firstClose text (s + 1) with
      | none => some ([(s, text.length - s)], 1)
      | some e =>
        match specComments text fuel (e + 2) with
        | none => none
        | some (spans, st) => some ((s, e + 2 - s) :: spans, st)

/-- The characters between the quotes of a literal with quote `q`, as the
spec describes them: characters other than `q` and the backslash, and
two-character escapes, a backslash followed by any character. -/
inductive LiteralBody (q : Char) : List Char → Prop where
  | nil : LiteralBody q []
  | plain {c : Char} {s : List Char} :
      c ≠ q → c ≠ '\\' → LiteralBody q s → LiteralBody q (c :: s)
  | escape {x : Char} {s : List Char} : LiteralBody q s → LiteralBody q ('\\' :: x :: s)

end CppHighlighter


namespace CodeEditor

/-! ## Generic facts about the scan loop -/

theorem charAt_append_cons (pre : List Char) (x : Char) (post : List Char) (i : Int)
    (hi : i = pre.length) : charAt (pre ++ x :: post) i = x := by
  subst hi
  have h : (pre ++ x :: post)[pre.length]? = some x := by
    rw [List.getElem?_append_right (le_refl _)]
    simp
  simp [charAt, List.getD_eq_getElem?_getD, h]

theorem charAt_eq_getElem (text : List Char) (n : Nat) (h : n < text.length) :
    charAt text (n : Int) = text[n] := by
  simp [charAt, List.getD_eq_getElem?_getD, List.getElem?_eq_getElem h]

/-- More fuel never changes a result already obtained. -/
theorem scanLoop_mono (text : List Char) (b t : Char) (dir : Int) :
    ∀ (f f' : Nat) (s : Scan) (r : Int), f ≤ f' →
      scanLoop text b t dir f s = some r → scanLoop text b t dir f' s = some r := by
  intro f
  induction f with
  | zero => intro f' s r _ h; simp [scanLoop] at h
  | succ f ih =>
    intro f' s r hle h
    obtain ⟨f'', rfl⟩ : ∃ f'', f' = f'' + 1 := ⟨f' - 1, by omega⟩
    unfold scanLoop at h ⊢
    split
    · rename_i hin
      rw [if_pos hin] at h
      cases hs : step text b t dir s with
      | inl r' => rw [hs] at h; simpa using h
      | inr s' =>
        rw [hs] at h
        exact ih f'' s' r (by omega) h
    · rename_i hin
      rw [if_neg hin] at h
      exact h

/-- What one loop body can do to the index. -/
theorem step_cases (text : List Char) (b t : Char) (dir : Int) (s : Scan) :
    (step text b t dir s = Sum.inl s.i ∧ charAt text s.i = t) ∨
    (∃ s', step text b t dir s = Sum.inr s' ∧ s'.i = s.i + dir) ∨
    (∃ s', step text b t dir s = Sum.inr s' ∧ s'.i = s.i + 1 + dir ∧
      s.i + 1 < text.length ∧
      ((s.state = State.Normal ∧ charAt text s.i = '/' ∧ s'.state ≠ State.Normal) ∨
       (s.state = State.InBlockComment ∧ charAt text s.i = '*' ∧
          s'.state = State.Normal))) := by
  unfold step
  rcases s with ⟨i, d, st, q⟩
  cases st <;> simp only [] <;> split_ifs <;> simp_all

/-- A returned offset other than -1 holds the target bracket and lies on the
side of the start index given by the direction. -/
theorem scanLoop_result (text : List Char) (b t : Char) (dir : Int) :
    ∀ (f : Nat) (s : Scan) (r : Int), scanLoop text b t dir f s = some r →
      r = -1 ∨ (0 ≤ r ∧ r < text.length ∧ charAt text r = t ∧
        (dir = 1 → s.i ≤ r) ∧ (dir = -1 → r ≤ s.i)) := by
  intro f
  induction f with
  | zero => intro s r h; simp [scanLoop] at h
  | succ f ih =>
    intro s r h
    unfold scanLoop at h
    split at h
    · rename_i hin
      rcases step_cases text b t dir s with ⟨hs, hc⟩ | ⟨s', hs, hi⟩ | ⟨s', hs, hi, _, _⟩
      · rw [hs] at h
        simp only [Option.some.injEq] at h
        subst h
        exact Or.inr ⟨hin.1, hin.2, hc, fun _ => le_refl _, fun _ => le_refl _⟩
      · rw [hs] at h
        rcases ih s' r h with h1 | ⟨h1, h2, h3, h4, h5⟩
        · exact Or.inl h1
        · refine Or.inr ⟨h1, h2, h3, fun hd => ?_, fun hd => ?_⟩
          · have := h4 hd; omega
          · have := h5 hd; omega
      · rw [hs] at h
        rcases ih s' r h with h1 | ⟨h1, h2, h3, h4, h5⟩
        · exact Or.inl h1
        · refine Or.inr ⟨h1, h2, h3, fun hd => ?_, fun hd => ?_⟩
          · have := h4 hd; omega
          · have := h5 hd; omega
    · simp only [Option.some.injEq] at h
      exact Or.inl h.symm

/-- The forward scan returns within `text.length - i + 1` iterations. -/
theorem scanLoop_fwd_isSome (text : List Char) (b t : Char) :
    ∀ (f : Nat) (s : Scan), 0 < f → (text.length : Int) - s.i < f →
      (scanLoop text b t 1 f s).isSome = true := by
  intro f
  induction f with
  | zero => intro s h; omega
  | succ f ih =>
    intro s _ hlt
    unfold scanLoop
    split
    · rename_i hin
      rcases step_cases text b t 1 s with ⟨hs, _⟩ | ⟨s', hs, hi⟩ | ⟨s', hs, hi, _, _⟩
      · rw [hs]; rfl
      · rw [hs]; exact ih s' (by omega) (by omega)
      · rw [hs]; exact ih s' (by omega) (by omega)
    · rfl

/-- The backward scan returns within `2 * (i + 1) + 1` iterations: an
iteration that leaves the index where it was (the `i++` of a two-character
token undone by `i += direction`) is followed by one that moves it. -/
theorem scanLoop_bwd_isSome (text : List Char) (b t : Char) :
    ∀ (n : Nat) (s : Scan) (f : Nat), s.i < n → 2 * n + 1 ≤ f →
      (scanLoop text b t (-1) f s).isSome = true := by
  intro n
  induction n with
  | zero =>
    intro s f hi hf
    obtain ⟨f', rfl⟩ : ∃ f', f = f' + 1 := ⟨f - 1, by omega⟩
    unfold scanLoop
    rw [if_neg (by omega)]
    rfl
  | succ n ih =>
    intro s f hi hf
    by_cases hlt : s.i < n
    · exact ih s f hlt (by omega)
    · obtain ⟨f', rfl⟩ : ∃ f', f = f' + 1 := ⟨f - 1, by omega⟩
      unfold scanLoop
      split
      · rcases step_cases text b t (-1) s with ⟨hs, _⟩ | ⟨s', hs, hi'⟩ | ⟨s', hs, hi', _, hst⟩
        · rw [hs]; rfl
        · rw [hs]; exact ih s' f' (by omega) (by omega)
        · rw [hs]
          have hieq : s'.i = s.i := by omega
          obtain ⟨f'', rfl⟩ : ∃ f'', f' = f'' + 1 := ⟨f' - 1, by omega⟩
          unfold scanLoop
          split
          · rcases step_cases text b t (-1) s' with
              ⟨hs2, _⟩ | ⟨s'', hs2, hi2⟩ | ⟨s'', hs2, _, _, hst2⟩
            · rw [hs2]; rfl
            · rw [hs2]; exact ih s'' f'' (by omega) (by omega)
            · exfalso
              rw [hieq] at hst2
              rcases hst with ⟨_, hc, hn⟩ | ⟨_, hc, hn⟩ <;>
                rcases hst2 with ⟨hn2, hc2, _⟩ | ⟨hn2, hc2, _⟩
              · exact hn hn2
              · rw [hc] at hc2; exact absurd hc2 (by decide)
              · rw [hc] at hc2; exact absurd hc2 (by decide)
              · rw [hn] at hn2; exact absurd hn2 (by decide)
          · rfl
      · rfl

theorem bracketInfo_dir (c t : Char) (d : Int) (h : bracketInfo c = some (t, d)) :
    d = 1 ∨ d = -1 := by
  unfold bracketInfo at h
  split_ifs at h <;> simp_all

/-- The iteration bound used by `findMatchingBracket` is never reached. -/
theorem findMatchingBracket_isSome (text : List Char) (pos : Int) :
    (findMatchingBracket text pos).isSome = true := by
  unfold findMatchingBracket findMatchingBracketWith
  split
  · rfl
  · rename_i hpos
    simp only []
    split
    · rfl
    · rename_i t d hinfo
      rcases bracketInfo_dir _ _ _ hinfo with rfl | rfl
      · exact scanLoop_fwd_isSome text _ _ _ _ (by omega) (by simp; omega)
      · have hp : pos.toNat < text.length := by omega
        exact scanLoop_bwd_isSome text _ _ text.length _ _ (by simp; omega) (by omega)

/-- One iteration in state `Normal` on a character that is neither a quote
nor a slash. -/
theorem scanLoop_plain (text : List Char) (b t : Char) (dir : Int) (k : Nat) (i d : Int)
    (q x : Char) (hin : 0 ≤ i ∧ i < text.length) (hc : charAt text i = x)
    (hx1 : x ≠ '"') (hx2 : x ≠ '\'') (hx3 : x ≠ '/') :
    scanLoop text b t dir (k + 1) ⟨i, d, State.Normal, q⟩ =
      if x = b then scanLoop text b t dir k ⟨i + dir, d + 1, State.Normal, q⟩
      else if x = t then
        (if d = 0 then some i else scanLoop text b t dir k ⟨i + dir, d - 1, State.Normal, q⟩)
      else scanLoop text b t dir k ⟨i + dir, d, State.Normal, q⟩ := by
  rw [scanLoop]
  simp only [hin, and_self, if_true]
  simp only [step, hc, hx1, hx2, hx3, false_or, false_and, if_false]
  split_ifs <;> rfl

theorem bracketPairs_cases {o c : Char} (h : (o, c) ∈ bracketPairs) :
    (o = '(' ∧ c = ')') ∨ (o = '{' ∧ c = '}') ∨ (o = '[' ∧ c = ']') := by
  simpa [bracketPairs] using h

theorem bracketInfo_open {o c : Char} (h : (o, c) ∈ bracketPairs) :
    bracketInfo o = some (c, 1) := by
  rcases bracketPairs_cases h with ⟨rfl, rfl⟩ | ⟨rfl, rfl⟩ | ⟨rfl, rfl⟩ <;> rfl

theorem bracketInfo_close {o c : Char} (h : (o, c) ∈ bracketPairs) :
    bracketInfo c = some (o, -1) := by
  rcases bracketPairs_cases h with ⟨rfl, rfl⟩ | ⟨rfl, rfl⟩ | ⟨rfl, rfl⟩ <;> rfl

theorem bracketPairs_plain {o c : Char} (h : (o, c) ∈ bracketPairs) :
    (o ≠ '"' ∧ o ≠ '\'' ∧ o ≠ '/') ∧ (c ≠ '"' ∧ c ≠ '\'' ∧ c ≠ '/') := by
  rcases bracketPairs_cases h with ⟨rfl, rfl⟩ | ⟨rfl, rfl⟩ | ⟨rfl, rfl⟩ <;> decide

theorem bracketPairs_rel {o c b t : Char} (h : (o, c) ∈ bracketPairs)
    (h' : (b, t) ∈ bracketPairs) : o ≠ t ∧ c ≠ b ∧ (o = b ↔ c = t) := by
  rcases bracketPairs_cases h with ⟨rfl, rfl⟩ | ⟨rfl, rfl⟩ | ⟨rfl, rfl⟩ <;>
    rcases bracketPairs_cases h' with ⟨rfl, rfl⟩ | ⟨rfl, rfl⟩ | ⟨rfl, rfl⟩ <;> decide

/-- The forward scan for the pair `(b, t)` crosses a well-nested segment and
leaves it with the depth it entered with. -/
theorem fwd_balanced {s : List Char} (hs : Balanced s) :
    ∀ (text pre post : List Char), text = pre ++ s ++ post →
    ∀ (b t : Char), (b, t) ∈ bracketPairs →
    ∀ (k : Nat) (i j d : Int) (q : Char), i = pre.length → j = i + s.length → 0 ≤ d →
      scanLoop text b t 1 (s.length + k) ⟨i, d, State.Normal, q⟩ =
        scanLoop text b t 1 k ⟨j, d, State.Normal, q⟩ := by
  induction hs with
  | nil =>
    intro text pre post _ b t _ k i j d q hi hj _
    simp at hj
    subst hj
    simp
  | @wrap o c s hp hs ih =>
    intro text pre post htext b t hbt k i j d q hi hj hd
    have hlen : text.length = pre.length + (s.length + 2) + post.length := by
      simp [htext]; omega
    have htext1 : text = pre ++ o :: (s ++ [c] ++ post) := by simp [htext]
    have htext2 : text = (pre ++ o :: s) ++ c :: post := by simp [htext]
    have hco : charAt text i = o := by
      rw [htext1]; exact charAt_append_cons _ _ _ _ hi
    have hcc : charAt text (i + 1 + s.length) = c := by
      rw [htext2]; exact charAt_append_cons _ _ _ _ (by simp [hi]; omega)
    have hfuel : (o :: s ++ [c]).length + k = (s.length + (k + 1)) + 1 := by
      simp; omega
    have hjj : i + 1 + (s.length : Int) + 1 = j := by
      simp at hj; omega
    obtain ⟨⟨ho1, ho2, ho3⟩, ⟨hc1, hc2, hc3⟩⟩ := bracketPairs_plain hp
    obtain ⟨hot, hcb, hiff⟩ := bracketPairs_rel hp hbt
    have ih1 := fun (d' : Int) (hd' : 0 ≤ d') =>
      ih text (pre ++ [o]) (c :: post) (by simp [htext]) b t hbt (k + 1) (i + 1)
        (i + 1 + s.length) d' q (by simp [hi]) rfl hd'
    rw [hfuel, scanLoop_plain text b t 1 _ i d q o ⟨by omega, by omega⟩ hco ho1 ho2 ho3]
    by_cases hob : o = b
    · have hct : c = t := hiff.mp hob
      rw [if_pos hob, ih1 (d + 1) (by omega),
        scanLoop_plain text b t 1 _ _ (d + 1) q c ⟨by omega, by omega⟩ hcc hc1 hc2 hc3,
        if_neg hcb, if_pos hct, if_neg (by omega), hjj]
      simp
    · have hct : c ≠ t := fun h => hob (hiff.mpr h)
      rw [if_neg hob, if_neg hot, ih1 d hd,
        scanLoop_plain text b t 1 _ _ d q c ⟨by omega, by omega⟩ hcc hc1 hc2 hc3,
        if_neg hcb, if_neg hct, hjj]
  | @append s u hs hu ihs ihu =>
    intro text pre post htext b t hbt k i j d q hi hj hd
    have hfuel : (s ++ u).length + k = s.length + (u.length + k) := by
      simp; omega
    rw [hfuel, ihs text pre (u ++ post) (by simp [htext]) b t hbt (u.length + k) i
      (i + s.length) d q hi rfl hd]
    exact ihu text (pre ++ s) post (by simp [htext]) b t hbt k (i + s.length) j d q
      (by simp [hi]) (by simp at hj; omega) hd

/-- The backward scan for the pair `(t, b)`, started on the last character of
a well-nested segment, crosses it and leaves it with the depth it entered
with. -/
theorem bwd_balanced {s : List Char} (hs : Balanced s) :
    ∀ (text pre post : List Char), text = pre ++ s ++ post →
    ∀ (b t : Char), (t, b) ∈ bracketPairs →
    ∀ (k : Nat) (i j d : Int) (q : Char), j = pre.length - 1 → i = j + s.length → 0 ≤ d →
      scanLoop text b t (-1) (s.length + k) ⟨i, d, State.Normal, q⟩ =
        scanLoop text b t (-1) k ⟨j, d, State.Normal, q⟩ := by
  induction hs with
  | nil =>
    intro text pre post _ b t _ k i j d q hj hi _
    simp at hi
    subst hi
    simp
  | @wrap o c s hp hs ih =>
    intro text pre post htext b t hbt k i j d q hj hi hd
    have hlen : text.length = pre.length + (s.length + 2) + post.length := by
      simp [htext]; omega
    have htext1 : text = pre ++ o :: (s ++ [c] ++ post) := by simp [htext]
    have htext2 : text = (pre ++ o :: s) ++ c :: post := by simp [htext]
    have hlen2 : (o :: s ++ [c]).length = s.length + 2 := by simp
    have hco : charAt text (j + 1) = o := by
      rw [htext1]; exact charAt_append_cons _ _ _ _ (by omega)
    have hcc : charAt text i = c := by
      rw [htext2]
      exact charAt_append_cons _ _ _ _ (by
        simp only [List.length_append, List.length_cons, Nat.cast_add, Nat.cast_one]
        omega)
    have hfuel : (o :: s ++ [c]).length + k = (s.length + (k + 1)) + 1 := by
      simp; omega
    have hii : i + -1 = j + 1 + (s.length : Int) := by
      omega
    obtain ⟨⟨ho1, ho2, ho3⟩, ⟨hc1, hc2, hc3⟩⟩ := bracketPairs_plain hp
    obtain ⟨hot, hcb, hiff⟩ := bracketPairs_rel hbt hp
    have ih1 := fun (d' : Int) (hd' : 0 ≤ d') =>
      ih text (pre ++ [o]) (c :: post) (by simp [htext]) b t hbt (k + 1)
        (j + 1 + s.length) (j + 1) d' q (by simp [hj]) rfl hd'
    rw [hfuel, scanLoop_plain text b t (-1) _ i d q c ⟨by omega, by omega⟩ hcc hc1 hc2 hc3]
    by_cases hcb' : c = b
    · have hot' : o = t := (hiff.mpr hcb'.symm).symm
      rw [if_pos hcb', hii, ih1 (d + 1) (by omega),
        scanLoop_plain text b t (-1) _ _ (d + 1) q o ⟨by omega, by omega⟩ hco ho1 ho2 ho3,
        if_neg (fun h => hcb h.symm), if_pos hot', if_neg (by omega)]
      simp
    · have hot' : o ≠ t := fun h => hcb' (hiff.mp h.symm).symm
      rw [if_neg hcb', if_neg (fun h => hot h.symm), hii, ih1 d hd,
        scanLoop_plain text b t (-1) _ _ d q o ⟨by omega, by omega⟩ hco ho1 ho2 ho3,
        if_neg (fun h => hcb h.symm), if_neg hot']
      simp
  | @append s u hs hu ihs ihu =>
    intro text pre post htext b t hbt k i j d q hj hi hd
    have hfuel : (s ++ u).length + k = u.length + (s.length + k) := by
      simp; omega
    rw [hfuel, ihu text (pre ++ s) post (by simp [htext]) b t hbt (s.length + k) i
      (j + s.length) d q (by simp [hj]; omega) (by simp at hi; omega) hd]
    exact ihs text pre (u ++ post) (by simp [htext]) b t hbt k (j + s.length) j d q
      hj rfl hd

/-- In a well-nested string every opening bracket is followed by a
well-nested segment and then by its own closing bracket. -/
theorem Balanced.partner {text : List Char} (h : Balanced text) :
    ∀ (pre rest : List Char) (o : Char), text = pre ++ o :: rest →
      (∃ c, (o, c) ∈ bracketPairs) →
      ∃ inner c post, rest = inner ++ c :: post ∧ Balanced inner ∧ (o, c) ∈ bracketPairs := by
  induction h with
  | nil => intro pre rest o h _; simp at h
  | @wrap o' c' s hp hs ih =>
    intro pre rest o htext ho
    cases pre with
    | nil =>
      simp only [List.nil_append, List.cons.injEq] at htext
      obtain ⟨rfl, rfl⟩ := htext
      exact ⟨s, c', [], rfl, hs, hp⟩
    | cons x pre' =>
      simp only [List.cons_append, List.cons.injEq] at htext
      obtain ⟨_, htext⟩ := htext
      rcases List.eq_nil_or_concat rest with rfl | ⟨rest', z, rfl⟩
      · exfalso
        have h2 : s ++ [c'] = pre' ++ [o] := htext
        have h3 := List.append_inj' h2 rfl
        simp only [List.cons.injEq, and_true] at h3
        obtain ⟨c, hc⟩ := ho
        exact (bracketPairs_rel hc hp).1 h3.2.symm
      · have h2 : s ++ [c'] = (pre' ++ o :: rest') ++ [z] := by simpa using htext
        have h3 := List.append_inj' h2 rfl
        simp only [List.cons.injEq, and_true] at h3
        obtain ⟨inner, c, post, hrest, hin, hpc⟩ := ih pre' rest' o h3.1 ho
        exact ⟨inner, c, post ++ [z], by simp [hrest], hin, hpc⟩
  | @append s u hs hu ihs ihu =>
    intro pre rest o htext ho
    rcases List.append_eq_append_iff.mp htext with ⟨a, rfl, hu'⟩ | ⟨a, rfl, hu'⟩
    · exact ihu a rest o hu' ho
    · cases a with
      | nil => exact ihu [] rest o (by simpa using hu'.symm) ho
      | cons y a' =>
        simp only [List.cons_append, List.cons.injEq] at hu'
        obtain ⟨rfl, rfl⟩ := hu'
        obtain ⟨inner, c, post, hrest, hin, hpc⟩ := ihs pre a' o rfl ho
        exact ⟨inner, c, post ++ u, by simp [hrest], hin, hpc⟩

/-- Both scans across one bracket pair that encloses a well-nested segment. -/
theorem findMatchingBracket_pair (pre inner post : List Char) (o c : Char)
    (hp : (o, c) ∈ bracketPairs) (hin : Balanced inner) :
    findMatchingBracket (pre ++ o :: inner ++ c :: post) (pre.length : Nat) =
        some ((pre.length + 1 + inner.length : Nat) : Int) ∧
      findMatchingBracket (pre ++ o :: inner ++ c :: post)
        ((pre.length + 1 + inner.length : Nat) : Int) = some ((pre.length : Nat) : Int) := by
  obtain ⟨⟨ho1, ho2, ho3⟩, ⟨hc1, hc2, hc3⟩⟩ := bracketPairs_plain hp
  obtain ⟨hoc, hco, _⟩ := bracketPairs_rel hp hp
  generalize htext : pre ++ o :: inner ++ c :: post = text
  have hlen : text.length = pre.length + 1 + inner.length + 1 + post.length := by
    simp [← htext]; omega
  have hato : charAt text (pre.length : Nat) = o := by
    have h1 : text = pre ++ o :: (inner ++ c :: post) := by simp [← htext]
    rw [h1]
    exact charAt_append_cons pre o (inner ++ c :: post) _ rfl
  have hatc : charAt text ((pre.length + 1 + inner.length : Nat) : Int) = c := by
    have h2 : text = (pre ++ o :: inner) ++ c :: post := by simp [← htext]
    rw [h2]
    exact charAt_append_cons _ _ _ _ (by simp; omega)
  constructor
  · unfold findMatchingBracket findMatchingBracketWith
    rw [if_neg (by omega)]
    simp only [hato, bracketInfo_open hp]
    apply scanLoop_mono text o c 1 (inner.length + 1) _ _ _ (by omega)
    rw [fwd_balanced hin text (pre ++ [o]) (c :: post) (by simp [← htext]) o c hp 1
      ((pre.length : Nat) + 1) ((pre.length + 1 + inner.length : Nat) : Int) 0 _
      (by simp) (by push_cast; ring) (le_refl _)]
    rw [scanLoop_plain text o c 1 0 _ 0 _ c ⟨by omega, by omega⟩ hatc hc1 hc2 hc3,
      if_neg hco, if_pos rfl, if_pos rfl]
  · unfold findMatchingBracket findMatchingBracketWith
    rw [if_neg (by omega)]
    simp only [hatc, bracketInfo_close hp]
    apply scanLoop_mono text c o (-1) (inner.length + 1) _ _ _ (by omega)
    rw [bwd_balanced hin text (pre ++ [o]) (c :: post) (by simp [← htext]) c o hp 1
      (((pre.length + 1 + inner.length : Nat) : Int) + -1) ((pre.length : Nat) : Int) 0 _
      (by simp) (by push_cast; ring) (le_refl _)]
    rw [scanLoop_plain text c o (-1) 0 _ 0 _ o ⟨by omega, by omega⟩ hato ho1 ho2 ho3,
      if_neg hoc, if_pos rfl, if_pos rfl]

theorem bracketInfo_none {x : Char} (h : x ∉ ['(', ')', '{', '}', '[', ']']) :
    bracketInfo x = none := by
  simp only [List.mem_cons, List.mem_singleton, List.not_mem_nil, or_false, not_or] at h
  obtain ⟨h1, h2, h3, h4, h5, h6⟩ := h
  simp [bracketInfo, h1, h2, h3, h4, h5, h6]

/-! ## The partner of an opening bracket is unique -/

theorem height_append (a b : List Char) : height (a ++ b) = height a + height b := by
  induction a with
  | nil => simp [height]
  | cons x a ih =>
    rw [List.cons_append]
    conv_lhs => rw [height]
    conv_rhs => rw [height]
    rw [ih]
    ring

theorem height_open {o c : Char} (h : (o, c) ∈ bracketPairs) (xs : List Char) :
    height (o :: xs) = 1 + height xs := by
  rcases bracketPairs_cases h with ⟨rfl, rfl⟩ | ⟨rfl, rfl⟩ | ⟨rfl, rfl⟩ <;>
    simp [height, bracketPairs]

theorem height_close {o c : Char} (h : (o, c) ∈ bracketPairs) (xs : List Char) :
    height (c :: xs) = -1 + height xs := by
  rcases bracketPairs_cases h with ⟨rfl, rfl⟩ | ⟨rfl, rfl⟩ | ⟨rfl, rfl⟩ <;>
    simp [height, bracketPairs]

theorem Balanced.height_eq {s : List Char} (h : Balanced s) : height s = 0 := by
  induction h with
  | nil => rfl
  | @wrap o c s hp _ ih =>
    have e : o :: s ++ [c] = o :: (s ++ [c]) := rfl
    rw [e, height_open hp, height_append, ih, height_close hp]
    simp [height]
  | append _ _ ih1 ih2 => rw [height_append, ih1, ih2]; rfl

/-- No prefix of a well-nested string closes more brackets than it opens. -/
theorem Balanced.height_prefix {s : List Char} (h : Balanced s) :
    ∀ a b : List Char, s = a ++ b → 0 ≤ height a := by
  induction h with
  | nil =>
    intro a b h
    have : a = [] := by
      cases a with
      | nil => rfl
      | cons x a => simp at h
    rw [this]; simp [height]
  | @wrap o c s hp hs ih =>
    intro a b h
    cases a with
    | nil => simp [height]
    | cons x a' =>
      simp only [List.cons_append, List.cons.injEq] at h
      obtain ⟨rfl, h⟩ := h
      rw [height_open hp]
      rcases List.eq_nil_or_concat b with rfl | ⟨b', z, rfl⟩
      · rw [List.append_nil] at h
        rw [← h, height_append, hs.height_eq, height_close hp]
        simp [height]
      · have h2 : s ++ [c] = (a' ++ b') ++ [z] := by simpa using h
        have h3 := List.append_inj' h2 rfl
        have := ih a' b' h3.1
        omega
  | @append s u hs hu ihs ihu =>
    intro a b h
    rcases List.append_eq_append_iff.mp h with ⟨a', rfl, _⟩ | ⟨c', rfl, _⟩
    · rw [height_append, hs.height_eq]
      have := ihu a' _ (by assumption)
      omega
    · exact ihs a c' rfl

/-- After an opening bracket, at most one closing bracket is preceded by a
well-nested segment. -/
theorem partner_unique (inner inner' post post' : List Char) (c c' o o' : Char)
    (h : inner ++ c :: post = inner' ++ c' :: post') (hin : Balanced inner)
    (hin' : Balanced inner') (hc : (o, c) ∈ bracketPairs) (hc' : (o', c') ∈ bracketPairs) :
    inner = inner' := by
  rcases List.append_eq_append_iff.mp h with ⟨a, rfl, h2⟩ | ⟨a, rfl, h2⟩
  · cases a with
    | nil => simp
    | cons x a =>
      exfalso
      simp only [List.cons_append, List.cons.injEq] at h2
      obtain ⟨rfl, _⟩ := h2
      have := hin'.height_prefix (inner ++ [c]) a (by simp)
      rw [height_append, hin.height_eq, height_close hc] at this
      simp [height] at this
  · cases a with
    | nil => simp
    | cons x a =>
      exfalso
      simp only [List.cons_append, List.cons.injEq] at h2
      obtain ⟨rfl, _⟩ := h2
      have := hin.height_prefix (inner' ++ [c']) a (by simp)
      rw [height_append, hin'.height_eq, height_close hc'] at this
      simp [height] at this

/-! ## Claims about `findMatchingBracket` -/

/-- C1 (bracket symmetry). In a well-nested string over the six delimiters,
every opening bracket `o` at offset `|pre|` is followed by a well-nested
segment `inner` and its closing partner `c`; `findMatchingBracket` on the
opening offset returns the partner's offset `|pre| + 1 + |inner|`, and on
that offset it returns `|pre|` again. The partner is the only closing bracket
after `o` that a well-nested segment separates from it. -/
theorem findMatchingBracket_balanced_roundtrip (text pre rest : List Char) (o : Char)
    (hbal : Balanced text) (htext : text = pre ++ o :: rest)
    (ho : ∃ c, (o, c) ∈ bracketPairs) :
    ∃ inner c post, rest = inner ++ c :: post ∧ Balanced inner ∧ (o, c) ∈ bracketPairs ∧
      findMatchingBracket text (pre.length : Nat) =
        some ((pre.length + 1 + inner.length : Nat) : Int) ∧
      findMatchingBracket text ((pre.length + 1 + inner.length : Nat) : Int) =
        some ((pre.length : Nat) : Int) ∧
      ∀ (inner2 post2 : List Char) (c2 o2 : Char), rest = inner2 ++ c2 :: post2 →
        Balanced inner2 → (o2, c2) ∈ bracketPairs → inner2 = inner := by
  obtain ⟨inner, c, post, hrest, hin, hp⟩ := hbal.partner pre rest o htext ho
  refine ⟨inner, c, post, hrest, hin, hp, ?_⟩
  have h := findMatchingBracket_pair pre inner post o c hp hin
  have e : text = pre ++ o :: inner ++ c :: post := by simp [htext, hrest]
  rw [e]
  refine ⟨h.1, h.2, fun inner2 post2 c2 o2 h2 hin2 hp2 => ?_⟩
  exact partner_unique inner2 inner post2 post c2 c o2 o (by rw [← h2, hrest]) hin2 hin hp2 hp

/-- Witness for C1 on the text `(()[])`, at the bracket at offset 1. -/
theorem findMatchingBracket_balanced_roundtrip_witness :
    ∃ inner c post, [')', '[', ']', ')'] = inner ++ c :: post ∧ Balanced inner ∧
      (('(' : Char), c) ∈ bracketPairs ∧
      findMatchingBracket ['(', '(', ')', '[', ']', ')'] ((['('].length : Nat) : Int) =
        some (((['('] : List Char).length + 1 + inner.length : Nat) : Int) ∧
      findMatchingBracket ['(', '(', ')', '[', ']', ')']
        (((['('] : List Char).length + 1 + inner.length : Nat) : Int) =
        some (((['('] : List Char).length : Nat) : Int) ∧
      ∀ (inner2 post2 : List Char) (c2 o2 : Char),
        [')', '[', ']', ')'] = inner2 ++ c2 :: post2 →
        Balanced inner2 → (o2, c2) ∈ bracketPairs → inner2 = inner :=
  findMatchingBracket_balanced_roundtrip ['(', '(', ')', '[', ']', ')'] ['(']
    [')', '[', ']', ')'] '('
    (@Balanced.wrap '(' ')' ['(', ')', '[', ']'] (by decide)
      (@Balanced.append ['(', ')'] ['[', ']']
        (@Balanced.wrap '(' ')' [] (by decide) Balanced.nil)
        (@Balanced.wrap '[' ']' [] (by decide) Balanced.nil)))
    rfl ⟨')', by decide⟩

/-- C4 (short-circuit). When the offset is out of range or the character
there is not one of `( ) { } [ ]`, the result is -1 whatever number of loop
iterations is allowed, zero included: no scanning takes place. -/
theorem findMatchingBracket_not_a_bracket (text : List Char) (pos : Int)
    (h : pos < 0 ∨ pos ≥ text.length ∨
      charAt text pos ∉ ['(', ')', '{', '}', '[', ']']) :
    (∀ fuel, findMatchingBracketWith fuel text pos = some (-1)) ∧
      findMatchingBracket text pos = some (-1) := by
  have key : ∀ fuel, findMatchingBracketWith fuel text pos = some (-1) := by
    intro fuel
    unfold findMatchingBracketWith
    split
    · rfl
    · rename_i hr
      have hb : bracketInfo (charAt text pos) = none := by
        apply bracketInfo_none
        rcases h with h | h | h
        · exact absurd (Or.inl h) hr
        · exact absurd (Or.inr h) hr
        · exact h
      simp only [hb]
  exact ⟨key, key _⟩

/-- Witness for C4: offset 1 of `(a)` holds a letter. -/
theorem findMatchingBracket_not_a_bracket_witness :
    (∀ fuel, findMatchingBracketWith fuel ['(', 'a', ')'] 1 = some (-1)) ∧
      findMatchingBracket ['(', 'a', ')'] 1 = some (-1) :=
  findMatchingBracket_not_a_bracket ['(', 'a', ')'] 1 (Or.inr (Or.inr (by decide)))

theorem charAt_mem_drop (text : List Char) (k : Nat) (r : Int) (h1 : (k : Int) ≤ r)
    (h2 : r < text.length) : charAt text r ∈ text.drop k := by
  obtain ⟨n, rfl⟩ : ∃ n : Nat, r = n := ⟨r.toNat, by omega⟩
  have hn : n < text.length := by omega
  rw [charAt_eq_getElem text n hn]
  have hk : k ≤ n := by omega
  have h3 : n - k < (text.drop k).length := by simp; omega
  have h4 : (text.drop k)[n - k] = text[n] := by
    rw [List.getElem_drop]
    congr 1
    omega
  rw [← h4]
  exact List.getElem_mem _

theorem charAt_mem_take (text : List Char) (k : Nat) (r : Int) (h0 : 0 ≤ r)
    (h1 : r < k) (h2 : r < text.length) : charAt text r ∈ text.take k := by
  obtain ⟨n, rfl⟩ : ∃ n : Nat, r = n := ⟨r.toNat, by omega⟩
  have hn : n < text.length := by omega
  rw [charAt_eq_getElem text n hn]
  have h3 : n < (text.take k).length := by simp; omega
  have h4 : (text.take k)[n] = text[n] := by
    rw [List.getElem_take]
  rw [← h4]
  exact List.getElem_mem _

/-- C5 (unbalanced bracket). If offset `p` holds an opening bracket whose
partner `t` does not occur after `p`, the result is -1; if it holds a
closing bracket whose partner does not occur before `p`, the result is -1. -/
theorem findMatchingBracket_unbalanced (text : List Char) (p : Nat) (t : Char)
    (hp : p < text.length) :
    (bracketInfo (charAt text p) = some (t, 1) → t ∉ text.drop (p + 1) →
        findMatchingBracket text p = some (-1)) ∧
      (bracketInfo (charAt text p) = some (t, -1) → t ∉ text.take p →
        findMatchingBracket text p = some (-1)) := by
  have hsome := findMatchingBracket_isSome text p
  obtain ⟨r, hr⟩ := Option.isSome_iff_exists.mp hsome
  constructor
  · intro hinfo hno
    rw [hr]
    unfold findMatchingBracket findMatchingBracketWith at hr
    rw [if_neg (by omega)] at hr
    simp only [hinfo] at hr
    rcases scanLoop_result _ _ _ _ _ _ _ hr with h | ⟨h0, h1, h2, h3, _⟩
    · rw [h]
    · exfalso
      have h4 := h3 rfl
      simp only at h4
      apply hno
      rw [← h2]
      exact charAt_mem_drop text (p + 1) r (by push_cast; omega) h1
  · intro hinfo hno
    rw [hr]
    unfold findMatchingBracket findMatchingBracketWith at hr
    rw [if_neg (by omega)] at hr
    simp only [hinfo] at hr
    rcases scanLoop_result _ _ _ _ _ _ _ hr with h | ⟨h0, h1, h2, _, h3⟩
    · rw [h]
    · exfalso
      have h4 := h3 rfl
      simp only at h4
      apply hno
      rw [← h2]
      exact charAt_mem_take text p r h0 (by omega) h1

/-- Witness for C5: the `(` of `a(b]` has no `)` after it, and the `]` of
`a(b]` has no `[` before it. -/
theorem findMatchingBracket_unbalanced_witness :
    findMatchingBracket ['a', '(', 'b', ']'] (1 : Nat) = some (-1) ∧
      findMatchingBracket ['a', '(', 'b', ']'] (3 : Nat) = some (-1) :=
  ⟨(findMatchingBracket_unbalanced ['a', '(', 'b', ']'] 1 ')' (by decide)).1
      (by decide) (by decide),
    (findMatchingBracket_unbalanced ['a', '(', 'b', ']'] 3 '[' (by decide)).2
      (by decide) (by decide)⟩

theorem relMatch_zero (b t c : Char) (rest : List Char) (d : Nat) :
    RelMatch b t (c :: rest) d 0 ↔ (c = t ∧ d = 0) := by
  simp [RelMatch]

theorem relMatch_succ_same (b t c : Char) (rest : List Char) (d n : Nat) (hc : c = b)
    (hbt : b ≠ t) : RelMatch b t (c :: rest) d (n + 1) ↔ RelMatch b t rest (d + 1) n := by
  subst hc
  simp only [RelMatch, List.getElem?_cons_succ, List.take_succ_cons, List.count_cons_self,
    List.count_cons_of_ne hbt.symm]
  constructor <;> rintro ⟨h1, h2⟩ <;> exact ⟨h1, by omega⟩

theorem relMatch_succ_target (b t c : Char) (rest : List Char) (d n : Nat) (hc : c = t)
    (hbt : b ≠ t) (hd : d ≠ 0) :
    RelMatch b t (c :: rest) d (n + 1) ↔ RelMatch b t rest (d - 1) n := by
  subst hc
  simp only [RelMatch, List.getElem?_cons_succ, List.take_succ_cons, List.count_cons_self,
    List.count_cons_of_ne hbt]
  constructor <;> rintro ⟨h1, h2⟩ <;> exact ⟨h1, by omega⟩

theorem relMatch_succ_other (b t c : Char) (rest : List Char) (d n : Nat) (hb : c ≠ b)
    (ht : c ≠ t) : RelMatch b t (c :: rest) d (n + 1) ↔ RelMatch b t rest d n := by
  simp only [RelMatch, List.getElem?_cons_succ, List.take_succ_cons,
    List.count_cons_of_ne (Ne.symm hb), List.count_cons_of_ne (Ne.symm ht)]

/-- The forward scan over text free of quotes and slashes stops at the first
relative depth match, and returns -1 when there is none. -/
theorem scanLoop_fwd_plain (b t : Char) (hbt : b ≠ t) :
    ∀ (rest text pre : List Char), text = pre ++ rest →
      (∀ c ∈ rest, c ≠ '"' ∧ c ≠ '\'' ∧ c ≠ '/') →
      ∀ (d k : Nat) (q : Char), rest.length + 1 ≤ k →
      ∃ r, scanLoop text b t 1 k ⟨pre.length, d, State.Normal, q⟩ = some r ∧
        ((r = -1 ∧ ∀ n, ¬ RelMatch b t rest d n) ∨
         (∃ n, r = ((pre.length + n : Nat) : Int) ∧ RelMatch b t rest d n ∧
            ∀ m, m < n → ¬ RelMatch b t rest d m)) := by
  intro rest
  induction rest with
  | nil =>
    intro text pre htext _ d k q hk
    obtain ⟨k', rfl⟩ : ∃ k', k = k' + 1 := ⟨k - 1, by omega⟩
    refine ⟨-1, ?_, Or.inl ⟨rfl, fun n h => by simp [RelMatch] at h⟩⟩
    rw [scanLoop, if_neg]
    simp [htext]
  | cons c rest ih =>
    intro text pre htext hplain d k q hk
    obtain ⟨k', rfl⟩ : ∃ k', k = k' + 1 := ⟨k - 1, by omega⟩
    simp only [List.length_cons] at hk
    obtain ⟨hc1, hc2, hc3⟩ := hplain c (List.mem_cons_self _ _)
    have hplain' : ∀ x ∈ rest, x ≠ '"' ∧ x ≠ '\'' ∧ x ≠ '/' :=
      fun x hx => hplain x (List.mem_cons_of_mem _ hx)
    have hat : charAt text (pre.length : Nat) = c := by
      rw [htext]; exact charAt_append_cons _ _ _ _ rfl
    have hlen : text.length = pre.length + (rest.length + 1) := by simp [htext]
    have hpre : ((pre ++ [c]).length : Int) = (pre.length : Int) + 1 := by simp
    have ih' := fun d' => ih text (pre ++ [c]) (by simp [htext]) hplain' d' k' q (by omega)
    rw [scanLoop_plain text b t 1 k' _ d q c ⟨by omega, by omega⟩ hat hc1 hc2 hc3]
    by_cases hcb : c = b
    · rw [if_pos hcb]
      obtain ⟨r, hr, hres⟩ := ih' (d + 1)
      rw [hpre] at hr
      refine ⟨r, by exact_mod_cast hr, ?_⟩
      rcases hres with ⟨h1, h2⟩ | ⟨n, h1, h2, h3⟩
      · left
        refine ⟨h1, fun n hn => ?_⟩
        cases n with
        | zero => exact hbt (hcb ▸ ((relMatch_zero b t c rest d).mp hn).1)
        | succ n => exact h2 n ((relMatch_succ_same b t c rest d n hcb hbt).mp hn)
      · right
        refine ⟨n + 1, ?_, (relMatch_succ_same b t c rest d n hcb hbt).mpr h2, ?_⟩
        · rw [h1]; simp; omega
        · intro m hm hmm
          cases m with
          | zero => exact hbt (hcb ▸ ((relMatch_zero b t c rest d).mp hmm).1)
          | succ m =>
            exact h3 m (by omega) ((relMatch_succ_same b t c rest d m hcb hbt).mp hmm)
    · rw [if_neg hcb]
      by_cases hct : c = t
      · rw [if_pos hct]
        by_cases hd : d = 0
        · rw [if_pos (by exact_mod_cast hd)]
          refine ⟨_, rfl, Or.inr ⟨0, by simp, (relMatch_zero b t c rest d).mpr ⟨hct, hd⟩, ?_⟩⟩
          intro m hm; omega
        · rw [if_neg (by exact_mod_cast hd)]
          obtain ⟨r, hr, hres⟩ := ih' (d - 1)
          rw [hpre] at hr
          have hd1 : ((d - 1 : Nat) : Int) = (d : Int) - 1 := by omega
          rw [hd1] at hr
          refine ⟨r, hr, ?_⟩
          rcases hres with ⟨h1, h2⟩ | ⟨n, h1, h2, h3⟩
          · left
            refine ⟨h1, fun n hn => ?_⟩
            cases n with
            | zero => exact hd ((relMatch_zero b t c rest d).mp hn).2
            | succ n => exact h2 n ((relMatch_succ_target b t c rest d n hct hbt hd).mp hn)
          · right
            refine ⟨n + 1, ?_, (relMatch_succ_target b t c rest d n hct hbt hd).mpr h2, ?_⟩
            · rw [h1]; simp; omega
            · intro m hm hmm
              cases m with
              | zero => exact hd ((relMatch_zero b t c rest d).mp hmm).2
              | succ m =>
                exact h3 m (by omega)
                  ((relMatch_succ_target b t c rest d m hct hbt hd).mp hmm)
      · rw [if_neg hct]
        obtain ⟨r, hr, hres⟩ := ih' d
        rw [hpre] at hr
        refine ⟨r, hr, ?_⟩
        rcases hres with ⟨h1, h2⟩ | ⟨n, h1, h2, h3⟩
        · left
          refine ⟨h1, fun n hn => ?_⟩
          cases n with
          | zero => exact hct ((relMatch_zero b t c rest d).mp hn).1
          | succ n => exact h2 n ((relMatch_succ_other b t c rest d n hcb hct).mp hn)
        · right
          refine ⟨n + 1, ?_, (relMatch_succ_other b t c rest d n hcb hct).mpr h2, ?_⟩
          · rw [h1]; simp; omega
          · intro m hm hmm
            cases m with
            | zero => exact hct ((relMatch_zero b t c rest d).mp hmm).1
            | succ m =>
              exact h3 m (by omega) ((relMatch_succ_other b t c rest d m hcb hct).mp hmm)

theorem depthMatch_iff (text : List Char) (b t : Char) (p n : Nat) :
    DepthMatch text b t p (p + 1 + n) ↔ RelMatch b t (text.drop (p + 1)) 0 n := by
  unfold DepthMatch RelMatch between
  have h1 : p + 1 + n - (p + 1) = n := by omega
  rw [h1, List.getElem?_drop]
  constructor
  · rintro ⟨_, h2, h3⟩; exact ⟨h2, by omega⟩
  · rintro ⟨h2, h3⟩; exact ⟨by omega, h2, by omega⟩

theorem depthMatch_gt {text : List Char} {b t : Char} {p q : Nat}
    (h : DepthMatch text b t p q) : ∃ n, q = p + 1 + n :=
  ⟨q - (p + 1), by have := h.1; omega⟩

/-- The result of the forward scan on text free of quotes and slashes, in
one statement: it is the least depth match, or -1 when there is none. -/
theorem findMatchingBracket_plain (text : List Char) (p : Nat) (b t : Char)
    (hno : ∀ c ∈ text, c ≠ '"' ∧ c ≠ '\'' ∧ c ≠ '/') (hb : text[p]? = some b)
    (hbt : (b, t) ∈ bracketPairs) :
    ∃ r, findMatchingBracket text p = some r ∧
      ((r = -1 ∧ ∀ q, ¬ DepthMatch text b t p q) ∨
       (∃ q : Nat, r = q ∧ DepthMatch text b t p q ∧
          ∀ q', q' < q → ¬ DepthMatch text b t p q')) := by
  have hp : p < text.length := by
    rcases Nat.lt_or_ge p text.length with h | h
    · exact h
    · rw [List.getElem?_eq_none h] at hb; simp at hb
  have hat : charAt text (p : Nat) = b := by
    rw [charAt_eq_getElem text p hp]
    rw [List.getElem?_eq_getElem hp] at hb
    exact Option.some.inj hb
  have hne : b ≠ t := by
    rcases bracketPairs_cases hbt with ⟨rfl, rfl⟩ | ⟨rfl, rfl⟩ | ⟨rfl, rfl⟩ <;> decide
  have hsplit : text = text.take (p + 1) ++ text.drop (p + 1) := (List.take_append_drop _ _).symm
  have hprelen : (text.take (p + 1)).length = p + 1 := by
    rw [List.length_take]; omega
  obtain ⟨r, hr, hres⟩ := scanLoop_fwd_plain b t hne (text.drop (p + 1)) text
    (text.take (p + 1)) hsplit (fun c hc => hno c (List.mem_of_mem_drop hc)) 0
    (2 * text.length + 2) (Char.ofNat 0) (by simp; omega)
  rw [hprelen] at hr hres
  refine ⟨r, ?_, ?_⟩
  · unfold findMatchingBracket findMatchingBracketWith
    rw [if_neg (by omega)]
    simp only [hat, bracketInfo_open hbt]
    exact_mod_cast hr
  · rcases hres with ⟨h1, h2⟩ | ⟨n, h1, h2, h3⟩
    · left
      refine ⟨h1, fun q hq => ?_⟩
      obtain ⟨n, rfl⟩ := depthMatch_gt hq
      exact h2 n ((depthMatch_iff text b t p n).mp hq)
    · right
      refine ⟨p + 1 + n, h1, (depthMatch_iff text b t p n).mpr h2, ?_⟩
      intro q' hq' hm
      obtain ⟨m, rfl⟩ := depthMatch_gt hm
      exact h3 m (by omega) ((depthMatch_iff text b t p m).mp hm)

/-- C2 (nested-depth matching). In a text without quotes and slashes, for an
opening bracket `b` at offset `p` with partner `t`: the result is the least
offset `q > p` holding `t` with as many `b` as `t` strictly between `p` and
`q`, and it is -1 when no such offset exists. Only the counts of `b` and `t`
enter, so no other character has any effect. -/
theorem findMatchingBracket_nested_depth (text : List Char) (p : Nat) (b t : Char)
    (hno : ∀ c ∈ text, c ≠ '"' ∧ c ≠ '\'' ∧ c ≠ '/') (hb : text[p]? = some b)
    (hbt : (b, t) ∈ bracketPairs) :
    (∀ q : Nat, DepthMatch text b t p q → (∀ q', q' < q → ¬ DepthMatch text b t p q') →
        findMatchingBracket text p = some (q : Int)) ∧
      ((∀ q, ¬ DepthMatch text b t p q) → findMatchingBracket text p = some (-1)) := by
  obtain ⟨r, hr, hres⟩ := findMatchingBracket_plain text p b t hno hb hbt
  constructor
  · intro q hq hmin
    rcases hres with ⟨_, h2⟩ | ⟨q0, h1, h2, h3⟩
    · exact absurd hq (h2 q)
    · have : q0 = q := by
        rcases Nat.lt_trichotomy q0 q with h | h | h
        · exact absurd h2 (hmin q0 h)
        · exact h
        · exact absurd hq (h3 q h)
      rw [hr, h1, this]
  · intro hnone
    rcases hres with ⟨h1, _⟩ | ⟨q0, _, h2, _⟩
    · rw [hr, h1]
    · exact absurd h2 (hnone q0)

/-- Witness for C2: in `((a)(b))` offset 0 gives 7 and offset 1 gives 3; in
`(a` no offset is a depth match and the result is -1. -/
theorem findMatchingBracket_nested_depth_witness :
    findMatchingBracket ['(', '(', 'a', ')', '(', 'b', ')', ')'] (0 : Nat) = some ((7 : Nat) : Int) ∧
      findMatchingBracket ['(', '(', 'a', ')', '(', 'b', ')', ')'] (1 : Nat) =
        some ((3 : Nat) : Int) ∧
      findMatchingBracket ['(', 'a'] (0 : Nat) = some (-1) :=
  ⟨(findMatchingBracket_nested_depth ['(', '(', 'a', ')', '(', 'b', ')', ')'] 0 '(' ')'
      (by decide) (by decide) (by decide)).1 7 (by decide) (by decide),
    (findMatchingBracket_nested_depth ['(', '(', 'a', ')', '(', 'b', ')', ')'] 1 '(' ')'
      (by decide) (by decide) (by decide)).1 3 (by decide) (by decide),
    (findMatchingBracket_nested_depth ['(', 'a'] 0 '(' ')'
      (by decide) (by decide) (by decide)).2
      (fun q h => by rcases q with _ | _ | q <;> simp [DepthMatch] at h)⟩

/-! ## Forward scan: independence of the text before the index -/

theorem charAt_append_shift (A T : List Char) (j : Int) (hj : 0 ≤ j) :
    charAt (A ++ T) (j + A.length) = charAt T j := by
  obtain ⟨n, rfl⟩ : ∃ n : Nat, j = n := ⟨j.toNat, by omega⟩
  have h1 : ((n : Int) + (A.length : Int)).toNat = A.length + n := by omega
  simp only [charAt, h1, List.getD_eq_getElem?_getD, Int.toNat_ofNat]
  rw [List.getElem?_append_right (by omega)]
  simp

theorem step_shift (A T : List Char) (b t : Char) (s : Scan) (hi : 1 ≤ s.i) :
    step (A ++ T) b t 1 (shiftScan A.length s) =
      match step T b t 1 s with
      | Sum.inl r => Sum.inl (r + A.length)
      | Sum.inr s' => Sum.inr (shiftScan A.length s') := by
  rcases s with ⟨i, d, st, q⟩
  simp only at hi
  have h0 : charAt (A ++ T) (i + A.length) = charAt T i := charAt_append_shift A T i (by omega)
  have h1 : charAt (A ++ T) (i + A.length + 1) = charAt T (i + 1) := by
    have := charAt_append_shift A T (i + 1) (by omega)
    rw [← this]; congr 1; omega
  have h2 : charAt (A ++ T) (i + A.length - 1) = charAt T (i - 1) := by
    have := charAt_append_shift A T (i - 1) (by omega)
    rw [← this]; congr 1; omega
  have h3 : (i + (A.length : Int) + 1 < ((A ++ T).length : Int)) ↔ (i + 1 < (T.length : Int)) := by
    simp only [List.length_append, Nat.cast_add]; omega
  have h4 : i + (A.length : Int) ≠ 0 := by omega
  have h5 : i ≠ 0 := by omega
  unfold step
  simp only [shiftScan, h0, h1, h2, h3, h4, h5, false_or]
  cases st <;> simp only [] <;> split_ifs <;> simp <;> omega


theorem scanLoop_shift (A T : List Char) (b t : Char) :
    ∀ (f : Nat) (s : Scan), 1 ≤ s.i →
      scanLoop (A ++ T) b t 1 f (shiftScan A.length s) =
        (scanLoop T b t 1 f s).map (shiftResult A.length) := by
  intro f
  induction f with
  | zero => intro s _; rfl
  | succ f ih =>
    intro s hi
    rw [scanLoop, scanLoop, step_shift A T b t s hi]
    have hr : (0 ≤ (shiftScan A.length s).i ∧ (shiftScan A.length s).i < ((A ++ T).length : Int)) ↔
        (0 ≤ s.i ∧ s.i < (T.length : Int)) := by
      simp only [shiftScan, List.length_append, Nat.cast_add]; omega
    by_cases hin : 0 ≤ s.i ∧ s.i < (T.length : Int)
    · rw [if_pos (hr.mpr hin), if_pos hin]
      rcases step_cases T b t 1 s with ⟨hs, _⟩ | ⟨s', hs, hi'⟩ | ⟨s', hs, hi', _, _⟩
      · rw [hs]
        simp only [Option.map_some', shiftResult]
        rw [if_neg (by omega)]
      · rw [hs]; exact ih s' (by omega)
      · rw [hs]; exact ih s' (by omega)
    · rw [if_neg (fun h => hin (hr.mp h)), if_neg hin]
      rfl

theorem scanLoop_in_string (b t q : Char) :
    ∀ (s text A B : List Char), text = A ++ s ++ B → (∀ c ∈ s, c ≠ q) →
      ∀ (k : Nat) (d : Int),
        scanLoop text b t 1 (s.length + k) ⟨A.length, d, State.InString, q⟩ =
          scanLoop text b t 1 k ⟨((A.length + s.length : Nat) : Int), d, State.InString, q⟩ := by
  intro s
  induction s with
  | nil => intro text A B _ _ k d; simp
  | cons c s ih =>
    intro text A B htext hs k d
    have hat : charAt text (A.length : Nat) = c := by
      rw [htext]
      have : A ++ c :: s ++ B = A ++ c :: (s ++ B) := by simp
      rw [this]
      exact charAt_append_cons _ _ _ _ rfl
    have hlen : text.length = A.length + (s.length + 1) + B.length := by
      simp [htext]; omega
    have hcq : c ≠ q := hs c (List.mem_cons_self _ _)
    have hfuel : (c :: s).length + k = (s.length + k) + 1 := by simp; omega
    rw [hfuel, scanLoop, if_pos ⟨by simp, by simp only []; omega⟩]
    simp only [step, hat, hcq, false_and, if_false]
    have := ih text (A ++ [c]) B (by simp [htext]) (fun x hx => hs x (List.mem_cons_of_mem _ hx)) k d
    simp only [List.length_append, List.length_singleton, Nat.cast_add, Nat.cast_one] at this
    rw [this]
    congr 2
    simp only [List.length_cons]
    push_cast
    ring


/-- Matching the `(` that precedes a string literal without escapes: the
result is the one the scan gives on the text from the closing quote on,
moved to the offsets of the whole text. -/
theorem findMatchingBracket_before_literal (pre s rest : List Char)
    (hs : ∀ c ∈ s, c ≠ '"' ∧ c ≠ '\\') :
    findMatchingBracket (pre ++ '(' :: '"' :: s ++ '"' :: rest) (pre.length : Nat) =
      (scanLoop ('"' :: rest) '(' ')' 1 (rest.length + 1) ⟨1, 0, State.Normal, '"'⟩).map
        (shiftResult ((pre.length + 2 + s.length : Nat) : Int)) := by
  generalize htext : pre ++ '(' :: '"' :: s ++ '"' :: rest = text
  have hlen : text.length = pre.length + 2 + s.length + 1 + rest.length := by
    simp [← htext]; omega
  have hA : text = (pre ++ '(' :: '"' :: s) ++ ('"' :: rest) := by simp [← htext]
  have hAlen : (pre ++ '(' :: '"' :: s).length = pre.length + 2 + s.length := by
    simp; omega
  have hat0 : charAt text (pre.length : Nat) = '(' := by
    have h : text = pre ++ '(' :: ('"' :: s ++ '"' :: rest) := by simp [← htext]
    rw [h]; exact charAt_append_cons _ _ _ _ rfl
  have hat1 : charAt text ((pre.length : Nat) + 1) = '"' := by
    have h : text = (pre ++ ['(']) ++ '"' :: (s ++ '"' :: rest) := by simp [← htext]
    rw [h]; exact charAt_append_cons _ _ _ _ (by simp)
  have hat2 : charAt text ((pre.length + 2 + s.length : Nat) : Int) = '"' := by
    rw [hA]; exact charAt_append_cons _ _ _ _ (by rw [hAlen])
  have hat3 : charAt text (((pre.length + 2 + s.length : Nat) : Int) - 1) ≠ '\\' := by
    rcases List.eq_nil_or_concat ('"' :: s) with h | ⟨init, z, h⟩
    · simp at h
    · have hz : z ∈ '"' :: s := by rw [h]; simp
      have hz' : z ≠ '\\' := by
        rcases List.mem_cons.mp hz with rfl | hz
        · decide
        · exact (hs z hz).2
      have hl : init.length = s.length := by
        have := congrArg List.length h
        simp at this; omega
      have h' : text = (pre ++ '(' :: init) ++ z :: ('"' :: rest) := by
        rw [hA]
        have : pre ++ '(' :: '"' :: s = pre ++ '(' :: (init ++ [z]) := by
          rw [h, List.concat_eq_append]
        rw [this]; simp
      have hc : charAt text (((pre.length + 2 + s.length : Nat) : Int) - 1) = z := by
        rw [h']
        exact charAt_append_cons _ _ _ _ (by simp [hl]; omega)
      rw [hc]; exact hz'
  unfold findMatchingBracket findMatchingBracketWith
  rw [if_neg (by omega)]
  have hinfo : bracketInfo '(' = some (')', 1) := rfl
  simp only [hat0, hinfo]
  obtain ⟨r', hr'⟩ := Option.isSome_iff_exists.mp
    (scanLoop_fwd_isSome ('"' :: rest) '(' ')' (rest.length + 1) ⟨1, 0, State.Normal, '"'⟩
      (by omega) (by simp))
  rw [hr']
  apply scanLoop_mono text '(' ')' 1 ((s.length + ((rest.length + 1) + 1)) + 1) _ _ _ (by omega)
  rw [scanLoop, if_pos ⟨by simp only []; omega, by simp only []; omega⟩]
  simp only [step, hat1, true_or, if_true]
  have h2 := scanLoop_in_string '(' ')' '"' s text (pre ++ ['(', '"']) ('"' :: rest)
    (by simp [← htext]) (fun c hc => (hs c hc).1) ((rest.length + 1) + 1) 0
  have e1 : ((pre.length : Nat) : Int) + 1 + 1 = (((pre ++ ['(', '"']).length : Nat) : Int) := by
    simp; omega
  rw [e1, h2]
  have e2 : (((pre ++ ['(', '"']).length + s.length : Nat) : Int) =
      ((pre.length + 2 + s.length : Nat) : Int) := by simp
  rw [e2, scanLoop, if_pos ⟨by simp only []; omega, by simp only []; omega⟩]
  simp only [step, hat2, hat3, true_and, ne_eq, not_false_eq_true, or_true, if_true]
  have h3 := scanLoop_shift (pre ++ '(' :: '"' :: s) ('"' :: rest) '(' ')' (rest.length + 1)
    ⟨1, 0, State.Normal, '"'⟩ (le_refl _)
  rw [← hA, hr', hAlen] at h3
  simp only [shiftScan, Option.map_some'] at h3
  rw [← h3]
  congr 2
  omega


/-- C3 (string-aware forward scan). For a string `s` without double quote and
backslash, matching the `(` at offset `|pre|` of `pre ( " s " rest` gives a
result `r1` that is never an offset of the quoted literal (offsets
`|pre| + 1` to `|pre| + |s| + 2`), and that is the result `r2` for the text
with `s` deleted, moved by `|s|` (or -1 when `r2` is -1). -/
theorem findMatchingBracket_skips_string_literal (pre s rest : List Char)
    (hs : ∀ c ∈ s, c ≠ '"' ∧ c ≠ '\\') :
    ∃ r1 r2 : Int,
      findMatchingBracket (pre ++ '(' :: '"' :: s ++ '"' :: rest) (pre.length : Nat) = some r1 ∧
      findMatchingBracket (pre ++ '(' :: '"' :: '"' :: rest) (pre.length : Nat) = some r2 ∧
      (r1 = -1 ∨ ((pre.length + s.length + 2 : Nat) : Int) < r1) ∧
      ((r2 = -1 ∧ r1 = -1) ∨ (r2 ≠ -1 ∧ r1 = r2 + s.length)) := by
  have h1 := findMatchingBracket_before_literal pre s rest hs
  have h2 := findMatchingBracket_before_literal pre [] rest (by simp)
  have e : pre ++ '(' :: '"' :: ([] : List Char) ++ '"' :: rest =
      pre ++ '(' :: '"' :: '"' :: rest := by simp
  rw [e] at h2
  obtain ⟨r, hr⟩ := Option.isSome_iff_exists.mp
    (scanLoop_fwd_isSome ('"' :: rest) '(' ')' (rest.length + 1) ⟨1, 0, State.Normal, '"'⟩
      (by omega) (by simp))
  rw [hr] at h1 h2
  simp only [Option.map_some'] at h1 h2
  refine ⟨_, _, h1, h2, ?_, ?_⟩
  · rcases scanLoop_result _ _ _ _ _ _ _ hr with h | ⟨_, _, _, h, _⟩
    · left; simp [shiftResult, h]
    · right
      have h1r : (1 : Int) ≤ r := h rfl
      unfold shiftResult
      rw [if_neg (by omega)]
      push_cast
      omega
  · rcases scanLoop_result _ _ _ _ _ _ _ hr with h | ⟨_, _, _, h, _⟩
    · left; simp [shiftResult, h]
    · right
      have h1r : (1 : Int) ≤ r := h rfl
      unfold shiftResult
      rw [if_neg (by omega), if_neg (by omega)]
      constructor
      · push_cast; omega
      · simp only [List.length_nil]; push_cast; omega

/-- Witness for C3: in `foo(")", bar())` the `(` at offset 3 is matched with
the final `)` at offset 14, not with the quoted `)` at offset 5. -/
theorem findMatchingBracket_skips_string_literal_witness :
    (∃ r1 r2 : Int,
      findMatchingBracket (['f', 'o', 'o'] ++ '(' :: '"' :: [')'] ++
        '"' :: [',', ' ', 'b', 'a', 'r', '(', ')', ')']) ((['f', 'o', 'o'].length : Nat) : Int) =
          some r1 ∧
      findMatchingBracket (['f', 'o', 'o'] ++ '(' :: '"' ::
        '"' :: [',', ' ', 'b', 'a', 'r', '(', ')', ')']) ((['f', 'o', 'o'].length : Nat) : Int) =
          some r2 ∧
      (r1 = -1 ∨ (((['f', 'o', 'o'] : List Char).length + [')'].length + 2 : Nat) : Int) < r1) ∧
      ((r2 = -1 ∧ r1 = -1) ∨ (r2 ≠ -1 ∧ r1 = r2 + ([')'] : List Char).length))) ∧
    findMatchingBracket
      ['f', 'o', 'o', '(', '"', ')', '"', ',', ' ', 'b', 'a', 'r', '(', ')', ')'] 3 = some 14 :=
  ⟨findMatchingBracket_skips_string_literal ['f', 'o', 'o'] [')']
      [',', ' ', 'b', 'a', 'r', '(', ')', ')'] (by decide), by decide⟩

/-! ## Escapes, comments and termination -/

/-- C18 fails on the six-character text `('\\')`, a char literal holding one
escaped backslash: the quote at offset 4 follows a run of two backslashes,
yet the scan stays in the in-char state and matching the `(` at offset 0
gives -1, not 5. The string pattern of the highlighter does treat offsets 1
to 4 as one literal. -/
theorem findMatchingBracket_escaped_backslash :
    findMatchingBracket ['(', '\'', '\\', '\\', '\'', ')'] 0 = some (-1) ∧
      CppHighlighter.stringMask ['(', '\'', '\\', '\\', '\'', ')'] =
        [false, true, true, true, true, false] := by
  decide

theorem stepReads_inRange (text : List Char) (s : Scan) (h0 : 0 ≤ s.i)
    (h1 : s.i < text.length) : ∀ j ∈ stepReads text s, 0 ≤ j ∧ j < text.length := by
  intro j hj
  unfold stepReads at hj
  rcases s with ⟨i, d, st, q⟩
  simp only at h0 h1
  cases st <;> simp only [List.mem_cons] at hj
  all_goals rcases hj with rfl | hj
  all_goals first
    | exact ⟨h0, h1⟩
    | exact absurd hj (List.not_mem_nil _)
    | (split_ifs at hj
       all_goals simp only [List.mem_singleton, List.not_mem_nil] at hj
       all_goals first
         | exact absurd hj id
         | (subst hj; omega))

/-- C20 (termination). For every text and offset `findMatchingBracket`
returns: one value `r` is the result for every iteration bound from
`2 * length + 2` on, in both scan directions, and `r` is -1 or an offset of
the text. In every pass through the loop body, each offset given to `text.at`
lies in the text. -/
theorem findMatchingBracket_terminates (text : List Char) (pos : Int) :
    ∃ r, (∀ fuel, 2 * text.length + 2 ≤ fuel → findMatchingBracketWith fuel text pos = some r) ∧
      findMatchingBracket text pos = some r ∧
      (r = -1 ∨ (0 ≤ r ∧ r < text.length)) ∧
      ∀ s : Scan, 0 ≤ s.i → s.i < text.length →
        ∀ j ∈ stepReads text s, 0 ≤ j ∧ j < text.length := by
  obtain ⟨r, hr⟩ := Option.isSome_iff_exists.mp (findMatchingBracket_isSome text pos)
  refine ⟨r, ?_, hr, ?_, fun s h0 h1 => stepReads_inRange text s h0 h1⟩
  · intro fuel hf
    unfold findMatchingBracket findMatchingBracketWith at hr
    unfold findMatchingBracketWith
    split
    · rename_i h
      rw [if_pos h] at hr
      exact hr
    · rename_i h
      rw [if_neg h] at hr
      simp only [] at hr ⊢
      split
      · rename_i hb
        rw [hb] at hr
        exact hr
      · rename_i t d hb
        rw [hb] at hr
        exact scanLoop_mono _ _ _ _ _ _ _ _ hf hr
  · unfold findMatchingBracket findMatchingBracketWith at hr
    split at hr
    · left; simpa using hr.symm
    · simp only [] at hr
      split at hr
      · left; simpa using hr.symm
      · rcases scanLoop_result _ _ _ _ _ _ _ hr with h | ⟨h1, h2, _⟩
        · exact Or.inl h
        · exact Or.inr ⟨h1, h2⟩

/-- Witness for C20: the closing-bracket scan of `(a//b/*c*/)`, a text with
`//`, `/*` and `*/`, returns. -/
theorem findMatchingBracket_terminates_witness :
    ∃ r, (∀ fuel, 2 * ['(', 'a', '/', '/', 'b', '/', '*', 'c', '*', '/', ')'].length + 2 ≤ fuel →
        findMatchingBracketWith fuel ['(', 'a', '/', '/', 'b', '/', '*', 'c', '*', '/', ')'] 10 =
          some r) ∧
      findMatchingBracket ['(', 'a', '/', '/', 'b', '/', '*', 'c', '*', '/', ')'] 10 = some r ∧
      (r = -1 ∨ (0 ≤ r ∧ r < ['(', 'a', '/', '/', 'b', '/', '*', 'c', '*', '/', ')'].length)) ∧
      ∀ s : Scan, 0 ≤ s.i →
        s.i < ['(', 'a', '/', '/', 'b', '/', '*', 'c', '*', '/', ')'].length →
        ∀ j ∈ stepReads ['(', 'a', '/', '/', 'b', '/', '*', 'c', '*', '/', ')'] s,
          0 ≤ j ∧ j < ['(', 'a', '/', '/', 'b', '/', '*', 'c', '*', '/', ')'].length :=
  findMatchingBracket_terminates ['(', 'a', '/', '/', 'b', '/', '*', 'c', '*', '/', ')'] 10

/-- In a text that starts with `(/*`, a pass of the backward scan keeps
`BackInv` and does not return offset 0. -/
theorem step_backInv (rest : List Char) (s : Scan) (hinv : BackInv s) (h0 : 0 ≤ s.i) :
    (∀ r, step ('(' :: '/' :: '*' :: rest) ')' '(' (-1) s = Sum.inl r → r ≠ 0) ∧
      (∀ s', step ('(' :: '/' :: '*' :: rest) ')' '(' (-1) s = Sum.inr s' → BackInv s') := by
  rcases s with ⟨i, d, st, q⟩
  obtain ⟨hq, hz⟩ := hinv
  simp only at hq hz h0
  have c0 : charAt ('(' :: '/' :: '*' :: rest) 0 = '(' := rfl
  have c1 : charAt ('(' :: '/' :: '*' :: rest) 1 = '/' := rfl
  have c2 : charAt ('(' :: '/' :: '*' :: rest) 2 = '*' := rfl
  have hl : (2 : Int) < (('(' :: '/' :: '*' :: rest).length : Int) := by
    simp only [List.length_cons]; push_cast; omega
  by_cases hi0 : i = 0
  · subst hi0
    have hn := hz rfl
    unfold step BackInv
    simp only [c0]
    cases st
    · exact absurd rfl hn
    all_goals first
      | (have hq' := hq (Or.inl rfl)
         rcases hq' with rfl | rfl <;> simp)
      | (have hq' := hq (Or.inr rfl)
         rcases hq' with rfl | rfl <;> simp)
      | simp
  · by_cases hi1 : i = 1
    · subst hi1
      unfold step BackInv
      simp only [c1, show (1 : Int) + 1 = 2 from rfl, c2]
      have hl' : (2 : Int) < (rest.length : Int) + 1 + 1 + 1 := by omega
      cases st
      · simp [hl']
      all_goals first
        | (have hq' := hq (Or.inl rfl)
           rcases hq' with rfl | rfl <;> simp)
        | (have hq' := hq (Or.inr rfl)
           rcases hq' with rfl | rfl <;> simp)
        | simp
    · have hi2 : 2 ≤ i := by omega
      unfold step BackInv
      cases st <;> simp only [] <;> split_ifs <;>
        simp_all <;> omega

theorem scanLoop_backInv (rest : List Char) :
    ∀ (fuel : Nat) (s : Scan), BackInv s →
      scanLoop ('(' :: '/' :: '*' :: rest) ')' '(' (-1) fuel s ≠ some 0 := by
  intro fuel
  induction fuel with
  | zero => intro s _; simp [scanLoop]
  | succ fuel ih =>
    intro s hinv
    rw [scanLoop]
    split
    · rename_i hin
      obtain ⟨h1, h2⟩ := step_backInv rest s hinv hin.1
      cases hs : step ('(' :: '/' :: '*' :: rest) ')' '(' (-1) s with
      | inl r =>
        simp only [ne_eq, Option.some.injEq]
        exact h1 r hs
      | inr s' => exact ih s' (h2 s' hs)
    · simp

/-- C19 fails for every comment body: on `(` `/*` body `*/` `)` the scan
started on the final `)` never returns offset 0. For the empty body it
returns -1, while the forward scan from offset 0 returns 5. -/
theorem findMatchingBracket_backward_comment (body : List Char) :
    findMatchingBracket ('(' :: '/' :: '*' :: (body ++ ['*', '/', ')']))
        ((body.length + 5 : Nat) : Int) ≠ some 0 ∧
      findMatchingBracket ['(', '/', '*', '*', '/', ')'] 5 = some (-1) ∧
      findMatchingBracket ['(', '/', '*', '*', '/', ')'] 0 = some 5 := by
  refine ⟨?_, by decide, by decide⟩
  have hat : charAt ('(' :: '/' :: '*' :: (body ++ ['*', '/', ')']))
      ((body.length + 5 : Nat) : Int) = ')' := by
    have e : '(' :: '/' :: '*' :: (body ++ ['*', '/', ')']) =
        ('(' :: '/' :: '*' :: (body ++ ['*', '/'])) ++ ')' :: [] := by simp
    rw [e]
    exact charAt_append_cons _ _ _ _ (by simp; omega)
  unfold findMatchingBracket findMatchingBracketWith
  rw [if_neg (by simp only [List.length_cons, List.length_append, List.length_nil]; push_cast; omega)]
  have hinfo : bracketInfo ')' = some ('(', -1) := rfl
  simp only [hat, hinfo]
  apply scanLoop_backInv
  refine ⟨fun h => ?_, fun h => ?_⟩
  · rcases h with h | h <;> simp at h
  · simp only at h
    push_cast at h
    omega

end CodeEditor

namespace CppHighlighter

/-! ## The matcher on the two comment markers -/

theorem searchFrom_some (re : Regex) (text : List Char) :
    ∀ (n start s e : Nat), searchFrom re text n start = some (s, e) →
      start ≤ s ∧ s < start + n ∧ matchAt text re s some = some e ∧
        ∀ j, start ≤ j → j < s → matchAt text re j some = none := by
  intro n
  induction n with
  | zero => intro start s e h; simp [searchFrom] at h
  | succ n ih =>
    intro start s e h
    rw [searchFrom] at h
    cases hm : matchAt text re start some with
    | some e' =>
      rw [hm] at h
      simp only [Option.some.injEq, Prod.mk.injEq] at h
      obtain ⟨rfl, rfl⟩ := h
      exact ⟨le_refl _, by omega, hm, fun j h1 h2 => by omega⟩
    | none =>
      rw [hm] at h
      obtain ⟨h1, h2, h3, h4⟩ := ih (start + 1) s e h
      refine ⟨by omega, by omega, h3, fun j hj1 hj2 => ?_⟩
      rcases Nat.eq_or_lt_of_le hj1 with rfl | hlt
      · exact hm
      · exact h4 j hlt hj2

theorem searchFrom_none (re : Regex) (text : List Char) :
    ∀ (n start : Nat), searchFrom re text n start = none →
      ∀ j, start ≤ j → j < start + n → matchAt text re j some = none := by
  intro n
  induction n with
  | zero => intro start _ j h1 h2; omega
  | succ n ih =>
    intro start h j h1 h2
    rw [searchFrom] at h
    cases hm : matchAt text re start some with
    | some e' => rw [hm] at h; simp at h
    | none =>
      rw [hm] at h
      rcases Nat.eq_or_lt_of_le h1 with rfl | hlt
      · exact hm
      · exact ih (start + 1) h j hlt (by omega)

theorem matchAt_commentStart (text : List Char) (pos : Nat) :
    matchAt text commentStartExpression pos some =
      if IsOpenAt text pos then some (pos + 2) else none := by
  unfold IsOpenAt
  simp only [commentStartExpression, matchAt]
  by_cases h1 : text[pos]? = some '/' <;> by_cases h2 : text[pos + 1]? = some '*' <;>
    simp [h1, h2]

theorem matchAt_commentEnd (text : List Char) (pos : Nat) :
    matchAt text commentEndExpression pos some =
      if IsCloseAt text pos then some (pos + 2) else none := by
  unfold IsCloseAt
  simp only [commentEndExpression, matchAt]
  by_cases h1 : text[pos]? = some '*' <;> by_cases h2 : text[pos + 1]? = some '/' <;>
    simp [h1, h2]

theorem isOpenAt_lt {text : List Char} {j : Nat} (h : IsOpenAt text j) :
    j + 1 < text.length := by
  have := h.2
  by_contra hc
  rw [List.getElem?_eq_none (by omega)] at this
  simp at this

theorem isCloseAt_lt {text : List Char} {j : Nat} (h : IsCloseAt text j) :
    j + 1 < text.length := by
  have := h.2
  by_contra hc
  rw [List.getElem?_eq_none (by omega)] at this
  simp at this

/-- The call `text.indexOf(commentStartExpression, start)` gives the first
open marker at or after `start`, or -1. -/
theorem indexOf_commentStart (text : List Char) (start : Nat) :
    (∃ s : Nat, indexOf text commentStartExpression (start : Int) = ((s : Int), 2) ∧
        start ≤ s ∧ IsOpenAt text s ∧ ∀ j, start ≤ j → j < s → ¬ IsOpenAt text j) ∨
      (indexOf text commentStartExpression (start : Int) = (-1, 0) ∧
        ∀ j, start ≤ j → ¬ IsOpenAt text j) := by
  unfold indexOf firstMatch
  simp only [Int.toNat_ofNat]
  cases h : searchFrom commentStartExpression text (text.length + 1 - start) start with
  | some se =>
    obtain ⟨s, e⟩ := se
    left
    obtain ⟨h1, _, h3, h4⟩ := searchFrom_some _ _ _ _ _ _ h
    rw [matchAt_commentStart] at h3
    split_ifs at h3 with ho
    simp only [Option.some.injEq] at h3
    subst h3
    refine ⟨s, by simp, h1, ho, fun j hj1 hj2 hj => ?_⟩
    have := h4 j hj1 hj2
    rw [matchAt_commentStart, if_pos hj] at this
    simp at this
  | none =>
    right
    refine ⟨rfl, fun j hj1 hj => ?_⟩
    have hlt := isOpenAt_lt hj
    have := searchFrom_none _ _ _ _ h j hj1 (by omega)
    rw [matchAt_commentStart, if_pos hj] at this
    simp at this

/-- The call `text.indexOf(commentEndExpression, start, &endMatch)` gives the
first close marker at or after `start`, with `capturedLength` 2, or -1. -/
theorem indexOf_commentEnd (text : List Char) (start : Nat) :
    (∃ s : Nat, indexOf text commentEndExpression (start : Int) = ((s : Int), 2) ∧
        start ≤ s ∧ IsCloseAt text s ∧ ∀ j, start ≤ j → j < s → ¬ IsCloseAt text j) ∨
      (indexOf text commentEndExpression (start : Int) = (-1, 0) ∧
        ∀ j, start ≤ j → ¬ IsCloseAt text j) := by
  unfold indexOf firstMatch
  simp only [Int.toNat_ofNat]
  cases h : searchFrom commentEndExpression text (text.length + 1 - start) start with
  | some se =>
    obtain ⟨s, e⟩ := se
    left
    obtain ⟨h1, _, h3, h4⟩ := searchFrom_some _ _ _ _ _ _ h
    rw [matchAt_commentEnd] at h3
    split_ifs at h3 with ho
    simp only [Option.some.injEq] at h3
    subst h3
    refine ⟨s, by simp, h1, ho, fun j hj1 hj2 hj => ?_⟩
    have := h4 j hj1 hj2
    rw [matchAt_commentEnd, if_pos hj] at this
    simp at this
  | none =>
    right
    refine ⟨rfl, fun j hj1 hj => ?_⟩
    have hlt := isCloseAt_lt hj
    have := searchFrom_none _ _ _ _ h j hj1 (by omega)
    rw [matchAt_commentEnd, if_pos hj] at this
    simp at this


/-! ## The block-comment loop -/

/-- One iteration of the block-comment loop at a protected offset. -/
theorem commentLoop_masked (text : List Char) (mask : List Bool) (fuel : Nat) (n : Nat)
    (calls : List FormatCall) (st : Int)
    (hm : (n : Int) < mask.length ∧ mask.getD n false = true) :
    commentLoop text mask (fuel + 1) (n : Int) calls st =
      commentLoop text mask fuel (indexOf text commentStartExpression ((n + 1 : Nat) : Int)).1
        calls st := by
  rw [commentLoop, if_pos (by omega)]
  simp only [Int.toNat_ofNat]
  rw [if_pos hm]
  rfl

/-- One iteration at an offset that is not protected, when a close marker
follows at `e`. -/
theorem commentLoop_closed (text : List Char) (mask : List Bool) (fuel : Nat) (n e : Nat)
    (calls : List FormatCall) (st : Int)
    (hm : ¬ ((n : Int) < mask.length ∧ mask.getD n false = true))
    (he : indexOf text commentEndExpression (n : Int) = ((e : Int), 2)) :
    commentLoop text mask (fuel + 1) (n : Int) calls st =
      commentLoop text mask fuel (indexOf text commentStartExpression ((e + 2 : Nat) : Int)).1
        (calls ++ [⟨(n : Int), (e : Int) - n + 2, Format.multiLineCommentFormat⟩]) st := by
  rw [commentLoop, if_pos (by omega)]
  simp only [Int.toNat_ofNat]
  rw [if_neg hm]
  simp only [he]
  rw [if_neg (by omega), if_neg (by omega)]
  have : (n : Int) + ((e : Int) - n + 2) = ((e + 2 : Nat) : Int) := by push_cast; ring
  rw [this]

/-- One iteration at an offset that is not protected, when no close marker
follows. -/
theorem commentLoop_open (text : List Char) (mask : List Bool) (fuel : Nat) (n : Nat)
    (calls : List FormatCall) (st : Int)
    (hm : ¬ ((n : Int) < mask.length ∧ mask.getD n false = true))
    (he : indexOf text commentEndExpression (n : Int) = (-1, 0)) :
    commentLoop text mask (fuel + 1) (n : Int) calls st =
      commentLoop text mask fuel (indexOf text commentStartExpression (text.length : Int)).1
        (calls ++ [⟨(n : Int), (text.length : Int) - n, Format.multiLineCommentFormat⟩]) 1 := by
  rw [commentLoop, if_pos (by omega)]
  simp only [Int.toNat_ofNat]
  rw [if_neg hm]
  simp only [he, if_true]
  have : (n : Int) + ((text.length : Int) - n) = (text.length : Int) := by ring
  rw [this]

/-- The loop is left once `startIndex` is -1. -/
theorem commentLoop_done (text : List Char) (mask : List Bool) (fuel : Nat)
    (calls : List FormatCall) (st : Int) :
    commentLoop text mask (fuel + 1) (-1) calls st = some (calls, st) := by
  rw [commentLoop, if_neg (by omega)]

/-- No open marker starts at the end of the text. -/
theorem indexOf_commentStart_end (text : List Char) :
    indexOf text commentStartExpression (text.length : Int) = (-1, 0) := by
  rcases indexOf_commentStart text text.length with ⟨s, _, h1, h2, _⟩ | ⟨h, _⟩
  · have := isOpenAt_lt h2; omega
  · exact h

/-- The block-comment loop returns within `text.length - startIndex + 2`
iterations: every iteration moves `startIndex` forward or sets it to -1. -/
theorem commentLoop_isSome (text : List Char) (mask : List Bool) :
    ∀ (fuel : Nat) (startIndex : Int) (calls : List FormatCall) (st : Int),
      startIndex ≤ text.length → 1 ≤ fuel →
      (0 ≤ startIndex → (text.length : Int) - startIndex + 2 ≤ fuel) →
      (commentLoop text mask fuel startIndex calls st).isSome = true := by
  intro fuel
  induction fuel with
  | zero => intro _ _ _ _ h; omega
  | succ fuel ih =>
    intro startIndex calls st hle _ hfuel
    by_cases hneg : startIndex < 0
    · rw [commentLoop, if_neg (by omega)]; rfl
    · obtain ⟨n, rfl⟩ : ∃ n : Nat, startIndex = n := ⟨startIndex.toNat, by omega⟩
      have hf := hfuel (by omega)
      by_cases hm : (n : Int) < mask.length ∧ mask.getD n false = true
      · rw [commentLoop_masked text mask fuel n calls st hm]
        rcases indexOf_commentStart text (n + 1) with ⟨s, h0, h1, h2, _⟩ | ⟨h0, _⟩
        · rw [h0]
          have := isOpenAt_lt h2
          exact ih _ _ _ (by simp only []; omega) (by omega) (fun _ => by simp only []; omega)
        · rw [h0]
          exact ih _ _ _ (by simp only []; omega) (by omega) (fun h => by simp only [] at h; omega)
      · rcases indexOf_commentEnd text n with ⟨e, he, h1, h2, _⟩ | ⟨he, _⟩
        · rw [commentLoop_closed text mask fuel n e calls st hm he]
          have := isCloseAt_lt h2
          rcases indexOf_commentStart text (e + 2) with ⟨s, h0, h1', h2', _⟩ | ⟨h0, _⟩
          · rw [h0]
            have := isOpenAt_lt h2'
            exact ih _ _ _ (by simp only []; omega) (by omega) (fun _ => by simp only []; omega)
          · rw [h0]
            exact ih _ _ _ (by simp only []; omega) (by omega)
              (fun h => by simp only [] at h; omega)
        · rw [commentLoop_open text mask fuel n calls st hm he, indexOf_commentStart_end]
          exact ih _ _ _ (by simp only []; omega) (by omega)
            (fun h => by simp only [] at h; omega)

theorem commentPass_isSome (text : List Char) (prev : Int) :
    (commentPass text prev).isSome = true := by
  unfold commentPass
  by_cases hp : prev ≠ 1
  · rw [if_pos hp]
    rcases indexOf_commentStart text 0 with ⟨s, h0, _, h2, _⟩ | ⟨h0, _⟩
    · have h0' : indexOf text commentStartExpression 0 = ((s : Int), 2) := h0
      have := isOpenAt_lt h2
      rw [h0']
      exact commentLoop_isSome text _ _ _ _ _ (by simp only []; omega) (by omega)
        (fun _ => by simp only []; push_cast; omega)
    · have h0' : indexOf text commentStartExpression 0 = (-1, 0) := h0
      rw [h0']
      exact commentLoop_isSome text _ _ _ _ _ (by simp only []; omega) (by omega)
        (fun h => by simp only [] at h; omega)
  · rw [if_neg hp]
    exact commentLoop_isSome text _ _ _ _ _ (by omega) (by omega)
      (fun _ => by push_cast; omega)

/-- The iteration bound used by `highlightBlock` is never reached. -/
theorem highlightBlock_isSome (text : List Char) (prev : Int) :
    (highlightBlock text prev).isSome = true := by
  unfold highlightBlock
  obtain ⟨r, hr⟩ := Option.isSome_iff_exists.mp (commentPass_isSome text prev)
  rw [hr]
  rfl


/-! ## Formats and the mask -/

theorem length_setFormat (F : List (Option Format)) (c : FormatCall) :
    (setFormat F c).length = F.length := by
  unfold setFormat
  split <;> simp

theorem formatAt_setFormat (F : List (Option Format)) (c : FormatCall) (i : Nat) :
    formatAt (setFormat F c) i =
      if Covers c i ∧ i < F.length then some c.format else formatAt F i := by
  unfold setFormat formatAt Covers
  by_cases hg : c.start < 0 ∨ c.start ≥ F.length
  · rw [if_pos hg, if_neg (by omega)]
  · rw [if_neg hg]
    by_cases hi : i < F.length
    · simp only [List.getD_eq_getElem?_getD, List.getElem?_map, List.getElem?_enum,
        List.getElem?_eq_getElem hi, Option.map_some', Option.getD_some]
      by_cases hc : c.start ≤ i ∧ (i : Int) < c.start + c.count
      · rw [if_pos ⟨hc.1, by omega⟩, if_pos ⟨⟨by omega, hc.1, hc.2⟩, hi⟩]
      · rw [if_neg (by omega), if_neg (by omega)]
    · rw [if_neg (by omega)]
      simp only [List.getD_eq_getElem?_getD, List.getElem?_map, List.getElem?_enum,
        List.getElem?_eq_none (not_lt.mp hi), Option.map_none', Option.getD_none]

theorem length_foldl_setFormat (B : List FormatCall) :
    ∀ F : List (Option Format), (B.foldl setFormat F).length = F.length := by
  induction B with
  | nil => intro F; rfl
  | cons c B ih => intro F; rw [List.foldl_cons, ih, length_setFormat]

/-- Calls that do not reach character `i` leave its format as it was. -/
theorem formatAt_foldl_not_covered (B : List FormatCall) (i : Nat) :
    ∀ F : List (Option Format), (∀ c ∈ B, ¬ Covers c i) →
      formatAt (B.foldl setFormat F) i = formatAt F i := by
  induction B with
  | nil => intro F _; rfl
  | cons c B ih =>
    intro F h
    rw [List.foldl_cons, ih _ (fun x hx => h x (List.mem_cons_of_mem _ hx)),
      formatAt_setFormat, if_neg (fun hc => h c (List.mem_cons_self _ _) hc.1)]

/-- After calls that all carry the format `f`, a character reached by one of
them has format `f`. -/
theorem formatAt_foldl_covered (B : List FormatCall) (f : Format) (i : Nat) :
    ∀ F : List (Option Format), (∀ c ∈ B, c.format = f) → i < F.length →
      (∃ c ∈ B, Covers c i) → formatAt (B.foldl setFormat F) i = some f := by
  induction B with
  | nil => intro F _ _ h; simp at h
  | cons c B ih =>
    intro F hf hi hex
    rw [List.foldl_cons]
    by_cases hB : ∃ x ∈ B, Covers x i
    · exact ih _ (fun x hx => hf x (List.mem_cons_of_mem _ hx))
        (by rw [length_setFormat]; exact hi) hB
    · rw [formatAt_foldl_not_covered B i _ (fun x hx hc => hB ⟨x, hx, hc⟩), formatAt_setFormat]
      obtain ⟨x, hx, hc⟩ := hex
      rcases List.mem_cons.mp hx with rfl | hx'
      · rw [if_pos ⟨hc, hi⟩, hf x (List.mem_cons_self _ _)]
      · exact absurd ⟨x, hx', hc⟩ hB

theorem length_applyCalls (n : Nat) (calls : List FormatCall) :
    (applyCalls n calls).length = n := by
  unfold applyCalls
  rw [length_foldl_setFormat, List.length_replicate]

theorem applyCalls_append (n : Nat) (A B : List FormatCall) :
    applyCalls n (A ++ B) = B.foldl setFormat (applyCalls n A) := by
  unfold applyCalls
  rw [List.foldl_append]

theorem length_markRange (m : List Bool) (s l : Nat) : (markRange m s l).length = m.length := by
  simp [markRange]

theorem getD_markRange (m : List Bool) (s l i : Nat) :
    (markRange m s l).getD i false = true ↔
      (InMatch (s, l) i ∧ i < m.length) ∨ m.getD i false = true := by
  unfold markRange InMatch
  by_cases hi : i < m.length
  · simp only [List.getD_eq_getElem?_getD, List.getElem?_map, List.getElem?_enum,
      List.getElem?_eq_getElem hi, Option.map_some', Option.getD_some]
    by_cases hc : s ≤ i ∧ i < s + l
    · simp [hc, hi]
    · simp [hc]
  · simp only [List.getD_eq_getElem?_getD, List.getElem?_map, List.getElem?_enum,
      List.getElem?_eq_none (not_lt.mp hi), Option.map_none', Option.getD_none]
    simp [hi]

theorem foldl_markRange (ms : List (Nat × Nat)) (i : Nat) :
    ∀ m : List Bool, ((ms.foldl (fun m sl => markRange m sl.1 sl.2) m).length = m.length) ∧
      ((ms.foldl (fun m sl => markRange m sl.1 sl.2) m).getD i false = true ↔
        (i < m.length ∧ ∃ sl ∈ ms, InMatch sl i) ∨ m.getD i false = true) := by
  induction ms with
  | nil => intro m; simp
  | cons x ms ih =>
    intro m
    rw [List.foldl_cons]
    obtain ⟨h1, h2⟩ := ih (markRange m x.1 x.2)
    rw [length_markRange] at h1 h2
    refine ⟨h1, ?_⟩
    rw [h2, getD_markRange]
    constructor
    · rintro (⟨hi, sl, hsl, hin⟩ | ⟨hin, hi⟩ | h)
      · exact Or.inl ⟨hi, sl, List.mem_cons_of_mem _ hsl, hin⟩
      · exact Or.inl ⟨hi, x, List.mem_cons_self _ _, hin⟩
      · exact Or.inr h
    · rintro (⟨hi, sl, hsl, hin⟩ | h)
      · rcases List.mem_cons.mp hsl with rfl | hsl'
        · exact Or.inr (Or.inl ⟨hin, hi⟩)
        · exact Or.inl ⟨hi, sl, hsl', hin⟩
      · exact Or.inr (Or.inr h)

theorem length_stringMask (text : List Char) : (stringMask text).length = text.length := by
  unfold stringMask
  rw [(foldl_markRange _ 0 _).1, List.length_replicate]

/-- The mask holds at `i` exactly when `i` is a character of the line inside
a match of `stringPattern`. -/
theorem stringMask_iff (text : List Char) (i : Nat) :
    (stringMask text).getD i false = true ↔
      i < text.length ∧ ∃ m ∈ globalMatch stringPattern text, InMatch m i := by
  unfold stringMask
  rw [(foldl_markRange _ i _).2, List.length_replicate]
  constructor
  · rintro (h | h)
    · exact h
    · exfalso
      simp only [List.getD_eq_getElem?_getD] at h
      by_cases hi : i < text.length
      · rw [List.getElem?_eq_getElem (by simpa using hi)] at h; simp at h
      · rw [List.getElem?_eq_none (by simpa using hi)] at h; simp at h
  · exact fun h => Or.inl h


/-! ## Matches lie inside the text -/

theorem orElse_eq_some {α : Type} (a : Option α) (f : Unit → Option α) (e : α)
    (h : a.orElse f = some e) : a = some e ∨ f () = some e := by
  cases a with
  | none => right; simpa [Option.orElse] using h
  | some x => left; simpa [Option.orElse] using h

theorem starLoop_bound (text : List Char) (body : Nat → (Nat → Option Nat) → Option Nat)
    (hbody : ∀ pos k e, body pos k = some e →
      ∃ p, pos ≤ p ∧ (pos ≤ text.length → p ≤ text.length) ∧ k p = some e) :
    ∀ (n pos : Nat) (k : Nat → Option Nat) (e : Nat), starLoop body n pos k = some e →
      ∃ p, pos ≤ p ∧ (pos ≤ text.length → p ≤ text.length) ∧ k p = some e := by
  intro n
  induction n with
  | zero => intro pos k e h; exact ⟨pos, le_refl _, fun h => h, h⟩
  | succ n ih =>
    intro pos k e h
    rw [starLoop] at h
    rcases orElse_eq_some _ _ _ h with h | h
    · obtain ⟨p, hp1, hp2, hp3⟩ := hbody _ _ _ h
      by_cases hlt : pos < p
      · rw [if_pos hlt] at hp3
        obtain ⟨p', h1, h2, h3⟩ := ih p k e hp3
        exact ⟨p', by omega, fun hl => h2 (hp2 hl), h3⟩
      · rw [if_neg hlt] at hp3
        exact ⟨p, hp1, hp2, hp3⟩
    · exact ⟨pos, le_refl _, fun h => h, h⟩

/-- A match consumes characters of the text only: the rest of the pattern
is entered at an offset between the start and the end of the text. -/
theorem matchAt_bound (text : List Char) :
    ∀ (re : Regex) (pos : Nat) (k : Nat → Option Nat) (e : Nat),
      matchAt text re pos k = some e →
      ∃ p, pos ≤ p ∧ (pos ≤ text.length → p ≤ text.length) ∧ k p = some e := by
  intro re
  induction re with
  | lit c =>
    intro pos k e h
    rw [matchAt] at h
    split_ifs at h with hc
    have hlt : pos < text.length := by
      by_contra hn
      rw [List.getElem?_eq_none (by omega)] at hc
      simp at hc
    exact ⟨pos + 1, by omega, fun _ => by omega, h⟩
  | cls p =>
    intro pos k e h
    rw [matchAt] at h
    cases hc : text[pos]? with
    | none => rw [hc] at h; simp at h
    | some c =>
      rw [hc] at h
      simp only at h
      split_ifs at h
      have hlt : pos < text.length := by
        by_contra hn
        rw [List.getElem?_eq_none (by omega)] at hc
        simp at hc
      exact ⟨pos + 1, by omega, fun _ => by omega, h⟩
  | seq r1 r2 ih1 ih2 =>
    intro pos k e h
    rw [matchAt] at h
    obtain ⟨p1, h1, h2, h3⟩ := ih1 _ _ _ h
    obtain ⟨p2, h4, h5, h6⟩ := ih2 _ _ _ h3
    exact ⟨p2, by omega, fun hl => h5 (h2 hl), h6⟩
  | alt r1 r2 ih1 ih2 =>
    intro pos k e h
    rw [matchAt] at h
    rcases orElse_eq_some _ _ _ h with h | h
    · exact ih1 _ _ _ h
    · exact ih2 _ _ _ h
  | star r ih =>
    intro pos k e h
    rw [matchAt] at h
    exact starLoop_bound text _ ih _ _ _ _ h
  | empty =>
    intro pos k e h
    rw [matchAt] at h
    exact ⟨pos, le_refl _, fun h => h, h⟩
  | wordBoundary =>
    intro pos k e h
    rw [matchAt] at h
    split_ifs at h
    exact ⟨pos, le_refl _, fun h => h, h⟩
  | lineStart =>
    intro pos k e h
    rw [matchAt] at h
    split_ifs at h
    exact ⟨pos, le_refl _, fun h => h, h⟩
  | lookahead r _ =>
    intro pos k e h
    rw [matchAt] at h
    split at h
    · exact ⟨pos, le_refl _, fun h => h, h⟩
    · simp at h

theorem firstMatch_bound (re : Regex) (text : List Char) (start s e : Nat)
    (h : firstMatch re text start = some (s, e)) :
    start ≤ s ∧ s ≤ e ∧ e ≤ text.length := by
  unfold firstMatch at h
  obtain ⟨h1, h2, h3, _⟩ := searchFrom_some _ _ _ _ _ _ h
  obtain ⟨p, hp1, hp2, hp3⟩ := matchAt_bound text re s some e h3
  simp only [Option.some.injEq] at hp3
  subst hp3
  exact ⟨h1, hp1, hp2 (by omega)⟩

theorem globalMatchFrom_bound (re : Regex) (text : List Char) :
    ∀ (n start : Nat) (m : Nat × Nat), m ∈ globalMatchFrom re text n start →
      start ≤ m.1 ∧ m.1 + m.2 ≤ text.length := by
  intro n
  induction n with
  | zero => intro start m h; simp [globalMatchFrom] at h
  | succ n ih =>
    intro start m h
    rw [globalMatchFrom] at h
    cases hf : firstMatch re text start with
    | none => rw [hf] at h; simp at h
    | some se =>
      obtain ⟨s, e⟩ := se
      rw [hf] at h
      obtain ⟨h1, h2, h3⟩ := firstMatch_bound re text start s e hf
      rcases List.mem_cons.mp h with rfl | h
      · exact ⟨h1, by simp only []; omega⟩
      · obtain ⟨h4, h5⟩ := ih _ m h
        refine ⟨?_, h5⟩
        split_ifs at h4 <;> omega

/-- Every match delivered by `globalMatch` is a range of the text. -/
theorem globalMatch_bound (re : Regex) (text : List Char) (m : Nat × Nat)
    (h : m ∈ globalMatch re text) : m.1 + m.2 ≤ text.length :=
  (globalMatchFrom_bound re text _ _ m h).2


/-! ## The calls of the three passes -/

/-- The calls of the block-comment loop are appended to those made before;
each carries `multiLineCommentFormat` and starts at an offset `>= 0`. -/
theorem commentLoop_calls (text : List Char) (mask : List Bool) :
    ∀ (fuel : Nat) (startIndex : Int) (calls : List FormatCall) (st : Int)
      (calls' : List FormatCall) (st' : Int),
      commentLoop text mask fuel startIndex calls st = some (calls', st') →
      ∃ extra, calls' = calls ++ extra ∧
        ∀ c ∈ extra, c.format = Format.multiLineCommentFormat ∧ 0 ≤ c.start := by
  intro fuel
  induction fuel with
  | zero => intro _ _ _ _ _ h; simp [commentLoop] at h
  | succ fuel ih =>
    intro startIndex calls st calls' st' h
    rw [commentLoop] at h
    by_cases hs : startIndex ≥ 0
    · rw [if_pos hs] at h
      by_cases hm : startIndex < mask.length ∧ mask.getD startIndex.toNat false = true
      · rw [if_pos hm] at h
        exact ih _ _ _ _ _ h
      · rw [if_neg hm] at h
        simp only [] at h
        obtain ⟨extra, h1, h2⟩ := ih _ _ _ _ _ h
        rw [List.append_assoc] at h1
        refine ⟨_, h1, fun c hc => ?_⟩
        rcases List.mem_append.mp hc with hc | hc
        · rw [List.mem_singleton.mp hc]
          exact ⟨rfl, hs⟩
        · exact h2 c hc
    · rw [if_neg hs] at h
      simp only [Option.some.injEq, Prod.mk.injEq] at h
      exact ⟨[], by simp [h.1], fun c hc => by simp at hc⟩

/-- The result of `highlightBlock`: the calls of the string loop, then those
of the rule loop, then those of the block-comment part. -/
theorem highlightBlock_eq (text : List Char) (prev : Int) :
    ∃ commentCalls st, commentPass text prev = some (commentCalls, st) ∧
      (∀ c ∈ commentCalls, c.format = Format.multiLineCommentFormat ∧ 0 ≤ c.start) ∧
      highlightBlock text prev = some
        { calls := stringCalls text ++ ruleCalls text ++ commentCalls,
          formats := applyCalls text.length (stringCalls text ++ ruleCalls text ++ commentCalls),
          blockState := st } := by
  obtain ⟨⟨cc, st⟩, hr⟩ := Option.isSome_iff_exists.mp (commentPass_isSome text prev)
  refine ⟨cc, st, hr, ?_, ?_⟩
  · unfold commentPass at hr
    obtain ⟨extra, h1, h2⟩ := commentLoop_calls _ _ _ _ _ _ _ _ hr
    simp only [List.nil_append] at h1
    subst h1
    exact h2
  · unfold highlightBlock
    rw [hr]

/-- A call of the rule loop is a whole match of its rule, and no character of
it is protected. -/
theorem ruleCalls_spec (text : List Char) (c : FormatCall) (hc : c ∈ ruleCalls text) :
    (∃ rule ∈ highlightingRules, ∃ m ∈ globalMatch rule.pattern text,
        c = ⟨(m.1 : Int), (m.2 : Int), rule.format⟩) ∧
      ∀ i : Nat, c.start ≤ i → (i : Int) < c.start + c.count →
        (stringMask text).getD i false = false := by
  unfold ruleCalls ruleCallsWith at hc
  obtain ⟨rule, hrule, hc⟩ := List.mem_flatMap.mp hc
  unfold callsOfRule at hc
  obtain ⟨m, hm, rfl⟩ := List.mem_map.mp hc
  obtain ⟨hm1, hm2⟩ := List.mem_filter.mp hm
  refine ⟨⟨rule, hrule, m, hm1, rfl⟩, fun i h1 h2 => ?_⟩
  simp only at h1 h2
  have hskip : skipMatch (stringMask text) m.1 m.2 = false := by simpa using hm2
  unfold skipMatch at hskip
  rw [List.any_eq_false] at hskip
  have hj := hskip (i - m.1) (List.mem_range.mpr (by omega))
  have e : m.1 + (i - m.1) = i := by omega
  rw [e] at hj
  by_cases hi : i < (stringMask text).length
  · simpa [hi] using hj
  · simp only [List.getD_eq_getElem?_getD]
    rw [List.getElem?_eq_none (by omega)]
    rfl

theorem stringCalls_format (text : List Char) (c : FormatCall) (hc : c ∈ stringCalls text) :
    c.format = Format.stringFormat := by
  unfold stringCalls at hc
  obtain ⟨m, _, rfl⟩ := List.mem_map.mp hc
  rfl

/-- After the string loop and the rule loop a protected character carries
`stringFormat`. -/
theorem formatAt_protected (text : List Char) (i : Nat)
    (hi : (stringMask text).getD i false = true) :
    formatAt (applyCalls text.length (stringCalls text ++ ruleCalls text)) i =
      some Format.stringFormat := by
  obtain ⟨hlen, m, hm, hin⟩ := (stringMask_iff text i).mp hi
  rw [applyCalls_append, formatAt_foldl_not_covered]
  · unfold applyCalls
    apply formatAt_foldl_covered _ _ _ _ (stringCalls_format text) (by simpa using hlen)
    refine ⟨⟨(m.1 : Int), (m.2 : Int), Format.stringFormat⟩, ?_, ?_⟩
    · unfold stringCalls
      exact List.mem_map.mpr ⟨m, hm, rfl⟩
    · unfold Covers
      unfold InMatch at hin
      simp only
      omega
  · intro c hc hcov
    have := (ruleCalls_spec text c hc).2 i hcov.2.1 hcov.2.2
    rw [hi] at this
    exact absurd this (by decide)


/-! ## Claims about `highlightBlock` -/

/-- C9 (mask precedence over the rule table). For every line and previous
state, `highlightBlock` returns, and every `setFormat` call of its rule loop
is a whole match of a rule of the table none of whose characters is protected:
the mask is false on it and no match of the string pattern contains it. A rule
match holding a protected character therefore yields no call at all. -/
theorem highlightBlock_rule_spans_unprotected (text : List Char) (prev : Int) :
    ∃ res commentCalls, highlightBlock text prev = some res ∧
      res.calls = stringCalls text ++ ruleCalls text ++ commentCalls ∧
      (∀ c ∈ ruleCalls text,
        (∃ rule ∈ highlightingRules, ∃ m ∈ globalMatch rule.pattern text,
          c = ⟨(m.1 : Int), (m.2 : Int), rule.format⟩) ∧
        ∀ i : Nat, c.start ≤ i → (i : Int) < c.start + c.count →
          (stringMask text).getD i false = false ∧
            ∀ m ∈ globalMatch stringPattern text, ¬ InMatch m i) ∧
      (∀ m i, InMatch m i → (stringMask text).getD i false = true →
        ∀ c ∈ ruleCalls text, ¬ (c.start = (m.1 : Int) ∧ c.count = (m.2 : Int))) := by
  obtain ⟨cc, st, _, _, h⟩ := highlightBlock_eq text prev
  refine ⟨_, cc, h, rfl, fun c hc => ⟨(ruleCalls_spec text c hc).1, fun i h1 h2 => ?_⟩, ?_⟩
  · have hm := (ruleCalls_spec text c hc).2 i h1 h2
    refine ⟨hm, fun m hmem hin => ?_⟩
    have hb := globalMatch_bound _ _ m hmem
    have : (stringMask text).getD i false = true :=
      (stringMask_iff text i).mpr ⟨by unfold InMatch at hin; omega, m, hmem, hin⟩
    rw [hm] at this
    exact absurd this (by decide)
  · intro m i hin hmask c hc ⟨h1, h2⟩
    unfold InMatch at hin
    have := (ruleCalls_spec text c hc).2 i (by omega) (by omega)
    rw [hmask] at this
    exact absurd this (by decide)

/-- Examples for the rule loop: in `x = "if (cond)";` and in `s = "//";` it
makes no call, so neither a keyword span nor a line-comment span exists. -/
theorem ruleCalls_inside_literal :
    ruleCalls ['x', ' ', '=', ' ', '"', 'i', 'f', ' ', '(', 'c', 'o', 'n', 'd', ')', '"', ';'] = [] ∧
      ruleCalls ['s', ' ', '=', ' ', '"', '/', '/', '"', ';'] = [] := by
  decide

/-- Counterexample to C10 as stated: in the line `/* "a" */`, tokenized from
block state 0, offset 4 is protected, and its final format is
`multiLineCommentFormat`. -/
theorem protected_char_retagged_by_comment :
    (stringMask ['/', '*', ' ', '"', 'a', '"', ' ', '*', '/']).getD 4 false = true ∧
      (highlightBlock ['/', '*', ' ', '"', 'a', '"', ' ', '*', '/'] 0).map
        (fun r => formatAt r.formats 4) = some (some Format.multiLineCommentFormat) := by
  decide

/-- C10, amended. A protected character carries `stringFormat` after the
string loop and the rule loop; `highlightBlock` returns, and in its result
the character carries `multiLineCommentFormat` when a call of the
block-comment part reaches it and `stringFormat` otherwise. -/
theorem protected_char_format (text : List Char) (prev : Int) (i : Nat)
    (hi : (stringMask text).getD i false = true) :
    formatAt (applyCalls text.length (stringCalls text ++ ruleCalls text)) i =
        some Format.stringFormat ∧
      ∃ res commentCalls, highlightBlock text prev = some res ∧
        res.calls = stringCalls text ++ ruleCalls text ++ commentCalls ∧
        formatAt res.formats i =
          if ∃ c ∈ commentCalls, Covers c i then some Format.multiLineCommentFormat
          else some Format.stringFormat := by
  have hA := formatAt_protected text i hi
  refine ⟨hA, ?_⟩
  obtain ⟨cc, st, _, hcc, h⟩ := highlightBlock_eq text prev
  refine ⟨_, cc, h, rfl, ?_⟩
  simp only
  rw [applyCalls_append]
  have hlen : i < text.length := ((stringMask_iff text i).mp hi).1
  by_cases hcov : ∃ c ∈ cc, Covers c i
  · rw [if_pos hcov]
    exact formatAt_foldl_covered cc _ i _ (fun c hc => (hcc c hc).1)
      (by rw [length_applyCalls]; exact hlen) hcov
  · rw [if_neg hcov, formatAt_foldl_not_covered cc i _ (fun c hc h => hcov ⟨c, hc, h⟩)]
    exact hA

/-- Witness for the amended C10: offset 5 of `x = "a";`. -/
theorem protected_char_format_witness :
    formatAt (applyCalls ['x', ' ', '=', ' ', '"', 'a', '"', ';'].length
        (stringCalls ['x', ' ', '=', ' ', '"', 'a', '"', ';'] ++
          ruleCalls ['x', ' ', '=', ' ', '"', 'a', '"', ';'])) 5 = some Format.stringFormat ∧
      ∃ res commentCalls, highlightBlock ['x', ' ', '=', ' ', '"', 'a', '"', ';'] 0 = some res ∧
        res.calls = stringCalls ['x', ' ', '=', ' ', '"', 'a', '"', ';'] ++
          ruleCalls ['x', ' ', '=', ' ', '"', 'a', '"', ';'] ++ commentCalls ∧
        formatAt res.formats 5 =
          if ∃ c ∈ commentCalls, Covers c 5 then some Format.multiLineCommentFormat
          else some Format.stringFormat :=
  protected_char_format ['x', ' ', '=', ' ', '"', 'a', '"', ';'] 0 5 (by decide)


/-- An iteration at an open marker that is not protected and that no close
marker follows: the comment runs to the end of the line and the loop stops
with block state 1. -/
theorem commentLoop_unterminated_at (text : List Char) (s : Nat)
    (hopen : IsOpenAt text s) (hmask : (stringMask text).getD s false = false)
    (hnoclose : ∀ e, s < e → e < text.length → ¬ IsCloseAt text e)
    (f : Nat) (calls : List FormatCall) (st : Int) :
    commentLoop text (stringMask text) (f + 2) (s : Int) calls st =
      some (calls ++ [⟨(s : Int), (text.length : Int) - s, Format.multiLineCommentFormat⟩], 1) := by
  have hm : ¬ ((s : Int) < (stringMask text).length ∧ (stringMask text).getD s false = true) := by
    rw [hmask]; simp
  rcases indexOf_commentEnd text s with ⟨e, he, he1, he2, _⟩ | ⟨he, _⟩
  · exfalso
    have hne : e ≠ s := by
      intro heq
      subst heq
      have h1 := hopen.1
      have h2 := he2.1
      rw [h1] at h2
      exact absurd h2 (by decide)
    exact hnoclose e (by omega) (by have := isCloseAt_lt he2; omega) he2
  · rw [commentLoop_open text _ (f + 1) s calls st hm he, indexOf_commentStart_end,
      commentLoop_done]

/-- From any offset `n <= s` the loop passes the protected open markers
before `s`, opens a comment at `s` that no close marker ends, and stops with
block state 1. -/
theorem commentLoop_unterminated (text : List Char) (s : Nat)
    (hopen : IsOpenAt text s) (hmask : (stringMask text).getD s false = false)
    (hleft : ∀ j, j < s → IsOpenAt text j → (stringMask text).getD j false = true)
    (hnoclose : ∀ e, s < e → e < text.length → ¬ IsCloseAt text e) :
    ∀ (d n fuel : Nat) (calls : List FormatCall) (st : Int), s - n ≤ d → n ≤ s →
      d + 2 ≤ fuel →
      commentLoop text (stringMask text) fuel
        (indexOf text commentStartExpression (n : Int)).1 calls st =
        some (calls ++ [⟨(s : Int), (text.length : Int) - s, Format.multiLineCommentFormat⟩], 1) := by
  intro d
  induction d with
  | zero =>
    intro n fuel calls st hd hn hf
    obtain ⟨f, rfl⟩ : ∃ f, fuel = f + 2 := ⟨fuel - 2, by omega⟩
    rcases indexOf_commentStart text n with ⟨j, h0, h1, h2, h3⟩ | ⟨_, h⟩
    · have hj : j = s := by
        by_contra hne
        exact h3 s hn (by omega) hopen
      subst hj
      rw [h0]
      exact commentLoop_unterminated_at text j hopen hmask hnoclose f calls st
    · exact absurd hopen (h s hn)
  | succ d ih =>
    intro n fuel calls st hd hn hf
    obtain ⟨f, rfl⟩ : ∃ f, fuel = f + 2 := ⟨fuel - 2, by omega⟩
    rcases indexOf_commentStart text n with ⟨j, h0, h1, h2, h3⟩ | ⟨_, h⟩
    · have hjs : j ≤ s := by
        by_contra hne
        exact h3 s hn (by omega) hopen
      rw [h0]
      rcases Nat.eq_or_lt_of_le hjs with rfl | hlt
      · exact commentLoop_unterminated_at text j hopen hmask hnoclose f calls st
      · have hm : (j : Int) < (stringMask text).length ∧ (stringMask text).getD j false = true := by
          refine ⟨?_, hleft j hlt h2⟩
          rw [length_stringMask]
          have := isOpenAt_lt h2
          omega
        rw [commentLoop_masked text _ (f + 1) j calls st hm]
        exact ih (j + 1) (f + 1) calls st (by omega) (by omega) (by omega)
    · exact absurd hopen (h s hn)

/-- C8 (unterminated comment opener). From a previous state other than 1, if
the leftmost open marker `/*` whose first character is not protected starts
at `s` and no close marker `*/` starts after `s`, then `highlightBlock`
returns with block state 1 and every character from `s` to the end of the
line carries `multiLineCommentFormat`. -/
theorem highlightBlock_unterminated_comment (text : List Char) (prev : Int) (s : Nat)
    (hprev : prev ≠ 1) (hopen : IsOpenAt text s)
    (hmask : (stringMask text).getD s false = false)
    (hleft : ∀ j, j < s → IsOpenAt text j → (stringMask text).getD j false = true)
    (hnoclose : ∀ e, s < e → e < text.length → ¬ IsCloseAt text e) :
    ∃ res, highlightBlock text prev = some res ∧ res.blockState = 1 ∧
      ∀ i, s ≤ i → i < text.length →
        formatAt res.formats i = some Format.multiLineCommentFormat := by
  have hpass : commentPass text prev =
      some ([⟨(s : Int), (text.length : Int) - s, Format.multiLineCommentFormat⟩], 1) := by
    unfold commentPass
    rw [if_pos hprev]
    have := commentLoop_unterminated text s hopen hmask hleft hnoclose s 0 (text.length + 2)
      [] 0 (by omega) (by omega) (by have := isOpenAt_lt hopen; omega)
    simpa using this
  refine ⟨_, by unfold highlightBlock; rw [hpass], rfl, fun i h1 h2 => ?_⟩
  simp only
  rw [applyCalls_append]
  apply formatAt_foldl_covered _ Format.multiLineCommentFormat i _
    (fun c hc => by rw [List.mem_singleton.mp hc]) (by rw [length_applyCalls]; exact h2)
  refine ⟨_, List.mem_singleton.mpr rfl, ?_⟩
  unfold Covers
  simp only
  omega

/-- Witness for C8: `int x; /*` from block state 0 tags offsets 7 and 8 and
ends in block state 1. -/
theorem highlightBlock_unterminated_comment_witness :
    ∃ res, highlightBlock ['i', 'n', 't', ' ', 'x', ';', ' ', '/', '*'] 0 = some res ∧
      res.blockState = 1 ∧
      ∀ i, 7 ≤ i → i < ['i', 'n', 't', ' ', 'x', ';', ' ', '/', '*'].length →
        formatAt res.formats i = some Format.multiLineCommentFormat :=
  highlightBlock_unterminated_comment ['i', 'n', 't', ' ', 'x', ';', ' ', '/', '*'] 0 7
    (by decide) (by decide) (by decide) (by decide)
    (fun e h1 _ h => by
      have h3 := isCloseAt_lt h
      simp only [List.length_cons, List.length_nil] at h3
      omega)


/-! ## Continuation lines (previous block state 1) -/

/-- When every open marker from `n` on is protected, the loop makes no
further call and keeps the block state. -/
theorem commentLoop_all_masked (text : List Char)
    : ∀ (d n fuel : Nat) (calls : List FormatCall) (st : Int), text.length - n ≤ d →
      d + 1 ≤ fuel →
      (∀ j, n ≤ j → IsOpenAt text j → (stringMask text).getD j false = true) →
      commentLoop text (stringMask text) fuel
        (indexOf text commentStartExpression (n : Int)).1 calls st = some (calls, st) := by
  intro d
  induction d with
  | zero =>
    intro n fuel calls st hd hf hall
    obtain ⟨f, rfl⟩ : ∃ f, fuel = f + 1 := ⟨fuel - 1, by omega⟩
    rcases indexOf_commentStart text n with ⟨j, _, h1, h2, _⟩ | ⟨h0, _⟩
    · have := isOpenAt_lt h2; omega
    · rw [h0]; exact commentLoop_done _ _ _ _ _
  | succ d ih =>
    intro n fuel calls st hd hf hall
    obtain ⟨f, rfl⟩ : ∃ f, fuel = f + 1 := ⟨fuel - 1, by omega⟩
    rcases indexOf_commentStart text n with ⟨j, h0, h1, h2, _⟩ | ⟨h0, _⟩
    · rw [h0]
      have hlt := isOpenAt_lt h2
      have hm : (j : Int) < (stringMask text).length ∧ (stringMask text).getD j false = true := by
        refine ⟨?_, hall j h1 h2⟩
        rw [length_stringMask]
        omega
      rw [commentLoop_masked text _ f j calls st hm]
      exact ih (j + 1) f calls st (by omega) (by omega) (fun k hk => hall k (by omega))
    · rw [h0]; exact commentLoop_done _ _ _ _ _

/-- Continuation line whose first character is not protected: from block
state 1, a line without close marker is tagged `multiLineCommentFormat`
throughout and the block state is 1 again. -/
theorem highlightBlock_continuation_unclosed (text : List Char)
    (hmask : (stringMask text).getD 0 false = false)
    (hnoclose : ∀ e, ¬ IsCloseAt text e) :
    ∃ res, highlightBlock text 1 = some res ∧ res.blockState = 1 ∧
      ∀ i, i < text.length → formatAt res.formats i = some Format.multiLineCommentFormat := by
  have hm : ¬ (((0 : Nat) : Int) < (stringMask text).length ∧
      (stringMask text).getD 0 false = true) := by
    rw [hmask]; simp
  have he : indexOf text commentEndExpression ((0 : Nat) : Int) = (-1, 0) := by
    rcases indexOf_commentEnd text 0 with ⟨e, _, _, h2, _⟩ | ⟨he, _⟩
    · exact absurd h2 (hnoclose e)
    · exact he
  have hpass : commentPass text 1 =
      some ([⟨0, (text.length : Int), Format.multiLineCommentFormat⟩], 1) := by
    unfold commentPass
    rw [if_neg (by simp)]
    have := commentLoop_open text (stringMask text) (text.length + 1) 0 [] 0 hm he
    rw [indexOf_commentStart_end, commentLoop_done] at this
    simpa using this
  refine ⟨_, by unfold highlightBlock; rw [hpass], rfl, fun i h => ?_⟩
  simp only
  rw [applyCalls_append]
  apply formatAt_foldl_covered _ Format.multiLineCommentFormat i _
    (fun c hc => by rw [List.mem_singleton.mp hc]) (by rw [length_applyCalls]; exact h)
  refine ⟨_, List.mem_singleton.mpr rfl, ?_⟩
  unfold Covers
  simp only
  omega

/-- Continuation line whose first character is not protected: from block
state 1, when the first close marker starts at `e` and every later open
marker is protected, the characters before `e + 2` are tagged
`multiLineCommentFormat` and the block state is 0. -/
theorem highlightBlock_continuation_closed (text : List Char) (e : Nat)
    (hmask : (stringMask text).getD 0 false = false)
    (hclose : IsCloseAt text e) (hfirst : ∀ j, j < e → ¬ IsCloseAt text j)
    (hlater : ∀ j, e + 2 ≤ j → IsOpenAt text j → (stringMask text).getD j false = true) :
    ∃ res, highlightBlock text 1 = some res ∧ res.blockState = 0 ∧
      ∀ i, i < e + 2 → formatAt res.formats i = some Format.multiLineCommentFormat := by
  have hm : ¬ (((0 : Nat) : Int) < (stringMask text).length ∧
      (stringMask text).getD 0 false = true) := by
    rw [hmask]; simp
  have he : indexOf text commentEndExpression ((0 : Nat) : Int) = ((e : Int), 2) := by
    rcases indexOf_commentEnd text 0 with ⟨e', h0, _, h2, h3⟩ | ⟨_, h⟩
    · have : e' = e := by
        rcases Nat.lt_trichotomy e' e with hlt | heq | hgt
        · exact absurd h2 (hfirst e' hlt)
        · exact heq
        · exact absurd hclose (h3 e (by omega) hgt)
      rw [← this]; exact h0
    · exact absurd hclose (h e (by omega))
  have hlt := isCloseAt_lt hclose
  have hpass : commentPass text 1 =
      some ([⟨0, (e : Int) + 2, Format.multiLineCommentFormat⟩], 0) := by
    unfold commentPass
    rw [if_neg (by simp)]
    have := commentLoop_closed text (stringMask text) (text.length + 1) 0 e [] 0 hm he
    rw [commentLoop_all_masked text (text.length - (e + 2)) (e + 2) (text.length + 1) _ _
      (le_refl _) (by omega) hlater] at this
    simpa using this
  refine ⟨_, by unfold highlightBlock; rw [hpass], rfl, fun i h => ?_⟩
  simp only
  rw [applyCalls_append]
  apply formatAt_foldl_covered _ Format.multiLineCommentFormat i _
    (fun c hc => by rw [List.mem_singleton.mp hc]) (by rw [length_applyCalls]; omega)
  refine ⟨_, List.mem_singleton.mpr rfl, ?_⟩
  unfold Covers
  simp only
  omega

/-- C6 fails on the line `"a"` (three characters, no close marker) read with
previous block state 1: the only call is that of the string loop, no
character is tagged as a comment and the block state is 0. -/
theorem highlightBlock_continuation_literal_first :
    (∀ e, e < 3 → ¬ IsCloseAt ['"', 'a', '"'] e) ∧
      highlightBlock ['"', 'a', '"'] 1 = some
        { calls := [⟨0, 3, Format.stringFormat⟩],
          formats := [some Format.stringFormat, some Format.stringFormat,
            some Format.stringFormat],
          blockState := 0 } := by
  decide

/-- C7 fails on the line `"a" */ x` read with previous block state 1: its
first close marker starts at offset 4, yet no character is tagged as a
comment; only the literal at offsets 0 to 2 is tagged. -/
theorem highlightBlock_continuation_close_literal_first :
    IsCloseAt ['"', 'a', '"', ' ', '*', '/', ' ', 'x'] 4 ∧
      (∀ j, j < 4 → ¬ IsCloseAt ['"', 'a', '"', ' ', '*', '/', ' ', 'x'] j) ∧
      highlightBlock ['"', 'a', '"', ' ', '*', '/', ' ', 'x'] 1 = some
        { calls := [⟨0, 3, Format.stringFormat⟩],
          formats := [some Format.stringFormat, some Format.stringFormat,
            some Format.stringFormat, none, none, none, none, none],
          blockState := 0 } := by
  decide

/-! ## Lines without an effective comment opener -/

theorem highlightingRules_not_multiLine :
    ∀ rule ∈ highlightingRules, rule.format ≠ Format.multiLineCommentFormat := by
  decide

/-- C11 (an open marker inside a string). From a previous state other than
1, when every `/*` of the line starts at a protected offset, the
block-comment part makes no call: the calls are those of the string loop and
of the rule loop, none carries `multiLineCommentFormat`, and the block state
is 0. -/
theorem highlightBlock_open_marker_in_string (text : List Char) (prev : Int)
    (hprev : prev ≠ 1)
    (hall : ∀ j, IsOpenAt text j → (stringMask text).getD j false = true) :
    highlightBlock text prev = some
        { calls := stringCalls text ++ ruleCalls text,
          formats := applyCalls text.length (stringCalls text ++ ruleCalls text),
          blockState := 0 } ∧
      ∀ c ∈ stringCalls text ++ ruleCalls text, c.format ≠ Format.multiLineCommentFormat := by
  constructor
  · have hpass : commentPass text prev = some ([], 0) := by
      unfold commentPass
      rw [if_pos hprev]
      exact commentLoop_all_masked text text.length 0 (text.length + 2) [] 0 (by omega)
        (by omega) (fun j _ h => hall j h)
    unfold highlightBlock
    rw [hpass]
    simp
  · intro c hc
    rcases List.mem_append.mp hc with hc | hc
    · rw [stringCalls_format text c hc]; decide
    · obtain ⟨rule, hrule, m, _, rfl⟩ := (ruleCalls_spec text c hc).1
      exact highlightingRules_not_multiLine rule hrule

/-- Witness for C11: the line `s = "/*";`. -/
theorem highlightBlock_open_marker_in_string_witness :
    highlightBlock ['s', ' ', '=', ' ', '"', '/', '*', '"', ';'] 0 = some
        { calls := stringCalls ['s', ' ', '=', ' ', '"', '/', '*', '"', ';'] ++
            ruleCalls ['s', ' ', '=', ' ', '"', '/', '*', '"', ';'],
          formats := applyCalls ['s', ' ', '=', ' ', '"', '/', '*', '"', ';'].length
            (stringCalls ['s', ' ', '=', ' ', '"', '/', '*', '"', ';'] ++
              ruleCalls ['s', ' ', '=', ' ', '"', '/', '*', '"', ';']),
          blockState := 0 } ∧
      ∀ c ∈ stringCalls ['s', ' ', '=', ' ', '"', '/', '*', '"', ';'] ++
          ruleCalls ['s', ' ', '=', ' ', '"', '/', '*', '"', ';'],
        c.format ≠ Format.multiLineCommentFormat :=
  highlightBlock_open_marker_in_string ['s', ' ', '=', ' ', '"', '/', '*', '"', ';'] 0
    (by decide)
    (fun j h => by
      have hlt := isOpenAt_lt h
      simp only [List.length_cons, List.length_nil] at hlt
      have hj : j < 8 := by omega
      interval_cases j <;> first | decide | exact absurd h (by decide))

/-- C17 (empty line). On the empty line read with previous block state 1 the
only call is `setFormat(0, 0, multiLineCommentFormat)`, of length 0, and the
block state is 1 again; read with any other previous state, which stands for
`Normal`, there is no call and the block state is 0, the value of `Normal`. No
character is tagged in either case. -/
theorem highlightBlock_empty_line :
    highlightBlock [] 1 = some
        { calls := [⟨0, 0, Format.multiLineCommentFormat⟩], formats := [], blockState := 1 } ∧
      ∀ prev : Int, prev ≠ 1 →
        highlightBlock [] prev = some { calls := [], formats := [], blockState := 0 } := by
  refine ⟨by decide, fun prev hp => ?_⟩
  have hpass : commentPass [] prev = some ([], 0) := by
    unfold commentPass
    rw [if_pos hp]
    rfl
  unfold highlightBlock
  rw [hpass]
  rfl

/-- Witness for C17 at the previous block states 0 and -1. -/
theorem highlightBlock_empty_line_witness :
    highlightBlock [] 0 = some { calls := [], formats := [], blockState := 0 } ∧
      highlightBlock [] (-1) = some { calls := [], formats := [], blockState := 0 } :=
  ⟨highlightBlock_empty_line.2 0 (by decide), highlightBlock_empty_line.2 (-1) (by decide)⟩

/-! ## Searching and repeating -/

/-- The search returns the first offset at which the pattern matches. -/
theorem searchFrom_first (re : Regex) (text : List Char) (s e : Nat)
    (hm : matchAt text re s some = some e) :
    ∀ (n start : Nat), start ≤ s → s < start + n →
      (∀ j, start ≤ j → j < s → matchAt text re j some = none) →
      searchFrom re text n start = some (s, e) := by
  intro n
  induction n with
  | zero => intro start h1 h2 _; omega
  | succ n ih =>
    intro start h1 h2 hnone
    rw [searchFrom]
    rcases Nat.eq_or_lt_of_le h1 with rfl | hlt
    · rw [hm]
    · rw [hnone start (le_refl _) hlt]
      exact ih (start + 1) hlt (by omega) (fun j hj1 hj2 => hnone j (by omega) hj2)

theorem searchFrom_eq_none (re : Regex) (text : List Char)
    (hnone : ∀ j, matchAt text re j some = none) :
    ∀ (n start : Nat), searchFrom re text n start = none := by
  intro n
  induction n with
  | zero => intro start; rfl
  | succ n ih => intro start; rw [searchFrom, hnone start]; exact ih (start + 1)

/-- Every match delivered by the iteration is a match of the pattern at its
start. -/
theorem globalMatchFrom_matchAt (re : Regex) (text : List Char) :
    ∀ (n start : Nat) (m : Nat × Nat), m ∈ globalMatchFrom re text n start →
      matchAt text re m.1 some = some (m.1 + m.2) := by
  intro n
  induction n with
  | zero => intro start m h; simp [globalMatchFrom] at h
  | succ n ih =>
    intro start m h
    rw [globalMatchFrom] at h
    cases hf : firstMatch re text start with
    | none => rw [hf] at h; simp at h
    | some se =>
      obtain ⟨s, e⟩ := se
      rw [hf] at h
      rcases List.mem_cons.mp h with rfl | h
      · obtain ⟨_, h2, _⟩ := firstMatch_bound re text start s e hf
        unfold firstMatch at hf
        obtain ⟨_, _, h3, _⟩ := searchFrom_some _ _ _ _ _ _ hf
        simp only
        rw [h3]
        congr 1
        omega
      · exact ih _ m h

/-- The greedy star over a character class runs through the maximal run of
characters of the class when the rest of the pattern matches behind it. -/
theorem starLoop_cls_run (text : List Char) (p : Char → Bool) (k : Nat → Option Nat)
    (e : Nat) :
    ∀ (m pos n : Nat), m ≤ n →
      (∀ j, pos ≤ j → j < pos + m → ∃ c, text[j]? = some c ∧ p c = true) →
      (∀ c, text[pos + m]? = some c → p c = false) →
      k (pos + m) = some e →
      starLoop (matchAt text (Regex.cls p)) n pos k = some e := by
  intro m
  induction m with
  | zero =>
    intro pos n _ _ hstop hk
    cases n with
    | zero => exact hk
    | succ n =>
      have hb : matchAt text (Regex.cls p) pos
          (fun q => if pos < q then starLoop (matchAt text (Regex.cls p)) n q k else k q) =
          none := by
        rw [matchAt]
        cases hc : text[pos]? with
        | none => rfl
        | some c =>
          simp only
          rw [if_neg (by rw [hstop c hc]; decide)]
      rw [starLoop, hb]
      exact hk
  | succ m ih =>
    intro pos n hn hrun hstop hk
    obtain ⟨n', rfl⟩ : ∃ n', n = n' + 1 := ⟨n - 1, by omega⟩
    obtain ⟨c, hc, hp⟩ := hrun pos (le_refl _) (by omega)
    have e1 : pos + 1 + m = pos + (m + 1) := by omega
    have hnext := ih (pos + 1) n' (by omega)
      (fun j hj1 hj2 => hrun j (by omega) (by omega))
      (by rw [e1]; exact hstop)
      (by rw [e1]; exact hk)
    rw [starLoop, matchAt, hc]
    simp only [hp, if_true]
    rw [if_pos (by omega), hnext]
    rfl

/-! ## Lines with a single quote character -/

/-- A match of one alternative of the string pattern starts with the quote
and holds a second quote of the same kind. -/
theorem matchAt_quoted (text : List Char) (q : Char) (pos : Nat) (k : Nat → Option Nat)
    (e : Nat) (h : matchAt text (quoted q) pos k = some e) :
    text[pos]? = some q ∧ ∃ p, pos < p ∧ text[p]? = some q := by
  unfold quoted at h
  rw [matchAt, matchAt] at h
  split_ifs at h with h1
  refine ⟨h1, ?_⟩
  rw [matchAt] at h
  obtain ⟨p, hp1, _, hp3⟩ := matchAt_bound text _ _ _ _ h
  rw [matchAt] at hp3
  split_ifs at hp3 with h2
  exact ⟨p, by omega, h2⟩

/-- In a line holding at most one quote character the string pattern has no
match. -/
theorem matchAt_stringPattern_single_quote (pre rest : List Char) (q : Char)
    (hpre : ∀ c ∈ pre, c ≠ '"' ∧ c ≠ '\'') (hrest : ∀ c ∈ rest, c ≠ '"' ∧ c ≠ '\'')
    (pos : Nat) : matchAt (pre ++ q :: rest) stringPattern pos some = none := by
  have hone : ∀ (j : Nat) (c : Char), (pre ++ q :: rest)[j]? = some c →
      (c = '"' ∨ c = '\'') → j = pre.length := by
    intro j c hj hc
    rcases Nat.lt_trichotomy j pre.length with hlt | heq | hgt
    · rw [List.getElem?_append_left hlt] at hj
      have := hpre c (List.getElem?_mem hj)
      rcases hc with rfl | rfl
      · exact absurd rfl this.1
      · exact absurd rfl this.2
    · exact heq
    · rw [List.getElem?_append_right (by omega)] at hj
      obtain ⟨n, hn⟩ : ∃ n, j - pre.length = n + 1 := ⟨j - pre.length - 1, by omega⟩
      rw [hn, List.getElem?_cons_succ] at hj
      have := hrest c (List.getElem?_mem hj)
      rcases hc with rfl | rfl
      · exact absurd rfl this.1
      · exact absurd rfl this.2
  cases h : matchAt (pre ++ q :: rest) stringPattern pos some with
  | none => rfl
  | some e =>
    exfalso
    unfold stringPattern at h
    rw [matchAt] at h
    rcases orElse_eq_some _ _ _ h with h | h
    · obtain ⟨h1, p, hp, h2⟩ := matchAt_quoted _ _ _ _ _ h
      have := hone pos _ h1 (Or.inl rfl)
      have := hone p _ h2 (Or.inl rfl)
      omega
    · obtain ⟨h1, p, hp, h2⟩ := matchAt_quoted _ _ _ _ _ h
      have := hone pos _ h1 (Or.inr rfl)
      have := hone p _ h2 (Or.inr rfl)
      omega

theorem globalMatch_eq_nil (re : Regex) (text : List Char)
    (hnone : ∀ j, matchAt text re j some = none) : globalMatch re text = [] := by
  unfold globalMatch
  rw [globalMatchFrom]
  unfold firstMatch
  rw [searchFrom_eq_none re text hnone]

/-- A format found on a character after some calls was given by one of them
or was there before. -/
theorem formatAt_foldl_mem (B : List FormatCall) (f : Format) (i : Nat) :
    ∀ F : List (Option Format), formatAt (B.foldl setFormat F) i = some f →
      formatAt F i = some f ∨ ∃ c ∈ B, c.format = f := by
  induction B with
  | nil => intro F h; exact Or.inl h
  | cons c B ih =>
    intro F h
    rw [List.foldl_cons] at h
    rcases ih _ h with h | ⟨x, hx, hf⟩
    · rw [formatAt_setFormat] at h
      split_ifs at h
      · exact Or.inr ⟨c, List.mem_cons_self _ _, Option.some.inj h⟩
      · exact Or.inl h
    · exact Or.inr ⟨x, List.mem_cons_of_mem _ hx, hf⟩

theorem formatAt_replicate_none (n i : Nat) :
    formatAt (List.replicate n (none : Option Format)) i = none := by
  unfold formatAt
  simp only [List.getD_eq_getElem?_getD]
  by_cases h : i < n
  · rw [List.getElem?_eq_getElem (by simpa using h)]; simp
  · rw [List.getElem?_eq_none (by simpa using h)]; rfl

theorem highlightingRules_not_string :
    ∀ rule ∈ highlightingRules, rule.format ≠ Format.stringFormat := by
  decide

/-- Counterexample to C14 as stated: in `x = "abc` the opening quote at
offset 4 is not protected, and `highlightBlock` makes no call at all. -/
theorem unterminated_literal_unprotected :
    (stringMask ['x', ' ', '=', ' ', '"', 'a', 'b', 'c']).getD 4 false = false ∧
      highlightBlock ['x', ' ', '=', ' ', '"', 'a', 'b', 'c'] 0 = some
        { calls := [],
          formats := [none, none, none, none, none, none, none, none],
          blockState := 0 } := by
  decide

/-- C14, amended. In a line `pre ++ q :: rest` with no quote character in
`pre` and `rest`, so that a quote `q` is the only one of the line and has no
closing partner, the string pattern has no match: no character is protected,
`highlightBlock` returns, no call and no character carries `stringFormat`, and
from a previous state other than 1 a line without `/*` ends in block
state 0. -/
theorem highlightBlock_single_quote (pre rest : List Char) (q : Char) (prev : Int)
    (hpre : ∀ c ∈ pre, c ≠ '"' ∧ c ≠ '\'') (hrest : ∀ c ∈ rest, c ≠ '"' ∧ c ≠ '\'') :
    globalMatch stringPattern (pre ++ q :: rest) = [] ∧
      (∀ i, (stringMask (pre ++ q :: rest)).getD i false = false) ∧
      ∃ res, highlightBlock (pre ++ q :: rest) prev = some res ∧
        (∀ c ∈ res.calls, c.format ≠ Format.stringFormat) ∧
        (∀ i, formatAt res.formats i ≠ some Format.stringFormat) ∧
        (prev ≠ 1 → (∀ j, ¬ IsOpenAt (pre ++ q :: rest) j) → res.blockState = 0) := by
  have hnil : globalMatch stringPattern (pre ++ q :: rest) = [] :=
    globalMatch_eq_nil _ _ (matchAt_stringPattern_single_quote pre rest q hpre hrest)
  have hmask : ∀ i, (stringMask (pre ++ q :: rest)).getD i false = false := by
    intro i
    cases h : (stringMask (pre ++ q :: rest)).getD i false with
    | false => rfl
    | true =>
      obtain ⟨_, m, hm, _⟩ := (stringMask_iff _ i).mp h
      rw [hnil] at hm
      simp at hm
  refine ⟨hnil, hmask, ?_⟩
  obtain ⟨cc, st, hcp, hcc, h⟩ := highlightBlock_eq (pre ++ q :: rest) prev
  have hcalls : ∀ c ∈ stringCalls (pre ++ q :: rest) ++ ruleCalls (pre ++ q :: rest) ++ cc,
      c.format ≠ Format.stringFormat := by
    intro c hc
    rcases List.mem_append.mp hc with hc | hc
    · rcases List.mem_append.mp hc with hc | hc
      · unfold stringCalls at hc
        rw [hnil] at hc
        simp at hc
      · obtain ⟨rule, hrule, m, _, rfl⟩ := (ruleCalls_spec _ c hc).1
        exact highlightingRules_not_string rule hrule
    · rw [(hcc c hc).1]; decide
  refine ⟨_, h, hcalls, fun i hi => ?_, fun hprev hno => ?_⟩
  · simp only at hi
    unfold applyCalls at hi
    rcases formatAt_foldl_mem _ _ _ _ hi with h1 | ⟨c, hc, hf⟩
    · rw [formatAt_replicate_none] at h1
      simp at h1
    · exact hcalls c hc hf
  · simp only
    have hpass : commentPass (pre ++ q :: rest) prev = some ([], 0) := by
      unfold commentPass
      rw [if_pos hprev]
      exact commentLoop_all_masked _ (pre ++ q :: rest).length 0 _ [] 0 (by omega)
        (by omega) (fun j _ hj => absurd hj (hno j))
    rw [hpass] at hcp
    simp only [Option.some.injEq, Prod.mk.injEq] at hcp
    exact hcp.2.symm

/-- Witness for the amended C14: the line `x = "abc`. -/
theorem highlightBlock_single_quote_witness :
    globalMatch stringPattern (['x', ' ', '=', ' '] ++ '"' :: ['a', 'b', 'c']) = [] ∧
      (∀ i, (stringMask (['x', ' ', '=', ' '] ++ '"' :: ['a', 'b', 'c'])).getD i false = false) ∧
      ∃ res, highlightBlock (['x', ' ', '=', ' '] ++ '"' :: ['a', 'b', 'c']) 0 = some res ∧
        (∀ c ∈ res.calls, c.format ≠ Format.stringFormat) ∧
        (∀ i, formatAt res.formats i ≠ some Format.stringFormat) ∧
        ((0 : Int) ≠ 1 → (∀ j, ¬ IsOpenAt (['x', ' ', '=', ' '] ++ '"' :: ['a', 'b', 'c']) j) →
          res.blockState = 0) :=
  highlightBlock_single_quote ['x', ' ', '=', ' '] ['a', 'b', 'c'] '"' 0
    (by decide) (by decide)

/-! ## The rule table -/

/-- The rules of the table, by format. -/
theorem highlightingRules_cases (rule : HighlightingRule) (h : rule ∈ highlightingRules) :
    rule.format = Format.keywordFormat ∨ rule.format = Format.typeFormat ∨
      (rule.pattern = functionPattern ∧ rule.format = Format.functionFormat) ∨
      rule.format = Format.numberFormat ∨
      (rule.pattern = preprocessorPattern ∧ rule.format = Format.preprocessorFormat) ∨
      (rule.pattern = singleLineCommentPattern ∧
        rule.format = Format.singleLineCommentFormat) := by
  unfold highlightingRules at h
  rcases List.mem_append.mp h with h | h
  · rcases List.mem_append.mp h with h | h
    · obtain ⟨p, _, rfl⟩ := List.mem_map.mp h
      exact Or.inl rfl
    · obtain ⟨p, _, rfl⟩ := List.mem_map.mp h
      exact Or.inr (Or.inl rfl)
  · simp only [List.mem_cons, List.mem_singleton, List.not_mem_nil, or_false] at h
    rcases h with rfl | rfl | rfl | rfl | rfl
    · exact Or.inr (Or.inr (Or.inl ⟨rfl, rfl⟩))
    · exact Or.inr (Or.inr (Or.inr (Or.inl rfl)))
    · exact Or.inr (Or.inr (Or.inr (Or.inl rfl)))
    · exact Or.inr (Or.inr (Or.inr (Or.inr (Or.inl ⟨rfl, rfl⟩))))
    · exact Or.inr (Or.inr (Or.inr (Or.inr (Or.inr ⟨rfl, rfl⟩))))

theorem singleLineComment_rule_mem :
    (⟨singleLineCommentPattern, Format.singleLineCommentFormat⟩ : HighlightingRule) ∈
      highlightingRules := by
  unfold highlightingRules
  simp

theorem preprocessor_rule_mem :
    (⟨preprocessorPattern, Format.preprocessorFormat⟩ : HighlightingRule) ∈
      highlightingRules := by
  unfold highlightingRules
  simp

/-- A match of a rule of the table without protected character yields a
call of the rule loop. -/
theorem mem_ruleCalls (text : List Char) (rule : HighlightingRule)
    (hrule : rule ∈ highlightingRules) (m : Nat × Nat)
    (hm : m ∈ globalMatch rule.pattern text)
    (hskip : skipMatch (stringMask text) m.1 m.2 = false) :
    (⟨(m.1 : Int), (m.2 : Int), rule.format⟩ : FormatCall) ∈ ruleCalls text := by
  unfold ruleCalls ruleCallsWith
  refine List.mem_flatMap.mpr ⟨rule, hrule, ?_⟩
  unfold callsOfRule
  refine List.mem_map.mpr ⟨m, List.mem_filter.mpr ⟨hm, ?_⟩, rfl⟩
  simp [hskip]

theorem skipMatch_eq_false (mask : List Bool) (s l : Nat)
    (h : ∀ i, s ≤ i → i < s + l → mask.getD i false = false) : skipMatch mask s l = false := by
  unfold skipMatch
  rw [List.any_eq_false]
  intro j hj
  rw [h (s + j) (by omega) (by have := List.mem_range.mp hj; omega)]
  simp

theorem skipMatch_false_iff (mask : List Bool) (s l : Nat) :
    skipMatch mask s l = false ↔ ∀ i, s ≤ i → i < s + l → mask.getD i false = false := by
  refine ⟨fun h i h1 h2 => ?_, skipMatch_eq_false mask s l⟩
  unfold skipMatch at h
  rw [List.any_eq_false] at h
  have hj := h (i - s) (List.mem_range.mpr (by omega))
  have e : s + (i - s) = i := by omega
  rw [e] at hj
  by_cases hi : i < mask.length
  · simpa [hi] using hj
  · simp only [List.getD_eq_getElem?_getD]
    rw [List.getElem?_eq_none (by omega)]
    rfl

/-! ## The line-comment rule -/

theorem isLineCommentAt_lt {text : List Char} {j : Nat} (h : IsLineCommentAt text j) :
    j + 1 < text.length := by
  have := h.2
  by_contra hc
  rw [List.getElem?_eq_none (by omega)] at this
  simp at this

/-- In a line without line feed the pattern `//[^\n]*` matches at a marker
`//` and runs to the end of the line; it matches nowhere else. -/
theorem matchAt_singleLineComment (text : List Char) (hnl : ∀ c ∈ text, c ≠ '\n')
    (pos : Nat) :
    matchAt text singleLineCommentPattern pos some =
      if IsLineCommentAt text pos then some text.length else none := by
  unfold singleLineCommentPattern IsLineCommentAt
  rw [matchAt, matchAt]
  by_cases h1 : text[pos]? = some '/'
  · rw [if_pos h1, matchAt, matchAt]
    by_cases h2 : text[pos + 1]? = some '/'
    · rw [if_pos h2, if_pos ⟨h1, h2⟩, matchAt]
      have hlt : pos + 1 < text.length := by
        by_contra hc
        rw [List.getElem?_eq_none (by omega)] at h2
        simp at h2
      apply starLoop_cls_run text _ some text.length (text.length - (pos + 1 + 1))
        (pos + 1 + 1) _ (le_refl _)
      · intro j hj1 hj2
        have hj : j < text.length := by omega
        refine ⟨text[j], List.getElem?_eq_getElem hj, ?_⟩
        have := hnl text[j] (List.getElem_mem _)
        simp [this]
      · intro c hc
        rw [List.getElem?_eq_none (by omega)] at hc
        simp at hc
      · congr 1
        omega
    · rw [if_neg h2, if_neg (fun h => h2 h.2)]
  · rw [if_neg h1, if_neg (fun h => h1 h.1)]

/-- In a line without line feed whose leftmost `//` starts at `k`, the
line-comment rule has one match, from `k` to the end of the line. -/
theorem globalMatch_singleLineComment (text : List Char) (hnl : ∀ c ∈ text, c ≠ '\n')
    (k : Nat) (hk : IsLineCommentAt text k) (hleft : ∀ j, j < k → ¬ IsLineCommentAt text j) :
    globalMatch singleLineCommentPattern text = [(k, text.length - k)] := by
  have hlt := isLineCommentAt_lt hk
  have h1 : firstMatch singleLineCommentPattern text 0 = some (k, text.length) := by
    unfold firstMatch
    apply searchFrom_first _ _ _ _ (by rw [matchAt_singleLineComment text hnl, if_pos hk])
      _ _ (by omega) (by omega)
    intro j _ hj
    rw [matchAt_singleLineComment text hnl, if_neg (hleft j hj)]
  have h2 : firstMatch singleLineCommentPattern text text.length = none := by
    unfold firstMatch
    have e : text.length + 1 - text.length = 1 := by omega
    rw [e, searchFrom, matchAt_singleLineComment text hnl,
      if_neg (fun h => by have := isLineCommentAt_lt h; omega)]
    rfl
  unfold globalMatch
  rw [globalMatchFrom, h1]
  simp only
  rw [if_pos (by omega)]
  obtain ⟨n, hn⟩ : ∃ n, text.length = n + 1 := ⟨text.length - 1, by omega⟩
  rw [hn, globalMatchFrom, ← hn, h2]

/-- Counterexample to C12 as stated: in `x // "s"` the leftmost `//` starts
at offset 2, which is not protected, and no call carries
`singleLineCommentFormat`: the only call is that of the string loop. -/
theorem line_comment_with_literal_untagged :
    IsLineCommentAt ['x', ' ', '/', '/', ' ', '"', 's', '"'] 2 ∧
      (∀ j, j < 2 → ¬ IsLineCommentAt ['x', ' ', '/', '/', ' ', '"', 's', '"'] j) ∧
      (stringMask ['x', ' ', '/', '/', ' ', '"', 's', '"']).getD 2 false = false ∧
      (highlightBlock ['x', ' ', '/', '/', ' ', '"', 's', '"'] 0).map (fun r => r.calls) =
        some [⟨5, 3, Format.stringFormat⟩] := by
  decide

/-- C12, amended. In a line (a text without line feed) whose leftmost `//`
starts at offset `k`, the line-comment rule has the single match from `k` to
the end of the line. When no character from `k` on is protected, the rule
loop tags exactly that span with `singleLineCommentFormat`; when some
character from `k` on is protected, the match is discarded and no call
carries `singleLineCommentFormat`. -/
theorem highlightBlock_line_comment (text : List Char) (k : Nat)
    (hnl : ∀ c ∈ text, c ≠ '\n') (hk : IsLineCommentAt text k)
    (hleft : ∀ j, j < k → ¬ IsLineCommentAt text j) :
    globalMatch singleLineCommentPattern text = [(k, text.length - k)] ∧
      ((∀ i, k ≤ i → (stringMask text).getD i false = false) →
        (⟨(k : Int), ((text.length - k : Nat) : Int), Format.singleLineCommentFormat⟩ :
            FormatCall) ∈ ruleCalls text ∧
          ∀ c ∈ ruleCalls text, c.format = Format.singleLineCommentFormat →
            c = ⟨(k : Int), ((text.length - k : Nat) : Int), Format.singleLineCommentFormat⟩) ∧
      ((∃ i, k ≤ i ∧ (stringMask text).getD i false = true) →
        ∀ c ∈ ruleCalls text, c.format ≠ Format.singleLineCommentFormat) := by
  have hg := globalMatch_singleLineComment text hnl k hk hleft
  have hof : ∀ c ∈ ruleCalls text, c.format = Format.singleLineCommentFormat →
      c = ⟨(k : Int), ((text.length - k : Nat) : Int), Format.singleLineCommentFormat⟩ ∧
        ∀ i : Nat, k ≤ i → i < text.length → (stringMask text).getD i false = false := by
    intro c hc hf
    obtain ⟨⟨rule, hrule, m, hm, rfl⟩, hmask⟩ := ruleCalls_spec text c hc
    simp only at hf hmask
    have hpat : rule.pattern = singleLineCommentPattern := by
      rcases highlightingRules_cases rule hrule with h | h | h | h | h | h
      · rw [hf] at h; exact absurd h (by decide)
      · rw [hf] at h; exact absurd h (by decide)
      · rw [hf] at h; exact absurd h.2 (by decide)
      · rw [hf] at h; exact absurd h (by decide)
      · rw [hf] at h; exact absurd h.2 (by decide)
      · exact h.1
    rw [hpat, hg] at hm
    rw [List.mem_singleton.mp hm, hf]
    refine ⟨rfl, fun i h1 h2 => ?_⟩
    rw [List.mem_singleton.mp hm] at hmask
    exact hmask i (by simp only; omega) (by simp only; omega)
  refine ⟨hg, fun hfree => ⟨?_, fun c hc hf => (hof c hc hf).1⟩, ?_⟩
  · have := mem_ruleCalls text _ singleLineComment_rule_mem (k, text.length - k)
      (by simp only; rw [hg]; exact List.mem_singleton.mpr rfl)
      (skipMatch_eq_false _ _ _ (fun i h1 _ => hfree i h1))
    exact this
  · rintro ⟨i, hi1, hi2⟩ c hc hf
    have hlen : i < text.length := ((stringMask_iff text i).mp hi2).1
    have := (hof c hc hf).2 i hi1 hlen
    rw [hi2] at this
    exact absurd this (by decide)

/-- Witness for the amended C12: in `x; // y` the span is offsets 3 to 6;
in `x // "s"` no call carries `singleLineCommentFormat`. -/
theorem highlightBlock_line_comment_witness :
    (⟨((3 : Nat) : Int), ((['x', ';', ' ', '/', '/', ' ', 'y'].length - 3 : Nat) : Int),
        Format.singleLineCommentFormat⟩ : FormatCall) ∈
        ruleCalls ['x', ';', ' ', '/', '/', ' ', 'y'] ∧
      ∀ c ∈ ruleCalls ['x', ' ', '/', '/', ' ', '"', 's', '"'],
        c.format ≠ Format.singleLineCommentFormat :=
  ⟨((highlightBlock_line_comment ['x', ';', ' ', '/', '/', ' ', 'y'] 3 (by decide) (by decide)
      (by decide)).2.1
      (fun i _ => by
        cases h : (stringMask ['x', ';', ' ', '/', '/', ' ', 'y']).getD i false with
        | false => rfl
        | true =>
          have hlt := ((stringMask_iff _ i).mp h).1
          simp only [List.length_cons, List.length_nil] at hlt
          have hi : i < 7 := by omega
          clear hlt
          interval_cases i <;> exact absurd h (by decide))).1,
    (highlightBlock_line_comment ['x', ' ', '/', '/', ' ', '"', 's', '"'] 2 (by decide)
      (by decide) (by decide)).2.2 ⟨5, by decide, by decide⟩⟩

/-! ## The preprocessor rule -/

theorem isSpaceChar_cases {c : Char} (h : isSpaceChar c = true) :
    c = ' ' ∨ c = '\t' ∨ c = '\n' ∨ c = Char.ofNat 11 ∨ c = Char.ofNat 12 ∨ c = '\r' := by
  unfold isSpaceChar at h
  simpa [Bool.or_eq_true, beq_iff_eq, or_assoc] using h

theorem isSpaceChar_not_word {c : Char} (h : isSpaceChar c = true) : isWordChar c = false := by
  rcases isSpaceChar_cases h with rfl | rfl | rfl | rfl | rfl | rfl <;> decide

theorem isWordChar_not_space {c : Char} (h : isWordChar c = true) : isSpaceChar c = false := by
  cases hs : isSpaceChar c with
  | false => rfl
  | true => rw [isSpaceChar_not_word hs] at h; exact absurd h (by decide)

/-- What the greedy star over a character class has run through belongs to
the class. -/
theorem starLoop_cls_content (text : List Char) (p : Char → Bool) :
    ∀ (n pos : Nat) (k : Nat → Option Nat) (e : Nat),
      starLoop (matchAt text (Regex.cls p)) n pos k = some e →
      ∃ q, pos ≤ q ∧ (∀ j, pos ≤ j → j < q → ∃ c, text[j]? = some c ∧ p c = true) ∧
        k q = some e := by
  intro n
  induction n with
  | zero => intro pos k e h; exact ⟨pos, le_refl _, fun j h1 h2 => by omega, h⟩
  | succ n ih =>
    intro pos k e h
    rw [starLoop] at h
    rcases orElse_eq_some _ _ _ h with h | h
    · rw [matchAt] at h
      cases hc : text[pos]? with
      | none => rw [hc] at h; simp at h
      | some c =>
        rw [hc] at h
        simp only at h
        split_ifs at h with hp
        · obtain ⟨q, hq1, hq2, hq3⟩ := ih _ _ _ h
          refine ⟨q, by omega, fun j h1 h2 => ?_, hq3⟩
          rcases Nat.eq_or_lt_of_le h1 with rfl | hlt
          · exact ⟨c, hc, hp⟩
          · exact hq2 j hlt h2
        · omega
    · exact ⟨pos, le_refl _, fun j h1 h2 => by omega, h⟩

/-- A match of `^#\s*\w+` starts at offset 0 on a `#`, and the characters
behind the `#` are white space or word characters. -/
theorem matchAt_preprocessor (text : List Char) (pos e : Nat)
    (h : matchAt text preprocessorPattern pos some = some e) :
    pos = 0 ∧ text[0]? = some '#' ∧
      ∀ j, 1 ≤ j → j < e → ∃ c, text[j]? = some c ∧
        (isSpaceChar c = true ∨ isWordChar c = true) := by
  unfold preprocessorPattern Regex.plus at h
  rw [matchAt, matchAt] at h
  split_ifs at h with h0
  subst h0
  rw [matchAt, matchAt] at h
  split_ifs at h with h1
  refine ⟨rfl, h1, ?_⟩
  rw [matchAt, matchAt] at h
  obtain ⟨q1, hq1, hc1, h⟩ := starLoop_cls_content text _ _ _ _ _ h
  rw [matchAt, matchAt] at h
  cases hc : text[q1]? with
  | none => rw [hc] at h; simp at h
  | some c =>
    rw [hc] at h
    simp only at h
    split_ifs at h with hp
    rw [matchAt] at h
    obtain ⟨q2, hq2, hc2, h⟩ := starLoop_cls_content text _ _ _ _ _ h
    simp only [Option.some.injEq] at h
    subst h
    intro j hj1 hj2
    rcases Nat.lt_trichotomy j q1 with hlt | rfl | hgt
    · obtain ⟨c', h1', h2'⟩ := hc1 j (by omega) hlt
      exact ⟨c', h1', Or.inl h2'⟩
    · exact ⟨c, hc, Or.inr hp⟩
    · obtain ⟨c', h1', h2'⟩ := hc2 j (by omega) hj2
      exact ⟨c', h1', Or.inr h2'⟩

/-- The match of `^#\s*\w+` on a line made of `#`, white space `ws`, a word
`w0 :: w` and a rest that does not continue the word. -/
theorem matchAt_preprocessor_directive (ws w rest : List Char) (w0 : Char)
    (hws : ∀ c ∈ ws, isSpaceChar c = true) (hw0 : isWordChar w0 = true)
    (hw : ∀ c ∈ w, isWordChar c = true)
    (hrest : ∀ c, rest.head? = some c → isWordChar c = false) :
    matchAt ('#' :: (ws ++ w0 :: (w ++ rest))) preprocessorPattern 0 some =
      some (1 + ws.length + 1 + w.length) := by
  generalize htext : '#' :: (ws ++ w0 :: (w ++ rest)) = text
  have hlen : text.length = 1 + ws.length + 1 + w.length + rest.length := by
    rw [← htext]; simp; omega
  have t0 : text[0]? = some '#' := by rw [← htext]; simp
  have tws : ∀ j, 0 + 1 ≤ j → j < 0 + 1 + ws.length →
      ∃ c, text[j]? = some c ∧ isSpaceChar c = true := by
    intro j h1 h2
    obtain ⟨n, rfl⟩ : ∃ n, j = n + 1 := ⟨j - 1, by omega⟩
    have hn : n < ws.length := by omega
    refine ⟨ws[n], ?_, hws _ (List.getElem_mem _)⟩
    rw [← htext, List.getElem?_cons_succ, List.getElem?_append_left hn,
      List.getElem?_eq_getElem hn]
  have tw0 : text[0 + 1 + ws.length]? = some w0 := by
    have e : 0 + 1 + ws.length = ws.length + 1 := by omega
    rw [← htext, e, List.getElem?_cons_succ, List.getElem?_append_right (le_refl _)]
    simp
  have tw : ∀ j, 0 + 1 + ws.length + 1 ≤ j → j < 0 + 1 + ws.length + 1 + w.length →
      ∃ c, text[j]? = some c ∧ isWordChar c = true := by
    intro j h1 h2
    obtain ⟨n, rfl⟩ : ∃ n, j = (ws.length + (n + 1)) + 1 :=
      ⟨j - ws.length - 2, by omega⟩
    have hn : n < w.length := by omega
    refine ⟨w[n], ?_, hw _ (List.getElem_mem _)⟩
    rw [← htext, List.getElem?_cons_succ, List.getElem?_append_right (by omega)]
    have e : ws.length + (n + 1) - ws.length = n + 1 := by omega
    rw [e, List.getElem?_cons_succ, List.getElem?_append_left hn, List.getElem?_eq_getElem hn]
  have tend : ∀ c, text[0 + 1 + ws.length + 1 + w.length]? = some c → isWordChar c = false := by
    intro c hc
    apply hrest c
    have e : 0 + 1 + ws.length + 1 + w.length = (ws.length + (w.length + 1)) + 1 := by omega
    rw [← htext, e, List.getElem?_cons_succ, List.getElem?_append_right (by omega)] at hc
    have e2 : ws.length + (w.length + 1) - ws.length = w.length + 1 := by omega
    rw [e2, List.getElem?_cons_succ, List.getElem?_append_right (le_refl _)] at hc
    simpa [List.head?_eq_getElem?] using hc
  unfold preprocessorPattern Regex.plus
  rw [matchAt, matchAt, if_pos rfl, matchAt, matchAt, if_pos t0, matchAt, matchAt]
  apply starLoop_cls_run text _ _ _ ws.length (0 + 1) _ (by omega) tws
    (fun c hc => by
      rw [tw0] at hc
      rw [← Option.some.inj hc]
      exact isWordChar_not_space hw0)
  rw [matchAt, matchAt, tw0]
  simp only [hw0, if_true]
  rw [matchAt]
  exact starLoop_cls_run text _ _ _ w.length (0 + 1 + ws.length + 1) _ (by omega) tw tend
    (by simp only [Nat.zero_add])

theorem globalMatch_head (re : Regex) (text : List Char) (e : Nat)
    (h : matchAt text re 0 some = some e) : (0, e) ∈ globalMatch re text := by
  unfold globalMatch
  rw [globalMatchFrom]
  have hf : firstMatch re text 0 = some (0, e) := by
    unfold firstMatch
    have e1 : text.length + 1 - 0 = text.length + 1 := by omega
    rw [e1, searchFrom, h]
  rw [hf]
  exact List.mem_cons_self _ _

theorem globalMatch_matchAt (re : Regex) (text : List Char) (m : Nat × Nat)
    (h : m ∈ globalMatch re text) : matchAt text re m.1 some = some (m.1 + m.2) :=
  globalMatchFrom_matchAt re text _ _ m h

/-- A protected character lies in a match of the string pattern, which starts
with a quote character. -/
theorem stringMask_quote (text : List Char) (i : Nat)
    (h : (stringMask text).getD i false = true) :
    ∃ s, s ≤ i ∧ (text[s]? = some '"' ∨ text[s]? = some '\'') := by
  obtain ⟨_, m, hm, hin⟩ := (stringMask_iff text i).mp h
  have hmatch := globalMatch_matchAt _ _ m hm
  unfold stringPattern at hmatch
  rw [matchAt] at hmatch
  refine ⟨m.1, hin.1, ?_⟩
  rcases orElse_eq_some _ _ _ hmatch with h1 | h1
  · exact Or.inl (matchAt_quoted _ _ _ _ _ h1).1
  · exact Or.inr (matchAt_quoted _ _ _ _ _ h1).1

/-- No character of a match of `^#\s*\w+` is protected. -/
theorem preprocessor_match_unprotected (text : List Char) (e : Nat)
    (h : matchAt text preprocessorPattern 0 some = some e) :
    ∀ i, i < e → (stringMask text).getD i false = false := by
  intro i hi
  obtain ⟨_, h0, hrest⟩ := matchAt_preprocessor text 0 e h
  cases hm : (stringMask text).getD i false with
  | false => rfl
  | true =>
    exfalso
    obtain ⟨s, hs, hq⟩ := stringMask_quote text i hm
    rcases Nat.eq_zero_or_pos s with rfl | hpos
    · rw [h0] at hq
      rcases hq with hq | hq <;> exact absurd (Option.some.inj hq) (by decide)
    · obtain ⟨c, hc, hcls⟩ := hrest s hpos (by omega)
      rw [hc] at hq
      rcases hq with hq | hq <;> rw [Option.some.inj hq] at hcls <;>
        rcases hcls with hcls | hcls <;> exact absurd hcls (by decide)

/-- Counterexample to C13 as stated: on the line `  #define X`, where two
spaces come before the `#`, `highlightBlock` makes no call, so no character
is tagged as a preprocessor directive. -/
theorem indented_directive_untagged :
    highlightBlock [' ', ' ', '#', 'd', 'e', 'f', 'i', 'n', 'e', ' ', 'X'] 0 = some
      { calls := [],
        formats := [none, none, none, none, none, none, none, none, none, none, none],
        blockState := 0 } := by
  decide

/-- C13, amended. The preprocessor rule is anchored at offset 0. On a line
made of `#`, white space `ws`, a directive word `w0 :: w` and a rest that does
not continue the word, the rule loop tags the span from offset 0 to the end
of the word with `preprocessorFormat`. On every line, a call carrying
`preprocessorFormat` starts at offset 0 on a `#`, and no other `#` lies in its
span: a `#` at any offset other than 0 is not tagged as a directive. -/
theorem highlightBlock_preprocessor (ws w rest : List Char) (w0 : Char)
    (hws : ∀ c ∈ ws, isSpaceChar c = true) (hw0 : isWordChar w0 = true)
    (hw : ∀ c ∈ w, isWordChar c = true)
    (hrest : ∀ c, rest.head? = some c → isWordChar c = false) :
    (⟨0, ((1 + ws.length + 1 + w.length : Nat) : Int), Format.preprocessorFormat⟩ :
        FormatCall) ∈ ruleCalls ('#' :: (ws ++ w0 :: (w ++ rest))) ∧
      ∀ (text : List Char), ∀ c ∈ ruleCalls text, c.format = Format.preprocessorFormat →
        c.start = 0 ∧ text[0]? = some '#' ∧
          ∀ j : Nat, 1 ≤ j → (j : Int) < c.count → text[j]? ≠ some '#' := by
  constructor
  · have hmatch := matchAt_preprocessor_directive ws w rest w0 hws hw0 hw hrest
    have := mem_ruleCalls _ _ preprocessor_rule_mem (0, 1 + ws.length + 1 + w.length)
      (globalMatch_head _ _ _ hmatch)
      (skipMatch_eq_false _ _ _ (fun i _ h2 =>
        preprocessor_match_unprotected _ _ hmatch i (by simp only at h2; omega)))
    exact this
  · intro text c hc hf
    obtain ⟨⟨rule, hrule, m, hm, rfl⟩, _⟩ := ruleCalls_spec text c hc
    simp only at hf
    have hpat : rule.pattern = preprocessorPattern := by
      rcases highlightingRules_cases rule hrule with h | h | h | h | h | h
      · rw [hf] at h; exact absurd h (by decide)
      · rw [hf] at h; exact absurd h (by decide)
      · rw [hf] at h; exact absurd h.2 (by decide)
      · rw [hf] at h; exact absurd h (by decide)
      · exact h.1
      · rw [hf] at h; exact absurd h.2 (by decide)
    rw [hpat] at hm
    obtain ⟨h0, h1, h2⟩ := matchAt_preprocessor text m.1 _ (globalMatch_matchAt _ _ m hm)
    refine ⟨by simp only; omega, h1, fun j hj1 hj2 hj => ?_⟩
    simp only at hj2
    obtain ⟨c, hc, hcls⟩ := h2 j hj1 (by omega)
    rw [hc] at hj
    rw [Option.some.inj hj] at hcls
    rcases hcls with hcls | hcls <;> exact absurd hcls (by decide)

/-- Witness for the amended C13: on `# define X` the span is offsets 0
to 7. -/
theorem highlightBlock_preprocessor_witness :
    (⟨0, ((1 + [' '].length + 1 + ['e', 'f', 'i', 'n', 'e'].length : Nat) : Int),
        Format.preprocessorFormat⟩ : FormatCall) ∈
        ruleCalls ('#' :: ([' '] ++ 'd' :: (['e', 'f', 'i', 'n', 'e'] ++ [' ', 'X']))) ∧
      ∀ (text : List Char), ∀ c ∈ ruleCalls text, c.format = Format.preprocessorFormat →
        c.start = 0 ∧ text[0]? = some '#' ∧
          ∀ j : Nat, 1 ≤ j → (j : Int) < c.count → text[j]? ≠ some '#' :=
  highlightBlock_preprocessor [' '] ['e', 'f', 'i', 'n', 'e'] [' ', 'X'] 'd'
    (by decide) (by decide) (by decide) (by decide)

/-! ## The order of the rules -/

theorem callsOfRule_format (text : List Char) (mask : List Bool) (r : HighlightingRule)
    (c : FormatCall) (h : c ∈ callsOfRule text mask r) : c.format = r.format := by
  unfold callsOfRule at h
  obtain ⟨m, _, rfl⟩ := List.mem_map.mp h
  rfl

theorem callsOfRule_covers (text : List Char) (r : HighlightingRule) (i : Nat) :
    (∃ c ∈ callsOfRule text (stringMask text) r, Covers c i) ↔ Applied text r i := by
  unfold Applied callsOfRule Covers InMatch
  constructor
  · rintro ⟨c, hc, h1, h2, h3⟩
    obtain ⟨m, hm, rfl⟩ := List.mem_map.mp hc
    obtain ⟨hm1, hm2⟩ := List.mem_filter.mp hm
    simp only at h1 h2 h3
    exact ⟨m, hm1, ⟨by omega, by omega⟩, by simpa using hm2⟩
  · rintro ⟨m, hm, ⟨h1, h2⟩, hs⟩
    refine ⟨⟨(m.1 : Int), (m.2 : Int), r.format⟩,
      List.mem_map.mpr ⟨m, List.mem_filter.mpr ⟨hm, by simp [hs]⟩, rfl⟩, ?_⟩
    simp only
    omega

theorem ruleCallsWith_append (A B : List HighlightingRule) (text : List Char) :
    ruleCallsWith (A ++ B) text = ruleCallsWith A text ++ ruleCallsWith B text := by
  unfold ruleCallsWith
  rw [List.flatMap_append]

theorem ruleCallsWith_cons (r : HighlightingRule) (B : List HighlightingRule)
    (text : List Char) :
    ruleCallsWith (r :: B) text =
      callsOfRule text (stringMask text) r ++ ruleCallsWith B text := by
  unfold ruleCallsWith
  rw [List.flatMap_cons]

theorem ruleCallsWith_covers (R : List HighlightingRule) (text : List Char) (i : Nat) :
    (∃ c ∈ ruleCallsWith R text, Covers c i) ↔ ∃ r ∈ R, Applied text r i := by
  unfold ruleCallsWith
  constructor
  · rintro ⟨c, hc, hcov⟩
    obtain ⟨r, hr, hc⟩ := List.mem_flatMap.mp hc
    exact ⟨r, hr, (callsOfRule_covers text r i).mp ⟨c, hc, hcov⟩⟩
  · rintro ⟨r, hr, happ⟩
    obtain ⟨c, hc, hcov⟩ := (callsOfRule_covers text r i).mpr happ
    exact ⟨c, List.mem_flatMap.mpr ⟨r, hr, hc⟩, hcov⟩

theorem applied_lt (text : List Char) (r : HighlightingRule) (i : Nat)
    (h : Applied text r i) : i < text.length := by
  obtain ⟨m, hm, hin, _⟩ := h
  have := globalMatch_bound _ _ m hm
  unfold InMatch at hin
  omega

/-- After calls one of which reaches character `i`, the character carries the
format of a call that reaches it. -/
theorem formatAt_foldl_some_cover (B : List FormatCall) (i : Nat) :
    ∀ F : List (Option Format), i < F.length → (∃ c ∈ B, Covers c i) →
      ∃ c ∈ B, Covers c i ∧ formatAt (B.foldl setFormat F) i = some c.format := by
  induction B with
  | nil => intro F _ h; simp at h
  | cons c B ih =>
    intro F hi hex
    rw [List.foldl_cons]
    by_cases hB : ∃ x ∈ B, Covers x i
    · obtain ⟨x, hx, hcov, hf⟩ := ih (setFormat F c) (by rw [length_setFormat]; exact hi) hB
      exact ⟨x, List.mem_cons_of_mem _ hx, hcov, hf⟩
    · obtain ⟨x, hx, hc⟩ := hex
      rcases List.mem_cons.mp hx with rfl | hx'
      · refine ⟨x, List.mem_cons_self _ _, hc, ?_⟩
        rw [formatAt_foldl_not_covered B i _ (fun y hy hcy => hB ⟨y, hy, hcy⟩),
          formatAt_setFormat, if_pos ⟨hc, hi⟩]
      · exact absurd ⟨x, hx', hc⟩ hB

/-- The format of a character after the string loop and the rules up to and
including `r`, when `r` has an applied match on it. -/
theorem formatAt_after_rule (text : List Char) (R1 : List HighlightingRule)
    (r : HighlightingRule) (i : Nat) (h : Applied text r i) :
    formatAt (applyCalls text.length (stringCalls text ++ ruleCallsWith (R1 ++ [r]) text)) i =
      some r.format := by
  rw [ruleCallsWith_append, ruleCallsWith_cons, ← List.append_assoc, applyCalls_append]
  have e : ruleCallsWith [] text = [] := rfl
  rw [e, List.append_nil]
  exact formatAt_foldl_covered _ r.format i _ (callsOfRule_format text _ r)
    (by rw [length_applyCalls]; exact applied_lt text r i h)
    ((callsOfRule_covers text r i).mpr h)

/-- The format of a character in the result when no call of the
block-comment part reaches it. -/
theorem formatAt_result (text : List Char) (prev : Int) (i : Nat) :
    ∃ res commentCalls, highlightBlock text prev = some res ∧
      res.calls = stringCalls text ++ ruleCalls text ++ commentCalls ∧
      ((∀ c ∈ commentCalls, ¬ Covers c i) →
        formatAt res.formats i =
          formatAt (applyCalls text.length (stringCalls text ++ ruleCalls text)) i) := by
  obtain ⟨cc, st, _, _, h⟩ := highlightBlock_eq text prev
  refine ⟨_, cc, h, rfl, fun hno => ?_⟩
  simp only
  rw [applyCalls_append]
  exact formatAt_foldl_not_covered cc i _ hno

/-- Counterexample to C15 as stated: in `if(x)` the first rule of the table,
the keyword rule for `if`, and the later identifier-before-paren rule both
match offsets 0 and 1, and the final format of offset 0 is `functionFormat`,
that of the later rule. -/
theorem first_rule_overridden :
    highlightingRules[0]? = some ⟨Regex.word "if", Format.keywordFormat⟩ ∧
      highlightingRules[33]? = some ⟨functionPattern, Format.functionFormat⟩ ∧
      (0, 2) ∈ globalMatch (Regex.word "if") ['i', 'f', '(', 'x', ')'] ∧
      (0, 2) ∈ globalMatch functionPattern ['i', 'f', '(', 'x', ')'] ∧
      (highlightBlock ['i', 'f', '(', 'x', ')'] 0).map (fun r => formatAt r.formats 0) =
        some (some Format.functionFormat) :=
  ⟨rfl, rfl, by decide, by decide, by decide⟩

/-- C15, amended. When an earlier rule `r1` and a later rule `r2` of the
table both have a match on character `i` that the rule loop tags, the format
of `r1` is written first (it is the format of `i` once the rules up to `r1`
are done) and overwritten later: after the rule loop `i` carries the format
of a rule listed at or after `r2` that tags it, and so it does in the result
of `highlightBlock` when no call of the block-comment part reaches `i`. -/
theorem earlier_rule_overridden (text : List Char) (prev : Int) (i : Nat)
    (R1 R2 R3 : List HighlightingRule) (r1 r2 : HighlightingRule)
    (hsplit : highlightingRules = R1 ++ r1 :: (R2 ++ r2 :: R3))
    (h1 : Applied text r1 i) (h2 : Applied text r2 i) :
    formatAt (applyCalls text.length (stringCalls text ++ ruleCallsWith (R1 ++ [r1]) text)) i =
        some r1.format ∧
      ∃ r ∈ r2 :: R3, Applied text r i ∧
        formatAt (applyCalls text.length (stringCalls text ++ ruleCalls text)) i =
          some r.format ∧
        ∃ res commentCalls, highlightBlock text prev = some res ∧
          res.calls = stringCalls text ++ ruleCalls text ++ commentCalls ∧
          ((∀ c ∈ commentCalls, ¬ Covers c i) → formatAt res.formats i = some r.format) := by
  refine ⟨formatAt_after_rule text R1 r1 i h1, ?_⟩
  have hlen := applied_lt text r2 i h2
  have hrc : ruleCalls text =
      ruleCallsWith (R1 ++ r1 :: R2) text ++ ruleCallsWith (r2 :: R3) text := by
    unfold ruleCalls
    rw [hsplit, ← ruleCallsWith_append]
    congr 1
    simp
  obtain ⟨c, hc, hcov, hf⟩ := formatAt_foldl_some_cover (ruleCallsWith (r2 :: R3) text) i
    (applyCalls text.length (stringCalls text ++ ruleCallsWith (R1 ++ r1 :: R2) text))
    (by rw [length_applyCalls]; exact hlen)
    ((ruleCallsWith_covers _ text i).mpr ⟨r2, List.mem_cons_self _ _, h2⟩)
  unfold ruleCallsWith at hc
  obtain ⟨r, hr, hcr⟩ := List.mem_flatMap.mp hc
  have happ : Applied text r i := (callsOfRule_covers text r i).mp ⟨c, hcr, hcov⟩
  have hfin : formatAt (applyCalls text.length (stringCalls text ++ ruleCalls text)) i =
      some r.format := by
    rw [hrc, ← List.append_assoc, applyCalls_append, hf, callsOfRule_format _ _ _ _ hcr]
  refine ⟨r, hr, happ, hfin, ?_⟩
  obtain ⟨res, cc, hres, hcalls, hfmt⟩ := formatAt_result text prev i
  exact ⟨res, cc, hres, hcalls, fun hno => by rw [hfmt hno, hfin]⟩

/-- Witness for the amended C15: `if(x)` at offset 0, with the keyword rule
for `if` as `r1` and the identifier-before-paren rule as `r2`. -/
theorem earlier_rule_overridden_witness :
    formatAt (applyCalls ['i', 'f', '(', 'x', ')'].length
        (stringCalls ['i', 'f', '(', 'x', ')'] ++
          ruleCallsWith ([] ++ [⟨Regex.word "if", Format.keywordFormat⟩])
            ['i', 'f', '(', 'x', ')'])) 0 = some Format.keywordFormat ∧
      ∃ r ∈ (⟨functionPattern, Format.functionFormat⟩ : HighlightingRule) ::
          [⟨numberPattern, Format.numberFormat⟩, ⟨hexPattern, Format.numberFormat⟩,
            ⟨preprocessorPattern, Format.preprocessorFormat⟩,
            ⟨singleLineCommentPattern, Format.singleLineCommentFormat⟩],
        Applied ['i', 'f', '(', 'x', ')'] r 0 ∧
        formatAt (applyCalls ['i', 'f', '(', 'x', ')'].length
          (stringCalls ['i', 'f', '(', 'x', ')'] ++ ruleCalls ['i', 'f', '(', 'x', ')'])) 0 =
            some r.format ∧
        ∃ res commentCalls, highlightBlock ['i', 'f', '(', 'x', ')'] 0 = some res ∧
          res.calls = stringCalls ['i', 'f', '(', 'x', ')'] ++
            ruleCalls ['i', 'f', '(', 'x', ')'] ++ commentCalls ∧
          ((∀ c ∈ commentCalls, ¬ Covers c 0) → formatAt res.formats 0 = some r.format) :=
  earlier_rule_overridden ['i', 'f', '(', 'x', ')'] 0 0 []
    ((keywordPatterns.tail.map (fun p => HighlightingRule.mk p Format.keywordFormat)) ++
      typePatterns.map (fun p => HighlightingRule.mk p Format.typeFormat))
    [⟨numberPattern, Format.numberFormat⟩, ⟨hexPattern, Format.numberFormat⟩,
      ⟨preprocessorPattern, Format.preprocessorFormat⟩,
      ⟨singleLineCommentPattern, Format.singleLineCommentFormat⟩]
    ⟨Regex.word "if", Format.keywordFormat⟩ ⟨functionPattern, Format.functionFormat⟩
    (by rfl) (by decide) (by decide)

/-- Counterexample to C16 as stated: in `// if "a"` the keyword rule for `if`
(first in the table) matches offsets 3 and 4 and the line-comment rule (last
in the table) matches the whole line; offset 3 is not protected and no
block-comment call is made, yet its final format is `keywordFormat`, that of
the earlier rule: the later match holds the literal and is discarded. -/
theorem later_rule_discarded :
    highlightingRules[0]? = some ⟨Regex.word "if", Format.keywordFormat⟩ ∧
      highlightingRules[37]? =
        some ⟨singleLineCommentPattern, Format.singleLineCommentFormat⟩ ∧
      (3, 2) ∈ globalMatch (Regex.word "if") ['/', '/', ' ', 'i', 'f', ' ', '"', 'a', '"'] ∧
      (0, 9) ∈ globalMatch singleLineCommentPattern
        ['/', '/', ' ', 'i', 'f', ' ', '"', 'a', '"'] ∧
      (stringMask ['/', '/', ' ', 'i', 'f', ' ', '"', 'a', '"']).getD 3 false = false ∧
      (highlightBlock ['/', '/', ' ', 'i', 'f', ' ', '"', 'a', '"'] 0).map (fun r => r.calls) =
        some [⟨6, 3, Format.stringFormat⟩, ⟨3, 2, Format.keywordFormat⟩] ∧
      (highlightBlock ['/', '/', ' ', 'i', 'f', ' ', '"', 'a', '"'] 0).map
        (fun r => formatAt r.formats 3) = some (some Format.keywordFormat) :=
  ⟨rfl, rfl, by decide, by decide, by decide, by decide, by decide⟩

/-- C16, amended. The rules are applied in table order and a later call
overwrites an earlier one: when rule `r` has a match on character `i` that the
rule loop tags and no rule listed after `r` has one, `i` carries the format
of `r` after the rule loop, and so it does in the result of `highlightBlock`
when no call of the block-comment part reaches `i`. A match discarded by the
mask test overrides nothing. -/
theorem last_applied_rule_wins (text : List Char) (prev : Int) (i : Nat)
    (R1 R2 : List HighlightingRule) (r : HighlightingRule)
    (hsplit : highlightingRules = R1 ++ r :: R2)
    (happ : Applied text r i) (hlater : ∀ r' ∈ R2, ¬ Applied text r' i) :
    formatAt (applyCalls text.length (stringCalls text ++ ruleCalls text)) i =
        some r.format ∧
      ∃ res commentCalls, highlightBlock text prev = some res ∧
        res.calls = stringCalls text ++ ruleCalls text ++ commentCalls ∧
        ((∀ c ∈ commentCalls, ¬ Covers c i) → formatAt res.formats i = some r.format) := by
  have hrc : ruleCalls text = ruleCallsWith (R1 ++ [r]) text ++ ruleCallsWith R2 text := by
    unfold ruleCalls
    rw [hsplit, ← ruleCallsWith_append]
    congr 1
    simp
  have hfin : formatAt (applyCalls text.length (stringCalls text ++ ruleCalls text)) i =
      some r.format := by
    rw [hrc, ← List.append_assoc, applyCalls_append, formatAt_foldl_not_covered]
    · exact formatAt_after_rule text R1 r i happ
    · intro c hc hcov
      obtain ⟨r', hr', happ'⟩ := (ruleCallsWith_covers R2 text i).mp ⟨c, hc, hcov⟩
      exact hlater r' hr' happ'
  refine ⟨hfin, ?_⟩
  obtain ⟨res, cc, hres, hcalls, hfmt⟩ := formatAt_result text prev i
  exact ⟨res, cc, hres, hcalls, fun hno => by rw [hfmt hno, hfin]⟩

/-- Witness for the amended C16: in `if(x)` the identifier-before-paren rule
is the last rule that tags offset 0. -/
theorem last_applied_rule_wins_witness :
    formatAt (applyCalls ['i', 'f', '(', 'x', ')'].length
        (stringCalls ['i', 'f', '(', 'x', ')'] ++ ruleCalls ['i', 'f', '(', 'x', ')'])) 0 =
        some Format.functionFormat ∧
      ∃ res commentCalls, highlightBlock ['i', 'f', '(', 'x', ')'] 0 = some res ∧
        res.calls = stringCalls ['i', 'f', '(', 'x', ')'] ++
          ruleCalls ['i', 'f', '(', 'x', ')'] ++ commentCalls ∧
        ((∀ c ∈ commentCalls, ¬ Covers c 0) →
          formatAt res.formats 0 = some Format.functionFormat) :=
  last_applied_rule_wins ['i', 'f', '(', 'x', ')'] 0 0
    (keywordPatterns.map (fun p => HighlightingRule.mk p Format.keywordFormat) ++
      typePatterns.map (fun p => HighlightingRule.mk p Format.typeFormat))
    [⟨numberPattern, Format.numberFormat⟩, ⟨hexPattern, Format.numberFormat⟩,
      ⟨preprocessorPattern, Format.preprocessorFormat⟩,
      ⟨singleLineCommentPattern, Format.singleLineCommentFormat⟩]
    ⟨functionPattern, Format.functionFormat⟩
    (by rfl) (by decide) (by decide)

/-! ## Lines without quote characters, and the continuation start inside a literal -/

/-- On a line without quote characters no offset is protected. -/
theorem stringMask_no_quote (text : List Char) (hq : ∀ c ∈ text, c ≠ '"' ∧ c ≠ '\'')
    (i : Nat) : (stringMask text).getD i false = false := by
  cases h : (stringMask text).getD i false with
  | false => rfl
  | true =>
    exfalso
    obtain ⟨s, _, hs⟩ := stringMask_quote text i h
    rcases hs with hs | hs
    · exact (hq _ (List.getElem?_mem hs)).1 rfl
    · exact (hq _ (List.getElem?_mem hs)).2 rfl

/-- C28 (continuation line that starts inside the string mask). With previous
block state 1, when offset 0 is protected and every `/*` from offset 1 on
starts at a protected offset, the block-comment part makes no call and the
block state is 0: the calls are those of the string loop and of the rule
loop. Nothing is asked of the close markers of the line. -/
theorem highlightBlock_continuation_masked_start (text : List Char)
    (h0 : (stringMask text).getD 0 false = true)
    (hopen : ∀ j, 1 ≤ j → IsOpenAt text j → (stringMask text).getD j false = true) :
    commentPass text 1 = some ([], 0) ∧
      highlightBlock text 1 = some
        { calls := stringCalls text ++ ruleCalls text,
          formats := applyCalls text.length (stringCalls text ++ ruleCalls text),
          blockState := 0 } := by
  have hpass : commentPass text 1 = some ([], 0) := by
    have hlen : 0 < text.length := ((stringMask_iff text 0).mp h0).1
    unfold commentPass
    rw [if_neg (by decide)]
    have h := commentLoop_masked text (stringMask text) (text.length + 1) 0 [] 0
      ⟨by rw [length_stringMask]; exact_mod_cast hlen, h0⟩
    rw [show ((0 : Nat) : Int) = 0 from rfl] at h
    rw [h]
    exact commentLoop_all_masked text text.length 1 (text.length + 1) [] 0 (by omega)
      (by omega) hopen
  refine ⟨hpass, ?_⟩
  unfold highlightBlock
  rw [hpass]
  simp

/-- Witness for C28: the line `"a" */ x`, which holds a close marker. -/
theorem highlightBlock_continuation_masked_start_witness :
    IsCloseAt ['"', 'a', '"', ' ', '*', '/', ' ', 'x'] 4 ∧
      commentPass ['"', 'a', '"', ' ', '*', '/', ' ', 'x'] 1 = some ([], 0) ∧
      highlightBlock ['"', 'a', '"', ' ', '*', '/', ' ', 'x'] 1 = some
        { calls := stringCalls ['"', 'a', '"', ' ', '*', '/', ' ', 'x'] ++
            ruleCalls ['"', 'a', '"', ' ', '*', '/', ' ', 'x'],
          formats := applyCalls ['"', 'a', '"', ' ', '*', '/', ' ', 'x'].length
            (stringCalls ['"', 'a', '"', ' ', '*', '/', ' ', 'x'] ++
              ruleCalls ['"', 'a', '"', ' ', '*', '/', ' ', 'x']),
          blockState := 0 } :=
  ⟨by decide,
    highlightBlock_continuation_masked_start ['"', 'a', '"', ' ', '*', '/', ' ', 'x']
      (by decide)
      (fun j _ h => by
        have hlt := isOpenAt_lt h
        simp only [List.length_cons, List.length_nil] at hlt
        have hj : j < 8 := by omega
        interval_cases j <;> first | decide | exact absurd h (by decide))⟩

/-! ## A close marker that overlaps the open marker -/

/-- The search for the close marker from an open marker followed by a slash
ends one character after the open marker's offset. -/
theorem indexOf_commentEnd_overlap (text : List Char) (s : Nat) (hopen : IsOpenAt text s)
    (hsl : text[s + 2]? = some '/') :
    indexOf text commentEndExpression (s : Int) = (((s + 1 : Nat) : Int), 2) := by
  have hclose : IsCloseAt text (s + 1) := ⟨hopen.2, hsl⟩
  have hnot : ¬ IsCloseAt text s := by
    intro h
    have h1 := h.1
    rw [hopen.1] at h1
    exact absurd h1 (by decide)
  rcases indexOf_commentEnd text s with ⟨e, he, hle, hce, hfirst⟩ | ⟨_, hnone⟩
  · have he1 : e = s + 1 := by
      rcases Nat.lt_trichotomy e (s + 1) with hlt | heq | hgt
      · have : e = s := by omega
        subst this
        exact absurd hce hnot
      · exact heq
      · exact absurd hclose (hfirst (s + 1) (by omega) hgt)
    rw [he, he1]
  · exact absurd hclose (hnone (s + 1) (by omega))

/-- C29 (the close marker may overlap the open marker). When the leftmost
`/*` of a line stands at an unprotected offset `s` and the character at
`s + 2` is a slash, the search for `*/` from `s` ends at `s + 1`: the first
call of the block-comment part is `setFormat(s, 3, multiLineCommentFormat)`,
the loop goes on from offset `s + 3` with the block state unchanged, and the
three characters end up with the block-comment format. The line `/*/` read
with previous state 0 gives this one call and block state 0. -/
theorem highlightBlock_overlapping_close :
    (∀ (text : List Char) (prev : Int) (s : Nat), prev ≠ 1 → IsOpenAt text s →
      (∀ j, j < s → ¬ IsOpenAt text j) → (stringMask text).getD s false = false →
      text[s + 2]? = some '/' →
      indexOf text commentEndExpression (s : Int) = (((s + 1 : Nat) : Int), 2) ∧
        commentPass text prev =
          commentLoop text (stringMask text) (text.length + 1)
            (indexOf text commentStartExpression ((s + 3 : Nat) : Int)).1
            [⟨(s : Int), 3, Format.multiLineCommentFormat⟩] 0 ∧
        ∃ res, highlightBlock text prev = some res ∧
          (⟨(s : Int), 3, Format.multiLineCommentFormat⟩ : FormatCall) ∈ res.calls ∧
          ∀ i, s ≤ i → i < s + 3 →
            formatAt res.formats i = some Format.multiLineCommentFormat) ∧
      highlightBlock ['/', '*', '/'] 0 = some
        { calls := [⟨0, 3, Format.multiLineCommentFormat⟩],
          formats := [some Format.multiLineCommentFormat, some Format.multiLineCommentFormat,
            some Format.multiLineCommentFormat],
          blockState := 0 } := by
  refine ⟨?_, by decide⟩
  intro text prev s hprev hopen hleft hmask hsl
  have hend := indexOf_commentEnd_overlap text s hopen hsl
  have hlen : s + 2 < text.length := by
    rcases Nat.lt_or_ge (s + 2) text.length with h | h
    · exact h
    · rw [List.getElem?_eq_none h] at hsl
      exact absurd hsl (by simp)
  have hstart : indexOf text commentStartExpression ((0 : Nat) : Int) = ((s : Int), 2) := by
    rcases indexOf_commentStart text 0 with ⟨s', hs', _, ho', hfirst⟩ | ⟨_, hnone⟩
    · have : s' = s := by
        rcases Nat.lt_trichotomy s' s with hlt | heq | hgt
        · exact absurd ho' (hleft s' hlt)
        · exact heq
        · exact absurd hopen (hfirst s (by omega) hgt)
      rw [hs', this]
    · exact absurd hopen (hnone s (by omega))
  have hpass : commentPass text prev =
      commentLoop text (stringMask text) (text.length + 1)
        (indexOf text commentStartExpression ((s + 3 : Nat) : Int)).1
        [⟨(s : Int), 3, Format.multiLineCommentFormat⟩] 0 := by
    unfold commentPass
    rw [if_pos hprev]
    rw [show (0 : Int) = ((0 : Nat) : Int) from rfl, hstart]
    have h := commentLoop_closed text (stringMask text) (text.length + 1) s (s + 1) [] 0
      (by rw [hmask]; simp) hend
    have e3 : (((s + 1 : Nat) : Int) - (s : Int) + 2) = 3 := by push_cast; ring
    rw [e3] at h
    exact h
  refine ⟨hend, hpass, ?_⟩
  obtain ⟨cc, st, hcp, hcc, hres⟩ := highlightBlock_eq text prev
  rw [hpass] at hcp
  obtain ⟨extra, hextra, _⟩ := commentLoop_calls _ _ _ _ _ _ _ _ hcp
  have hmem : (⟨(s : Int), 3, Format.multiLineCommentFormat⟩ : FormatCall) ∈ cc := by
    rw [hextra]; simp
  refine ⟨_, hres, ?_, ?_⟩
  · simp only [List.mem_append]
    exact Or.inr hmem
  · intro i hi1 hi2
    simp only
    rw [applyCalls_append]
    refine formatAt_foldl_covered cc Format.multiLineCommentFormat i _
      (fun c hc => (hcc c hc).1) (by rw [length_applyCalls]; omega)
      ⟨_, hmem, ?_⟩
    unfold Covers
    simp only
    omega

/-- Witness for C29: the line `a/*/b`, whose open marker stands at offset 1. -/
theorem highlightBlock_overlapping_close_witness :
    indexOf ['a', '/', '*', '/', 'b'] commentEndExpression ((1 : Nat) : Int) =
        (((1 + 1 : Nat) : Int), 2) ∧
      commentPass ['a', '/', '*', '/', 'b'] 0 =
        commentLoop ['a', '/', '*', '/', 'b'] (stringMask ['a', '/', '*', '/', 'b'])
          (['a', '/', '*', '/', 'b'].length + 1)
          (indexOf ['a', '/', '*', '/', 'b'] commentStartExpression ((1 + 3 : Nat) : Int)).1
          [⟨((1 : Nat) : Int), 3, Format.multiLineCommentFormat⟩] 0 ∧
      ∃ res, highlightBlock ['a', '/', '*', '/', 'b'] 0 = some res ∧
        (⟨((1 : Nat) : Int), 3, Format.multiLineCommentFormat⟩ : FormatCall) ∈ res.calls ∧
        ∀ i, 1 ≤ i → i < 1 + 3 →
          formatAt res.formats i = some Format.multiLineCommentFormat :=
  highlightBlock_overlapping_close.1 ['a', '/', '*', '/', 'b'] 0 1 (by decide) (by decide)
    (fun j hj h => by
      have : j = 0 := by omega
      subst this
      exact absurd h (by decide))
    (by decide) (by decide)

/-! ## The block-comment part runs last -/

/-- C24 (block comments override rule tags). Every character reached by a
`setFormat` call of the block-comment part ends up with the block-comment
format, whatever the string loop and the rule loop gave it before: the run
always ends, and the calls of the block-comment part come last. -/
theorem highlightBlock_comment_overrides (text : List Char) (prev : Int) (i : Nat)
    (hi : i < text.length)
    (hcov : ∃ cc st, commentPass text prev = some (cc, st) ∧ ∃ c ∈ cc, Covers c i) :
    ∃ res, highlightBlock text prev = some res ∧
      formatAt res.formats i = some Format.multiLineCommentFormat := by
  obtain ⟨cc, st, hcp, hcc, hres⟩ := highlightBlock_eq text prev
  obtain ⟨cc', st', hcp', c, hc, hcover⟩ := hcov
  rw [hcp] at hcp'
  obtain ⟨rfl, rfl⟩ : cc = cc' ∧ st = st' := by
    simpa using hcp'
  refine ⟨_, hres, ?_⟩
  simp only
  rw [applyCalls_append]
  exact formatAt_foldl_covered cc Format.multiLineCommentFormat i _
    (fun c hc => (hcc c hc).1) (by rw [length_applyCalls]; exact hi) ⟨c, hc, hcover⟩

/-- Witness for C24: in `/* int x = 1; */` the rule loop tags `int` as a type
and `1` as a number, the block-comment part tags the whole line, and the
characters of `int` and `1` end up with the block-comment format. -/
theorem highlightBlock_comment_overrides_witness :
    ruleCalls ['/', '*', ' ', 'i', 'n', 't', ' ', 'x', ' ', '=', ' ', '1', ';', ' ', '*', '/'] =
        [⟨3, 3, Format.typeFormat⟩, ⟨11, 1, Format.numberFormat⟩] ∧
      (∃ res, highlightBlock
          ['/', '*', ' ', 'i', 'n', 't', ' ', 'x', ' ', '=', ' ', '1', ';', ' ', '*', '/'] 0 =
            some res ∧
          formatAt res.formats 3 = some Format.multiLineCommentFormat) ∧
      (∃ res, highlightBlock
          ['/', '*', ' ', 'i', 'n', 't', ' ', 'x', ' ', '=', ' ', '1', ';', ' ', '*', '/'] 0 =
            some res ∧
          formatAt res.formats 4 = some Format.multiLineCommentFormat) ∧
      (∃ res, highlightBlock
          ['/', '*', ' ', 'i', 'n', 't', ' ', 'x', ' ', '=', ' ', '1', ';', ' ', '*', '/'] 0 =
            some res ∧
          formatAt res.formats 5 = some Format.multiLineCommentFormat) ∧
      (∃ res, highlightBlock
          ['/', '*', ' ', 'i', 'n', 't', ' ', 'x', ' ', '=', ' ', '1', ';', ' ', '*', '/'] 0 =
            some res ∧
          formatAt res.formats 11 = some Format.multiLineCommentFormat) :=
  have hpass : commentPass
      ['/', '*', ' ', 'i', 'n', 't', ' ', 'x', ' ', '=', ' ', '1', ';', ' ', '*', '/'] 0 =
      some ([⟨0, 16, Format.multiLineCommentFormat⟩], 0) := by decide
  ⟨by decide,
    highlightBlock_comment_overrides _ 0 3 (by decide)
      ⟨_, _, hpass, _, List.mem_singleton.mpr rfl, by decide⟩,
    highlightBlock_comment_overrides _ 0 4 (by decide)
      ⟨_, _, hpass, _, List.mem_singleton.mpr rfl, by decide⟩,
    highlightBlock_comment_overrides _ 0 5 (by decide)
      ⟨_, _, hpass, _, List.mem_singleton.mpr rfl, by decide⟩,
    highlightBlock_comment_overrides _ 0 11 (by decide)
      ⟨_, _, hpass, _, List.mem_singleton.mpr rfl, by decide⟩⟩

/-! ## An open marker behind a line-comment marker -/

/-- C30 (a `/*` inside a line comment still opens a block comment). On a line
without quote characters read from a previous state other than 1, let the
leftmost `/*` stand at offset `s`, behind a `//` at offset `k < s`, with no
`*/` after it. The rule loop tags the line from the leftmost `//` to its end
as a line comment; the block-comment part then tags the characters from `s`
to the end of the line, which end up with the block-comment format, and the
block state is 1. -/
theorem highlightBlock_open_marker_in_line_comment (text : List Char) (prev : Int)
    (s k : Nat) (hprev : prev ≠ 1)
    (hq : ∀ c ∈ text, c ≠ '"' ∧ c ≠ '\'') (hnl : ∀ c ∈ text, c ≠ '\n')
    (hk : IsLineCommentAt text k) (hks : k < s)
    (hopen : IsOpenAt text s) (hleft : ∀ j, j < s → ¬ IsOpenAt text j)
    (hnoclose : ∀ e, s < e → ¬ IsCloseAt text e) :
    ∃ res, highlightBlock text prev = some res ∧ res.blockState = 1 ∧
      res.calls = stringCalls text ++ ruleCalls text ++
        [⟨(s : Int), (text.length : Int) - s, Format.multiLineCommentFormat⟩] ∧
      (∃ k0 : Nat, k0 ≤ k ∧
        (⟨(k0 : Int), ((text.length - k0 : Nat) : Int), Format.singleLineCommentFormat⟩ :
          FormatCall) ∈ ruleCalls text ∧ k0 < s) ∧
      ∀ i, s ≤ i → i < text.length →
        formatAt res.formats i = some Format.multiLineCommentFormat := by
  have hmask := stringMask_no_quote text hq
  have hpass : commentPass text prev =
      some ([⟨(s : Int), (text.length : Int) - s, Format.multiLineCommentFormat⟩], 1) := by
    unfold commentPass
    rw [if_pos hprev]
    have := commentLoop_unterminated text s hopen (hmask s)
      (fun j hj ho => absurd ho (hleft j hj)) (fun e h1 _ => hnoclose e h1) s 0
      (text.length + 2) [] 0 (by omega) (by omega) (by have := isOpenAt_lt hopen; omega)
    simpa using this
  have hex : ∃ j, IsLineCommentAt text j := ⟨k, hk⟩
  have hk0 : IsLineCommentAt text (Nat.find hex) := Nat.find_spec hex
  have hk0le : Nat.find hex ≤ k := Nat.find_le hk
  have hg := globalMatch_singleLineComment text hnl (Nat.find hex) hk0
    (fun j hj => Nat.find_min hex hj)
  have hcall := mem_ruleCalls text _ singleLineComment_rule_mem
    (Nat.find hex, text.length - Nat.find hex)
    (by simp only; rw [hg]; exact List.mem_singleton.mpr rfl)
    (skipMatch_eq_false _ _ _ (fun i _ _ => hmask i))
  refine ⟨_, by unfold highlightBlock; rw [hpass], rfl, rfl,
    ⟨Nat.find hex, hk0le, hcall, by omega⟩, fun i h1 h2 => ?_⟩
  simp only
  rw [applyCalls_append]
  apply formatAt_foldl_covered _ Format.multiLineCommentFormat i _
    (fun c hc => by rw [List.mem_singleton.mp hc]) (by rw [length_applyCalls]; exact h2)
  refine ⟨_, List.mem_singleton.mpr rfl, ?_⟩
  unfold Covers
  simp only
  omega

/-- Witness for C30: the line `x; // see /* here`, with `//` at offset 3 and
`/*` at offset 10. -/
theorem highlightBlock_open_marker_in_line_comment_witness :
    ∃ res, highlightBlock
        ['x', ';', ' ', '/', '/', ' ', 's', 'e', 'e', ' ', '/', '*', ' ', 'h', 'e', 'r', 'e'] 0 =
          some res ∧
      res.blockState = 1 ∧
      res.calls =
        stringCalls
            ['x', ';', ' ', '/', '/', ' ', 's', 'e', 'e', ' ', '/', '*', ' ', 'h', 'e', 'r', 'e'] ++
          ruleCalls
            ['x', ';', ' ', '/', '/', ' ', 's', 'e', 'e', ' ', '/', '*', ' ', 'h', 'e', 'r', 'e'] ++
          [⟨((10 : Nat) : Int),
            ((['x', ';', ' ', '/', '/', ' ', 's', 'e', 'e', ' ', '/', '*', ' ', 'h', 'e', 'r',
              'e'].length : Nat) : Int) - (10 : Nat), Format.multiLineCommentFormat⟩] ∧
      (∃ k0 : Nat, k0 ≤ 3 ∧
        (⟨(k0 : Int),
          (((['x', ';', ' ', '/', '/', ' ', 's', 'e', 'e', ' ', '/', '*', ' ', 'h', 'e', 'r',
            'e'] : List Char).length - k0 : Nat) : Int), Format.singleLineCommentFormat⟩ :
              FormatCall) ∈
          ruleCalls
            ['x', ';', ' ', '/', '/', ' ', 's', 'e', 'e', ' ', '/', '*', ' ', 'h', 'e', 'r',
              'e'] ∧ k0 < 10) ∧
      ∀ i, 10 ≤ i →
        i < ['x', ';', ' ', '/', '/', ' ', 's', 'e', 'e', ' ', '/', '*', ' ', 'h', 'e', 'r',
          'e'].length →
        formatAt res.formats i = some Format.multiLineCommentFormat :=
  highlightBlock_open_marker_in_line_comment
    ['x', ';', ' ', '/', '/', ' ', 's', 'e', 'e', ' ', '/', '*', ' ', 'h', 'e', 'r', 'e'] 0 10 3
    (by decide) (by decide) (by decide) (by decide) (by decide) (by decide)
    (fun j hj h => by
      interval_cases j <;> exact absurd h (by decide))
    (fun e _ h => by
      have h3 := isCloseAt_lt h
      simp only [List.length_cons, List.length_nil] at h3
      have he : e < 16 := by omega
      clear h3
      interval_cases e <;> exact absurd h (by decide))

/-! ## Totality, progress and bounds -/

/-- A search either fails or gives a match inside the text, at or after the
start offset. -/
theorem indexOf_cases (text : List Char) (re : Regex) (x : Int) :
    indexOf text re x = (-1, 0) ∨
      ∃ s e : Nat, indexOf text re x = ((s : Int), ((e - s : Nat) : Int)) ∧
        x.toNat ≤ s ∧ s ≤ e ∧ e ≤ text.length := by
  unfold indexOf
  cases h : firstMatch re text x.toNat with
  | none => exact Or.inl rfl
  | some m =>
    obtain ⟨s, e⟩ := m
    exact Or.inr ⟨s, e, rfl, firstMatch_bound re text _ s e h⟩

/-- One iteration of the block-comment loop, in terms of `commentStep`. -/
theorem commentLoop_succ (text : List Char) (mask : List Bool) (fuel : Nat) (s : Int)
    (calls : List FormatCall) (st : Int) (hs : 0 ≤ s) :
    commentLoop text mask (fuel + 1) s calls st =
      commentLoop text mask fuel (commentStep text mask s).next
        (calls ++ (commentStep text mask s).call.toList)
        (if (commentStep text mask s).unterminated = true then 1 else st) := by
  rw [commentLoop, if_pos hs]
  unfold commentStep
  by_cases hm : s < mask.length ∧ mask.getD s.toNat false = true
  · rw [if_pos hm]
    simp only [if_pos hm]
    simp
  · rw [if_neg hm]
    simp only [if_neg hm]
    simp

/-- Every iteration of the block-comment loop ends the loop or moves
`startIndex` to the right. -/
theorem commentStep_progress (text : List Char) (mask : List Bool) (s : Int) (hs : 0 ≤ s) :
    (commentStep text mask s).next = -1 ∨ s < (commentStep text mask s).next := by
  obtain ⟨n, rfl⟩ : ∃ n : Nat, s = n := ⟨s.toNat, by omega⟩
  unfold commentStep
  by_cases hm : (n : Int) < mask.length ∧ mask.getD (n : Int).toNat false = true
  · simp only [if_pos hm]
    rcases indexOf_commentStart text (n + 1) with ⟨j, h0, h1, _, _⟩ | ⟨h0, _⟩
    · right
      rw [show ((n : Int) + 1) = ((n + 1 : Nat) : Int) by push_cast; rfl, h0]
      simp only
      omega
    · left
      rw [show ((n : Int) + 1) = ((n + 1 : Nat) : Int) by push_cast; rfl, h0]
  · simp only [if_neg hm]
    rcases indexOf_commentEnd text n with ⟨e, he, h1, _, _⟩ | ⟨he, _⟩
    · rw [he]
      simp only
      rw [if_neg (by omega)]
      rw [show (n : Int) + ((e : Int) - n + 2) = ((e + 2 : Nat) : Int) by push_cast; ring]
      rcases indexOf_commentStart text (e + 2) with ⟨j, h0, h1', _, _⟩ | ⟨h0, _⟩
      · right
        rw [h0]
        simp only
        omega
      · left
        rw [h0]
    · left
      rw [he]
      simp only [if_true]
      rw [show (n : Int) + ((text.length : Int) - n) = (text.length : Int) by ring,
        indexOf_commentStart_end]

/-- The new `startIndex` is -1 or an offset of the text. -/
theorem commentStep_next_le (text : List Char) (mask : List Bool) (s : Int) :
    (commentStep text mask s).next ≤ text.length := by
  have key : ∀ x : Int, (indexOf text commentStartExpression x).1 ≤ text.length := by
    intro x
    rcases indexOf_cases text commentStartExpression x with h | ⟨j, e, h, _, _, _⟩
    · rw [h]; simp only; omega
    · rw [h]; simp only; omega
  unfold commentStep
  by_cases hm : s < mask.length ∧ mask.getD s.toNat false = true
  · simp only [if_pos hm]
    exact key _
  · simp only [if_neg hm]
    exact key _

/-- The span of the call made by one iteration lies inside the text. -/
theorem commentStep_call_bound (text : List Char) (mask : List Bool) (s : Int)
    (hs : 0 ≤ s) (hle : s ≤ text.length) (c : FormatCall)
    (hc : (commentStep text mask s).call = some c) :
    0 ≤ c.start ∧ 0 ≤ c.count ∧ c.start + c.count ≤ text.length := by
  unfold commentStep at hc
  by_cases hm : s < mask.length ∧ mask.getD s.toNat false = true
  · simp only [if_pos hm] at hc
    exact absurd hc (by simp)
  · simp only [if_neg hm, Option.some.injEq] at hc
    rw [← hc]
    simp only
    rcases indexOf_cases text commentEndExpression s with h | ⟨j, e, h, h1, h2, h3⟩
    · rw [h]
      simp only [if_true]
      omega
    · rw [h]
      simp only
      rw [if_neg (by omega)]
      omega

/-- The spans of the calls made by the block-comment loop lie inside the
text. -/
theorem commentLoop_calls_bound (text : List Char) (mask : List Bool) :
    ∀ (fuel : Nat) (s : Int) (calls : List FormatCall) (st : Int)
      (calls' : List FormatCall) (st' : Int), s ≤ text.length →
      commentLoop text mask fuel s calls st = some (calls', st') →
      ∃ extra, calls' = calls ++ extra ∧
        ∀ c ∈ extra, 0 ≤ c.start ∧ 0 ≤ c.count ∧ c.start + c.count ≤ text.length := by
  intro fuel
  induction fuel with
  | zero => intro _ _ _ _ _ _ h; simp [commentLoop] at h
  | succ fuel ih =>
    intro s calls st calls' st' hle h
    by_cases hs : 0 ≤ s
    · rw [commentLoop_succ text mask fuel s calls st hs] at h
      obtain ⟨extra, h1, h2⟩ := ih _ _ _ _ _ (commentStep_next_le text mask s) h
      rw [List.append_assoc] at h1
      refine ⟨_, h1, fun c hc => ?_⟩
      rcases List.mem_append.mp hc with hc | hc
      · exact commentStep_call_bound text mask s hs hle c (by simpa using hc)
      · exact h2 c hc
    · rw [commentLoop, if_neg (by omega)] at h
      simp only [Option.some.injEq, Prod.mk.injEq] at h
      exact ⟨[], by simp [h.1], fun c hc => by simp at hc⟩

/-- C21 (totality on arbitrary lines). For every line and previous block
state: `highlightBlock` returns, and each of its `setFormat` calls has
`0 <= start`, `0 <= count` and `start + count <= length`; one iteration of
the block-comment loop is `commentStep`, and it ends the loop or moves
`startIndex` to the right; the offsets written in `isInString`, the offsets
read while `skip` is computed and the offset read by the block-comment loop
are offsets of the line. -/
theorem highlightBlock_total (text : List Char) (prev : Int) :
    (∃ res, highlightBlock text prev = some res ∧
      ∀ c ∈ res.calls, 0 ≤ c.start ∧ 0 ≤ c.count ∧ c.start + c.count ≤ text.length) ∧
    (∀ (fuel : Nat) (s : Int) (calls : List FormatCall) (st : Int), 0 ≤ s →
      commentLoop text (stringMask text) (fuel + 1) s calls st =
        commentLoop text (stringMask text) fuel (commentStep text (stringMask text) s).next
          (calls ++ (commentStep text (stringMask text) s).call.toList)
          (if (commentStep text (stringMask text) s).unterminated = true then 1 else st)) ∧
    (∀ s : Int, 0 ≤ s →
      (commentStep text (stringMask text) s).next = -1 ∨
        s < (commentStep text (stringMask text) s).next) ∧
    (∀ i ∈ maskWrites text, i < text.length) ∧
    (∀ rule ∈ highlightingRules, ∀ m ∈ globalMatch rule.pattern text,
      ∀ i ∈ skipReads (stringMask text) m.1 m.2, i < text.length) ∧
    (∀ s i : Int, 0 ≤ s → (commentStep text (stringMask text) s).maskRead = some i →
      0 ≤ i ∧ i < text.length) := by
  refine ⟨?_, fun fuel s calls st hs => commentLoop_succ text _ fuel s calls st hs,
    fun s hs => commentStep_progress text _ s hs, ?_, ?_, ?_⟩
  · obtain ⟨cc, st, hcp, _, hres⟩ := highlightBlock_eq text prev
    refine ⟨_, hres, fun c hc => ?_⟩
    simp only [List.mem_append] at hc
    rcases hc with (hc | hc) | hc
    · unfold stringCalls at hc
      obtain ⟨m, hm, rfl⟩ := List.mem_map.mp hc
      have := globalMatch_bound _ _ m hm
      simp only
      omega
    · obtain ⟨rule, _, m, hm, rfl⟩ := (ruleCalls_spec text c hc).1
      have := globalMatch_bound _ _ m hm
      simp only
      omega
    · unfold commentPass at hcp
      have hstart : (if prev ≠ 1 then (indexOf text commentStartExpression 0).1 else 0) ≤
          (text.length : Int) := by
        split_ifs
        · rcases indexOf_cases text commentStartExpression 0 with h | ⟨j, e, h, _, _, _⟩
          · rw [h]; simp only; omega
          · rw [h]; simp only; omega
        · omega
      obtain ⟨extra, h1, h2⟩ := commentLoop_calls_bound text _ _ _ _ _ _ _ hstart hcp
      rw [h1, List.nil_append] at hc
      exact h2 c hc
  · intro i hi
    unfold maskWrites at hi
    obtain ⟨m, hm, hi⟩ := List.mem_flatMap.mp hi
    obtain ⟨j, hj, rfl⟩ := List.mem_map.mp hi
    have := globalMatch_bound _ _ m hm
    have := List.mem_range.mp hj
    omega
  · intro rule _ m _ i hi
    unfold skipReads at hi
    have := (List.mem_filter.mp hi).2
    rw [length_stringMask] at this
    simpa using this
  · intro s i hs hi
    unfold commentStep at hi
    have hread : (if s < ((stringMask text).length : Int) then some s else none) = some i := by
      by_cases hm : s < (stringMask text).length ∧
          (stringMask text).getD s.toNat false = true
      · simpa only [if_pos hm] using hi
      · simpa only [if_neg hm] using hi
    rw [length_stringMask] at hread
    split_ifs at hread with hlt
    simp only [Option.some.injEq] at hread
    omega

/-- Witness for C21 on the line `*/ " /*`, which is not valid code: the run
returns, and the iteration entered with `startIndex = 5` ends the loop. -/
theorem highlightBlock_total_witness :
    (∃ res, highlightBlock ['*', '/', ' ', '"', ' ', '/', '*'] 0 = some res ∧
      ∀ c ∈ res.calls, 0 ≤ c.start ∧ 0 ≤ c.count ∧
        c.start + c.count ≤ (['*', '/', ' ', '"', ' ', '/', '*'].length : Nat)) ∧
      ((commentStep ['*', '/', ' ', '"', ' ', '/', '*']
            (stringMask ['*', '/', ' ', '"', ' ', '/', '*']) 5).next = -1 ∨
        5 < (commentStep ['*', '/', ' ', '"', ' ', '/', '*']
            (stringMask ['*', '/', ' ', '"', ' ', '/', '*']) 5).next) :=
  ⟨(highlightBlock_total ['*', '/', ' ', '"', ' ', '/', '*'] 0).1,
    (highlightBlock_total ['*', '/', ' ', '"', ' ', '/', '*'] 0).2.2.1 5 (by decide)⟩

/-! ## Several comments on one line -/

theorem findFrom_some (p : Nat → Bool) (s : Nat) (hs : p s = true) :
    ∀ (n start : Nat), start ≤ s → s < start + n →
      (∀ j, start ≤ j → j < s → p j = false) → findFrom p n start = some s := by
  intro n
  induction n with
  | zero => intro start h1 h2; omega
  | succ n ih =>
    intro start h1 h2 hfirst
    rw [findFrom]
    by_cases heq : start = s
    · subst heq
      rw [if_pos hs]
    · rw [if_neg (by rw [hfirst start (le_refl _) (by omega)]; decide)]
      exact ih (start + 1) (by omega) (by omega) (fun j hj1 hj2 => hfirst j (by omega) hj2)

theorem findFrom_none (p : Nat → Bool) :
    ∀ (n start : Nat), (∀ j, start ≤ j → j < start + n → p j = false) →
      findFrom p n start = none := by
  intro n
  induction n with
  | zero => intro start _; rfl
  | succ n ih =>
    intro start h
    rw [findFrom, if_neg (by rw [h start (le_refl _) (by omega)]; decide)]
    exact ih (start + 1) (fun j hj1 hj2 => h j (by omega) (by omega))

theorem firstOpen_some (text : List Char) (start s : Nat) (hle : start ≤ s)
    (hs : IsOpenAt text s) (hfirst : ∀ j, start ≤ j → j < s → ¬ IsOpenAt text j) :
    firstOpen text start = some s := by
  have := isOpenAt_lt hs
  exact findFrom_some _ s (by simpa using hs) _ _ hle (by omega)
    (fun j h1 h2 => by simpa using hfirst j h1 h2)

theorem firstOpen_none (text : List Char) (start : Nat)
    (h : ∀ j, start ≤ j → ¬ IsOpenAt text j) : firstOpen text start = none :=
  findFrom_none _ _ _ (fun j h1 _ => by simpa using h j h1)

theorem firstClose_some (text : List Char) (start s : Nat) (hle : start ≤ s)
    (hs : IsCloseAt text s) (hfirst : ∀ j, start ≤ j → j < s → ¬ IsCloseAt text j) :
    firstClose text start = some s := by
  have := isCloseAt_lt hs
  exact findFrom_some _ s (by simpa using hs) _ _ hle (by omega)
    (fun j h1 h2 => by simpa using hfirst j h1 h2)

theorem firstClose_none (text : List Char) (start : Nat)
    (h : ∀ j, start ≤ j → ¬ IsCloseAt text j) : firstClose text start = none :=
  findFrom_none _ _ _ (fun j h1 _ => by simpa using h j h1)

/-- No close marker starts where an open marker starts. -/
theorem isOpenAt_not_isCloseAt {text : List Char} {s : Nat} (h : IsOpenAt text s) :
    ¬ IsCloseAt text s := by
  intro hc
  have h1 := hc.1
  rw [h.1] at h1
  exact absurd h1 (by decide)

/-- On a line without protected offsets the block-comment loop follows the
left-to-right description of the comments. -/
theorem commentLoop_specComments (text : List Char)
    (hmask : ∀ i, (stringMask text).getD i false = false) :
    ∀ (d n fuel bound : Nat) (calls : List FormatCall) (st : Int), text.length - n ≤ d →
      d + 2 ≤ fuel → d + 1 ≤ bound →
      ∃ spans st', specComments text bound n = some (spans, st') ∧ (st' = 0 ∨ st' = 1) ∧
        (st' = 1 ↔ ∃ sl ∈ spans, ∀ e, sl.1 < e → ¬ IsCloseAt text e) ∧
        commentLoop text (stringMask text) fuel
          (indexOf text commentStartExpression (n : Int)).1 calls st =
          some (calls ++ spans.map (fun sl =>
            (⟨(sl.1 : Int), (sl.2 : Int), Format.multiLineCommentFormat⟩ : FormatCall)),
            if st' = 1 then 1 else st) := by
  intro d
  induction d using Nat.strong_induction_on with
  | _ d ih =>
    intro n fuel bound calls st hd hf hb
    obtain ⟨f, rfl⟩ : ∃ f, fuel = f + 1 := ⟨fuel - 1, by omega⟩
    obtain ⟨b, rfl⟩ : ∃ b, bound = b + 1 := ⟨bound - 1, by omega⟩
    rcases indexOf_commentStart text n with ⟨s, h0, h1, h2, h3⟩ | ⟨h0, h1⟩
    · have hslt := isOpenAt_lt h2
      have hm : ¬ (((s : Nat) : Int) < (stringMask text).length ∧
          (stringMask text).getD s false = true) := by
        rw [hmask s]; simp
      rw [h0, specComments, firstOpen_some text n s h1 h2 h3]
      simp only
      rcases indexOf_commentEnd text s with ⟨e, he, h4, h5, h6⟩ | ⟨he, h4⟩
      · have helt := isCloseAt_lt h5
        have hne : e ≠ s := fun h => isOpenAt_not_isCloseAt h2 (h ▸ h5)
        rw [firstClose_some text (s + 1) e (by omega) h5
          (fun j hj1 hj2 => h6 j (by omega) hj2)]
        rw [commentLoop_closed text _ f s e calls st hm he]
        obtain ⟨spans, st', hsp, hst, hiff, hloop⟩ := ih (d - 1) (by omega) (e + 2) f b
          (calls ++ [⟨(s : Int), (e : Int) - s + 2, Format.multiLineCommentFormat⟩]) st
          (by omega) (by omega) (by omega)
        refine ⟨(s, e + 2 - s) :: spans, st', by simp only [hsp], hst, ?_, ?_⟩
        · rw [hiff]
          constructor
          · rintro ⟨sl, hsl, h⟩
            exact ⟨sl, List.mem_cons_of_mem _ hsl, h⟩
          · rintro ⟨sl, hsl, h⟩
            rcases List.mem_cons.mp hsl with rfl | hsl
            · exact absurd h5 (h e (by simp only; omega))
            · exact ⟨sl, hsl, h⟩
        · rw [hloop, List.append_assoc]
          have e1 : (((e + 2 - s : Nat)) : Int) = (e : Int) - s + 2 := by omega
          simp only [List.map_cons, List.singleton_append, e1]
      · rw [firstClose_none text (s + 1) (fun j hj => h4 j (by omega))]
        rw [commentLoop_open text _ f s calls st hm he, indexOf_commentStart_end]
        obtain ⟨f', rfl⟩ : ∃ f', f = f' + 1 := ⟨f - 1, by omega⟩
        rw [commentLoop_done]
        refine ⟨_, _, rfl, Or.inr rfl, ?_, ?_⟩
        · refine ⟨fun _ => ⟨_, List.mem_singleton.mpr rfl, fun e he1 => h4 e ?_⟩, fun _ => rfl⟩
          simp only at he1
          omega
        · have e1 : (((text.length - s : Nat)) : Int) = (text.length : Int) - s := by omega
          simp only [List.map_cons, List.map_nil, e1, if_true]
    · rw [h0, specComments, firstOpen_none text n h1, commentLoop_done]
      refine ⟨[], 0, rfl, Or.inl rfl, ?_, ?_⟩
      · constructor
        · intro h; exact absurd h (by decide)
        · rintro ⟨sl, hsl, _⟩; simp at hsl
      · simp

/-- C25 (several comments on one line). On a line without quote characters
read from a previous state other than 1, the block-comment part does what the
left-to-right description `specComments` says: its calls are the spans of
`specComments`, in order, each from an open marker through the first close
marker that follows, and the block state is the state of `specComments`,
which is 0 when every span has a close marker behind its open marker. Every
character of a span ends up with the block-comment format. -/
theorem highlightBlock_several_comments (text : List Char) (prev : Int) (hprev : prev ≠ 1)
    (hq : ∀ c ∈ text, c ≠ '"' ∧ c ≠ '\'') :
    ∃ spans st, specComments text (text.length + 1) 0 = some (spans, st) ∧
      commentPass text prev = some (spans.map (fun sl =>
        (⟨(sl.1 : Int), (sl.2 : Int), Format.multiLineCommentFormat⟩ : FormatCall)), st) ∧
      ((∀ sl ∈ spans, ∃ e, sl.1 < e ∧ IsCloseAt text e) → st = 0) ∧
      ∃ res, highlightBlock text prev = some res ∧ res.blockState = st ∧
        res.calls = stringCalls text ++ ruleCalls text ++ spans.map (fun sl =>
          (⟨(sl.1 : Int), (sl.2 : Int), Format.multiLineCommentFormat⟩ : FormatCall)) ∧
        ∀ i, i < text.length → (∃ sl ∈ spans, InMatch sl i) →
          formatAt res.formats i = some Format.multiLineCommentFormat := by
  obtain ⟨spans, st, hsp, hst, hiff, hloop⟩ :=
    commentLoop_specComments text (stringMask_no_quote text hq) text.length 0
      (text.length + 2) (text.length + 1) [] 0 (by omega) (by omega) (by omega)
  have hpass : commentPass text prev = some (spans.map (fun sl =>
      (⟨(sl.1 : Int), (sl.2 : Int), Format.multiLineCommentFormat⟩ : FormatCall)), st) := by
    unfold commentPass
    rw [if_pos hprev]
    have h0 : (indexOf text commentStartExpression 0).1 =
        (indexOf text commentStartExpression ((0 : Nat) : Int)).1 := rfl
    rw [h0, hloop]
    rcases hst with h | h
    · rw [h]; simp
    · rw [h]; simp
  refine ⟨spans, st, hsp, hpass, ?_, _, by unfold highlightBlock; rw [hpass], rfl, rfl, ?_⟩
  · intro hall
    rcases hst with h | h
    · exact h
    · obtain ⟨sl, hsl, hno⟩ := hiff.mp h
      obtain ⟨e, he1, he2⟩ := hall sl hsl
      exact absurd he2 (hno e he1)
  · intro i hi ⟨sl, hsl, hin⟩
    simp only
    rw [applyCalls_append]
    refine formatAt_foldl_covered _ Format.multiLineCommentFormat i _ ?_
      (by rw [length_applyCalls]; exact hi)
      ⟨_, List.mem_map.mpr ⟨sl, hsl, rfl⟩, ?_⟩
    · intro c hc
      obtain ⟨m, _, rfl⟩ := List.mem_map.mp hc
      rfl
    · unfold Covers
      unfold InMatch at hin
      simp only
      omega

/-- Witness for C25: `a /* b */ c /* d */ e` has the spans `[2, 9)` and
`[12, 19)` and ends in state 0. -/
theorem highlightBlock_several_comments_witness :
    specComments ['a', ' ', '/', '*', ' ', 'b', ' ', '*', '/', ' ', 'c', ' ', '/', '*', ' ',
        'd', ' ', '*', '/', ' ', 'e'] 22 0 = some ([(2, 7), (12, 7)], 0) ∧
      ∃ spans st,
        specComments ['a', ' ', '/', '*', ' ', 'b', ' ', '*', '/', ' ', 'c', ' ', '/', '*', ' ',
          'd', ' ', '*', '/', ' ', 'e']
          (['a', ' ', '/', '*', ' ', 'b', ' ', '*', '/', ' ', 'c', ' ', '/', '*', ' ',
            'd', ' ', '*', '/', ' ', 'e'].length + 1) 0 = some (spans, st) ∧
        commentPass ['a', ' ', '/', '*', ' ', 'b', ' ', '*', '/', ' ', 'c', ' ', '/', '*', ' ',
          'd', ' ', '*', '/', ' ', 'e'] 0 = some (spans.map (fun sl =>
            (⟨(sl.1 : Int), (sl.2 : Int), Format.multiLineCommentFormat⟩ : FormatCall)), st) ∧
        ((∀ sl ∈ spans, ∃ e, sl.1 < e ∧
            IsCloseAt ['a', ' ', '/', '*', ' ', 'b', ' ', '*', '/', ' ', 'c', ' ', '/', '*', ' ',
              'd', ' ', '*', '/', ' ', 'e'] e) → st = 0) ∧
        ∃ res, highlightBlock ['a', ' ', '/', '*', ' ', 'b', ' ', '*', '/', ' ', 'c', ' ', '/',
            '*', ' ', 'd', ' ', '*', '/', ' ', 'e'] 0 = some res ∧
          res.blockState = st ∧
          res.calls =
            stringCalls ['a', ' ', '/', '*', ' ', 'b', ' ', '*', '/', ' ', 'c', ' ', '/', '*',
                ' ', 'd', ' ', '*', '/', ' ', 'e'] ++
              ruleCalls ['a', ' ', '/', '*', ' ', 'b', ' ', '*', '/', ' ', 'c', ' ', '/', '*',
                ' ', 'd', ' ', '*', '/', ' ', 'e'] ++
              spans.map (fun sl =>
                (⟨(sl.1 : Int), (sl.2 : Int), Format.multiLineCommentFormat⟩ : FormatCall)) ∧
          ∀ i, i < ['a', ' ', '/', '*', ' ', 'b', ' ', '*', '/', ' ', 'c', ' ', '/', '*', ' ',
              'd', ' ', '*', '/', ' ', 'e'].length → (∃ sl ∈ spans, InMatch sl i) →
            formatAt res.formats i = some Format.multiLineCommentFormat :=
  ⟨by decide,
    highlightBlock_several_comments ['a', ' ', '/', '*', ' ', 'b', ' ', '*', '/', ' ', 'c', ' ',
      '/', '*', ' ', 'd', ' ', '*', '/', ' ', 'e'] 0 (by decide) (by decide)⟩

/-! ## Literals with escapes -/

theorem getElem?_append_at (A B : List Char) (j : Nat) : (A ++ B)[A.length + j]? = B[j]? := by
  rw [List.getElem?_append_right (by omega)]
  congr 1
  omega

/-- One iteration of `(\\.|[^q])` on a character other than the backslash
and the quote. -/
theorem matchAt_body_plain (text : List Char) (q c : Char) (pos : Nat)
    (k : Nat → Option Nat) (hat : text[pos]? = some c) (hc1 : c ≠ q) (hc2 : c ≠ '\\') :
    matchAt text
      (Regex.alt (Regex.seq (Regex.lit '\\') (Regex.cls (fun c => c != '\n')))
        (Regex.cls (fun c => c != q))) pos k = k (pos + 1) := by
  have hcq : (c != q) = true := by simpa using hc1
  rw [matchAt, matchAt, matchAt, matchAt, hat, if_neg (by simpa using hc2)]
  simp only [hcq, if_true]
  rfl

/-- One iteration of `(\\.|[^q])` on a backslash followed by a character
other than the line feed. -/
theorem matchAt_body_escape (text : List Char) (q x : Char) (pos e : Nat)
    (k : Nat → Option Nat) (hat : text[pos]? = some '\\') (hat1 : text[pos + 1]? = some x)
    (hx : x ≠ '\n') (hk : k (pos + 1 + 1) = some e) :
    matchAt text
      (Regex.alt (Regex.seq (Regex.lit '\\') (Regex.cls (fun c => c != '\n')))
        (Regex.cls (fun c => c != q))) pos k = some e := by
  have hxn : (x != '\n') = true := by simpa using hx
  rw [matchAt, matchAt, matchAt, matchAt, hat, if_pos rfl, matchAt, hat1]
  simp only [hxn, if_true, hk]
  rfl

/-- One iteration of `(\\.|[^q])` on a backslash followed by a line feed. -/
theorem matchAt_body_backslash (text : List Char) (q : Char) (pos : Nat)
    (k : Nat → Option Nat) (hat : text[pos]? = some '\\') (hat1 : text[pos + 1]? = some '\n')
    (hq1 : q ≠ '\\') :
    matchAt text
      (Regex.alt (Regex.seq (Regex.lit '\\') (Regex.cls (fun c => c != '\n')))
        (Regex.cls (fun c => c != q))) pos k = k (pos + 1) := by
  have hbq : ('\\' != q) = true := by simpa using (Ne.symm hq1)
  rw [matchAt, matchAt, matchAt, matchAt, hat, if_pos rfl, matchAt, hat1]
  simp only [bne_self_eq_false, Bool.false_eq_true, if_false, hbq, if_true]
  rfl

/-- No iteration of `(\\.|[^q])` starts on the quote. -/
theorem matchAt_body_quote (text : List Char) (q : Char) (pos : Nat)
    (k : Nat → Option Nat) (hat : text[pos]? = some q) (hq1 : q ≠ '\\') :
    matchAt text
      (Regex.alt (Regex.seq (Regex.lit '\\') (Regex.cls (fun c => c != '\n')))
        (Regex.cls (fun c => c != q))) pos k = none := by
  rw [matchAt, matchAt, matchAt, matchAt, hat, if_neg (by simpa using hq1)]
  simp only [bne_self_eq_false, Bool.false_eq_true, if_false]
  rfl

/-- The greedy star of `(\\.|[^q])*` runs through the body of a literal up to
the closing quote. -/
theorem starLoop_literalBody (q : Char) (hq1 : q ≠ '\\') (hq2 : q ≠ '\n') (text : List Char)
    (k : Nat → Option Nat) (e : Nat) :
    ∀ body, LiteralBody q body → ∀ (A B : List Char) (n : Nat),
      text = A ++ body ++ q :: B → body.length ≤ n →
      k (A.length + body.length) = some e →
      starLoop (matchAt text
        (Regex.alt (Regex.seq (Regex.lit '\\') (Regex.cls (fun c => c != '\n')))
          (Regex.cls (fun c => c != q)))) n A.length k = some e := by
  intro body hbody
  induction hbody with
  | nil =>
    intro A B n htext _ hk
    have ht2 : text = A ++ (q :: B) := by rw [htext]; simp
    have hat : text[A.length]? = some q := by
      rw [ht2]; exact (getElem?_append_at A (q :: B) 0).trans (by simp)
    have hk' : k A.length = some e := by simpa using hk
    cases n with
    | zero => exact hk'
    | succ n =>
      rw [starLoop, matchAt_body_quote text q _ _ hat hq1]
      exact hk'
  | @plain c s hc1 hc2 _ ih =>
    intro A B n htext hn hk
    simp only [List.length_cons] at hn hk
    obtain ⟨n', rfl⟩ : ∃ n', n = n' + 1 := ⟨n - 1, by omega⟩
    have ht2 : text = A ++ (c :: (s ++ q :: B)) := by rw [htext]; simp
    have hat : text[A.length]? = some c := by
      rw [ht2]; exact (getElem?_append_at A (c :: (s ++ q :: B)) 0).trans (by simp)
    have hnext := ih (A ++ [c]) B n' (by rw [htext]; simp) (by omega)
      (by rw [← hk]; congr 1; simp only [List.length_append, List.length_singleton]; omega)
    simp only [List.length_append, List.length_singleton] at hnext
    rw [starLoop, matchAt_body_plain text q c _ _ hat hc1 hc2, if_pos (by omega), hnext]
    rfl
  | @escape x s _ ih =>
    intro A B n htext hn hk
    simp only [List.length_cons] at hn hk
    obtain ⟨n', rfl⟩ : ∃ n', n = n' + 1 := ⟨n - 1, by omega⟩
    have ht2 : text = A ++ ('\\' :: x :: (s ++ q :: B)) := by rw [htext]; simp
    have hat : text[A.length]? = some '\\' := by
      rw [ht2]; exact (getElem?_append_at A ('\\' :: x :: (s ++ q :: B)) 0).trans (by simp)
    have hat1 : text[A.length + 1]? = some x := by
      rw [ht2]; exact (getElem?_append_at A ('\\' :: x :: (s ++ q :: B)) 1).trans (by simp)
    have hlen2 : (A ++ ['\\', x]).length = A.length + 1 + 1 := by simp
    have hnext := fun m hm => ih (A ++ ['\\', x]) B m (by rw [htext]; simp) hm
      (by rw [← hk]; congr 1; rw [hlen2]; omega)
    rw [hlen2] at hnext
    by_cases hx : x = '\n'
    · subst hx
      obtain ⟨m2, rfl⟩ : ∃ m2, n' = m2 + 1 := ⟨n' - 1, by omega⟩
      have h2 := hnext m2 (by omega)
      rw [starLoop, matchAt_body_backslash text q _ _ hat hat1 hq1, if_pos (by omega),
        starLoop, matchAt_body_plain text q '\n' _ _ hat1 (Ne.symm hq2) (by decide),
        if_pos (by omega), h2]
      rfl
    · have h2 := hnext n' (by omega)
      rw [starLoop, matchAt_body_escape text q x _ e _ hat hat1 hx
        (by rw [if_pos (by omega)]; exact h2)]
      rfl

/-- The search finds nothing when the pattern matches at no offset from the
start offset on. -/
theorem searchFrom_eq_none_from (re : Regex) (text : List Char) :
    ∀ (n start : Nat), (∀ j, start ≤ j → matchAt text re j some = none) →
      searchFrom re text n start = none := by
  intro n
  induction n with
  | zero => intro _ _; rfl
  | succ n ih =>
    intro start h
    rw [searchFrom, h start (le_refl _)]
    exact ih (start + 1) (fun j hj => h j (by omega))

/-- A string-pattern match starts on a quote character. -/
theorem matchAt_stringPattern_quote (text : List Char) (pos e : Nat)
    (h : matchAt text stringPattern pos some = some e) :
    text[pos]? = some '"' ∨ text[pos]? = some '\'' := by
  unfold stringPattern at h
  rw [matchAt] at h
  rcases orElse_eq_some _ _ _ h with h | h
  · exact Or.inl (matchAt_quoted _ _ _ _ _ h).1
  · exact Or.inr (matchAt_quoted _ _ _ _ _ h).1

/-- One alternative of the string pattern matches a literal with escapes
from its opening quote through its closing quote. -/
theorem matchAt_quoted_literal (pre body post : List Char) (q : Char) (hq1 : q ≠ '\\')
    (hq2 : q ≠ '\n') (hbody : LiteralBody q body) :
    matchAt (pre ++ q :: (body ++ q :: post)) (quoted q) pre.length some =
      some (pre.length + (body.length + 2)) := by
  generalize htext : pre ++ q :: (body ++ q :: post) = text
  have hat : text[pre.length]? = some q := by
    rw [← htext]; exact (getElem?_append_at pre _ 0).trans (by simp)
  have hlen : text.length = pre.length + (body.length + 2) + post.length := by
    rw [← htext]; simp; omega
  have hclose : text[pre.length + 1 + body.length]? = some q := by
    have e : text = (pre ++ [q] ++ body) ++ (q :: post) := by rw [← htext]; simp
    have e2 : pre.length + 1 + body.length = (pre ++ [q] ++ body).length + 0 := by
      simp only [List.length_append, List.length_singleton]; omega
    rw [e, e2]
    exact (getElem?_append_at _ _ 0).trans (by simp)
  unfold quoted
  rw [matchAt, matchAt, if_pos hat, matchAt, matchAt]
  have h := starLoop_literalBody q hq1 hq2 text
    (fun p => matchAt text (Regex.lit q) p some) (pre.length + (body.length + 2)) body hbody
    (pre ++ [q]) post (text.length - (pre.length + 1)) (by rw [← htext]; simp)
    (by omega)
    (by
      simp only [List.length_append, List.length_singleton]
      rw [matchAt, if_pos hclose]
      congr 1
      omega)
  simp only [List.length_append, List.length_singleton] at h
  exact h

/-- In a line with one literal, written with escapes, the string pattern has
one match: the literal with its quotes. -/
theorem globalMatch_stringPattern_literal (pre body post : List Char) (q : Char)
    (hqq : q = '"' ∨ q = '\'')
    (hpre : ∀ c ∈ pre, c ≠ '"' ∧ c ≠ '\'') (hpost : ∀ c ∈ post, c ≠ '"' ∧ c ≠ '\'')
    (hbody : LiteralBody q body) :
    globalMatch stringPattern (pre ++ q :: (body ++ q :: post)) =
      [(pre.length, body.length + 2)] := by
  have hq1 : q ≠ '\\' := by rcases hqq with rfl | rfl <;> decide
  have hq2 : q ≠ '\n' := by rcases hqq with rfl | rfl <;> decide
  have hm := matchAt_quoted_literal pre body post q hq1 hq2 hbody
  generalize htext : pre ++ q :: (body ++ q :: post) = text at hm
  have hat : text[pre.length]? = some q := by
    rw [← htext]; exact (getElem?_append_at pre _ 0).trans (by simp)
  have hlen : text.length = pre.length + (body.length + 2) + post.length := by
    rw [← htext]; simp; omega
  have hmatch : matchAt text stringPattern pre.length some =
      some (pre.length + (body.length + 2)) := by
    unfold stringPattern
    rw [matchAt]
    rcases hqq with rfl | rfl
    · rw [hm]; rfl
    · have hfirst : matchAt text (quoted '"') pre.length some = none := by
        unfold quoted
        rw [matchAt, matchAt, hat, if_neg (by decide)]
      rw [hfirst, hm]
      rfl
  have hbefore : ∀ j, j < pre.length → matchAt text stringPattern j some = none := by
    intro j hj
    cases h : matchAt text stringPattern j some with
    | none => rfl
    | some e =>
      exfalso
      have hj2 : text[j]? = pre[j]? := by
        rw [← htext, List.getElem?_append_left hj]
      rcases matchAt_stringPattern_quote text j e h with h1 | h1
      · rw [hj2] at h1
        exact (hpre _ (List.getElem?_mem h1)).1 rfl
      · rw [hj2] at h1
        exact (hpre _ (List.getElem?_mem h1)).2 rfl
  have hafter : ∀ j, pre.length + (body.length + 2) ≤ j →
      matchAt text stringPattern j some = none := by
    intro j hj
    cases h : matchAt text stringPattern j some with
    | none => rfl
    | some e =>
      exfalso
      have e1 : text = (pre ++ [q] ++ body ++ [q]) ++ post := by rw [← htext]; simp
      have hj2 : text[j]? = post[j - (pre.length + (body.length + 2))]? := by
        rw [e1, List.getElem?_append_right (by simp; omega)]
        congr 1
        simp only [List.length_append, List.length_singleton]
        omega
      rcases matchAt_stringPattern_quote text j e h with h1 | h1
      · rw [hj2] at h1
        exact (hpost _ (List.getElem?_mem h1)).1 rfl
      · rw [hj2] at h1
        exact (hpost _ (List.getElem?_mem h1)).2 rfl
  have h1 : firstMatch stringPattern text 0 =
      some (pre.length, pre.length + (body.length + 2)) := by
    unfold firstMatch
    exact searchFrom_first _ _ _ _ hmatch _ _ (by omega) (by omega)
      (fun j _ hj => hbefore j hj)
  have h2 : firstMatch stringPattern text (pre.length + (body.length + 2)) = none := by
    unfold firstMatch
    exact searchFrom_eq_none_from _ _ _ _ hafter
  unfold globalMatch
  rw [globalMatchFrom, h1]
  simp only
  rw [if_pos (by omega)]
  obtain ⟨n, hn⟩ : ∃ n, text.length = n + 1 := ⟨text.length - 1, by omega⟩
  rw [hn, globalMatchFrom, h2]
  simp

/-- C26 (string mask with escaped quotes). In a line `pre q body q post`
where `q` is a quote character, `pre` and `post` hold no quote character and
`body` is made of characters other than `q` and the backslash and of
two-character escapes, the protected offsets are exactly those of the
literal with its quotes; the string loop makes the single call
`setFormat(|pre|, |body| + 2, stringFormat)`, which is a call of
`highlightBlock`, and after the string loop and the rule loop every
character of the literal carries `stringFormat`. -/
theorem highlightBlock_escaped_quotes (pre body post : List Char) (q : Char) (prev : Int)
    (hqq : q = '"' ∨ q = '\'')
    (hpre : ∀ c ∈ pre, c ≠ '"' ∧ c ≠ '\'') (hpost : ∀ c ∈ post, c ≠ '"' ∧ c ≠ '\'')
    (hbody : LiteralBody q body) :
    (∀ i, (stringMask (pre ++ q :: (body ++ q :: post))).getD i false = true ↔
        pre.length ≤ i ∧ i < pre.length + (body.length + 2)) ∧
      stringCalls (pre ++ q :: (body ++ q :: post)) =
        [⟨(pre.length : Int), ((body.length + 2 : Nat) : Int), Format.stringFormat⟩] ∧
      (∀ i, pre.length ≤ i → i < pre.length + (body.length + 2) →
        formatAt (applyCalls (pre ++ q :: (body ++ q :: post)).length
          (stringCalls (pre ++ q :: (body ++ q :: post)) ++
            ruleCalls (pre ++ q :: (body ++ q :: post)))) i = some Format.stringFormat) ∧
      ∃ res, highlightBlock (pre ++ q :: (body ++ q :: post)) prev = some res ∧
        (⟨(pre.length : Int), ((body.length + 2 : Nat) : Int), Format.stringFormat⟩ :
          FormatCall) ∈ res.calls := by
  have hg := globalMatch_stringPattern_literal pre body post q hqq hpre hpost hbody
  generalize htext : pre ++ q :: (body ++ q :: post) = text at hg
  have hlen : text.length = pre.length + (body.length + 2) + post.length := by
    rw [← htext]; simp; omega
  have hmask : ∀ i, (stringMask text).getD i false = true ↔
      pre.length ≤ i ∧ i < pre.length + (body.length + 2) := by
    intro i
    rw [stringMask_iff, hg]
    constructor
    · rintro ⟨_, m, hm, hin⟩
      rw [List.mem_singleton.mp hm] at hin
      exact hin
    · intro h
      exact ⟨by omega, _, List.mem_singleton.mpr rfl, h⟩
  have hcalls : stringCalls text =
      [⟨(pre.length : Int), ((body.length + 2 : Nat) : Int), Format.stringFormat⟩] := by
    unfold stringCalls
    rw [hg]
    rfl
  refine ⟨hmask, hcalls, fun i h1 h2 => formatAt_protected text i ((hmask i).mpr ⟨h1, h2⟩),
    ?_⟩
  obtain ⟨cc, st, _, _, hres⟩ := highlightBlock_eq text prev
  refine ⟨_, hres, ?_⟩
  simp only [hcalls, List.mem_append, List.mem_singleton, true_or]

/-- Witness for C26: in `s = "a\"b";` (11 characters) the protected offsets
are 4 to 9. -/
theorem highlightBlock_escaped_quotes_witness :
    stringMask ['s', ' ', '=', ' ', '"', 'a', '\\', '"', 'b', '"', ';'] =
        [false, false, false, false, true, true, true, true, true, true, false] ∧
      ((∀ i, (stringMask (['s', ' ', '=', ' '] ++
            '"' :: (['a', '\\', '"', 'b'] ++ '"' :: [';']))).getD i false = true ↔
          ['s', ' ', '=', ' '].length ≤ i ∧
            i < ['s', ' ', '=', ' '].length + (['a', '\\', '"', 'b'].length + 2)) ∧
        stringCalls (['s', ' ', '=', ' '] ++ '"' :: (['a', '\\', '"', 'b'] ++ '"' :: [';'])) =
          [⟨((['s', ' ', '=', ' '] : List Char).length : Int),
            (((['a', '\\', '"', 'b'] : List Char).length + 2 : Nat) : Int),
            Format.stringFormat⟩] ∧
        (∀ i, ['s', ' ', '=', ' '].length ≤ i →
          i < ['s', ' ', '=', ' '].length + (['a', '\\', '"', 'b'].length + 2) →
          formatAt (applyCalls
            (['s', ' ', '=', ' '] ++ '"' :: (['a', '\\', '"', 'b'] ++ '"' :: [';'])).length
            (stringCalls
                (['s', ' ', '=', ' '] ++ '"' :: (['a', '\\', '"', 'b'] ++ '"' :: [';'])) ++
              ruleCalls
                (['s', ' ', '=', ' '] ++ '"' :: (['a', '\\', '"', 'b'] ++ '"' :: [';'])))) i =
            some Format.stringFormat) ∧
        ∃ res, highlightBlock
            (['s', ' ', '=', ' '] ++ '"' :: (['a', '\\', '"', 'b'] ++ '"' :: [';'])) 0 =
              some res ∧
          (⟨((['s', ' ', '=', ' '] : List Char).length : Int),
            (((['a', '\\', '"', 'b'] : List Char).length + 2 : Nat) : Int),
            Format.stringFormat⟩ : FormatCall) ∈ res.calls) :=
  ⟨by decide,
    highlightBlock_escaped_quotes ['s', ' ', '=', ' '] ['a', '\\', '"', 'b'] [';'] '"' 0
      (Or.inl rfl) (by decide) (by decide)
      (LiteralBody.plain (by decide) (by decide)
        (LiteralBody.escape (LiteralBody.plain (by decide) (by decide) LiteralBody.nil)))⟩

end CppHighlighter

namespace CodeEditor

/-! ## Forward scan through comments, and the shape of a match -/

/-- In the line-comment state the forward scan passes over characters other
than the line feed. -/
theorem scanLoop_in_line_comment (b t q : Char) :
    ∀ (s text A B : List Char), text = A ++ s ++ B → (∀ c ∈ s, c ≠ '\n') →
      ∀ (k : Nat) (d : Int),
        scanLoop text b t 1 (s.length + k) ⟨A.length, d, State.InLineComment, q⟩ =
          scanLoop text b t 1 k
            ⟨((A.length + s.length : Nat) : Int), d, State.InLineComment, q⟩ := by
  intro s
  induction s with
  | nil => intro text A B _ _ k d; simp
  | cons c s ih =>
    intro text A B htext hs k d
    have hat : charAt text (A.length : Nat) = c := by
      rw [htext]
      have : A ++ c :: s ++ B = A ++ c :: (s ++ B) := by simp
      rw [this]
      exact charAt_append_cons _ _ _ _ rfl
    have hlen : text.length = A.length + (s.length + 1) + B.length := by
      simp [htext]; omega
    have hcq : c ≠ '\n' := hs c (List.mem_cons_self _ _)
    have hfuel : (c :: s).length + k = (s.length + k) + 1 := by simp; omega
    rw [hfuel, scanLoop, if_pos ⟨by simp, by simp only []; omega⟩]
    simp only [step, hat, hcq, if_false]
    have := ih text (A ++ [c]) B (by simp [htext]) (fun x hx => hs x (List.mem_cons_of_mem _ hx)) k d
    simp only [List.length_append, List.length_singleton, Nat.cast_add, Nat.cast_one] at this
    rw [this]
    congr 2
    simp only [List.length_cons]
    push_cast
    ring

/-- In the block-comment state the forward scan passes over a segment without
close marker, when the character behind the segment is not a slash. -/
theorem scanLoop_in_block_comment (b t q : Char) :
    ∀ (s text A B : List Char), text = A ++ s ++ B →
      (∀ j, ¬ CppHighlighter.IsCloseAt s j) → B.head? ≠ some '/' →
      ∀ (k : Nat) (d : Int),
        scanLoop text b t 1 (s.length + k) ⟨A.length, d, State.InBlockComment, q⟩ =
          scanLoop text b t 1 k
            ⟨((A.length + s.length : Nat) : Int), d, State.InBlockComment, q⟩ := by
  intro s
  induction s with
  | nil => intro text A B _ _ _ k d; simp
  | cons c s ih =>
    intro text A B htext hs hB k d
    have hat : charAt text (A.length : Nat) = c := by
      rw [htext]
      have : A ++ c :: s ++ B = A ++ c :: (s ++ B) := by simp
      rw [this]
      exact charAt_append_cons _ _ _ _ rfl
    have hlen : text.length = A.length + (s.length + 1) + B.length := by
      simp [htext]; omega
    have hnext : ¬ (c = '*' ∧ ((A.length : Nat) : Int) + 1 < text.length ∧
        charAt text (((A.length : Nat) : Int) + 1) = '/') := by
      rintro ⟨hc, hlt, hsl⟩
      cases hsB : s ++ B with
      | nil =>
        have : s.length + B.length = 0 := by
          have := congrArg List.length hsB
          simpa using this
        omega
      | cons x rest =>
        have hx : charAt text (((A.length : Nat) : Int) + 1) = x := by
          have e : text = (A ++ [c]) ++ x :: rest := by
            rw [htext, ← hsB]; simp
          rw [e]
          exact charAt_append_cons _ _ _ _ (by simp)
        rw [hx] at hsl
        subst hsl
        cases s with
        | nil =>
          simp only [List.nil_append] at hsB
          rw [hsB] at hB
          exact hB rfl
        | cons y s' =>
          simp only [List.cons_append, List.cons.injEq] at hsB
          apply hs 0
          unfold CppHighlighter.IsCloseAt
          simp [hc, hsB.1]
    have hs' : ∀ j, ¬ CppHighlighter.IsCloseAt s j := by
      intro j hj
      apply hs (j + 1)
      unfold CppHighlighter.IsCloseAt at hj ⊢
      simpa using hj
    have hfuel : (c :: s).length + k = (s.length + k) + 1 := by simp; omega
    rw [hfuel, scanLoop, if_pos ⟨by simp, by simp only []; omega⟩]
    simp only [step, hat]
    rw [if_neg (by simpa [hat] using hnext)]
    dsimp only
    have := ih text (A ++ [c]) B (by simp [htext]) hs' hB k d
    simp only [List.length_append, List.length_singleton, Nat.cast_add, Nat.cast_one] at this
    rw [this]
    congr 2
    simp only [List.length_cons]
    push_cast
    ring

/-- C22 (forward scan and line comments). For every body without line feed,
matching the `(` at offset 0 of `(` `//` body line-feed `)` returns the
offset of the final `)`: whatever stands between `//` and the line feed is
passed over in the line-comment state, and the line feed brings the scan back
to `Normal`. -/
theorem findMatchingBracket_skips_line_comment (body : List Char)
    (hnl : ∀ c ∈ body, c ≠ '\n') :
    findMatchingBracket ('(' :: '/' :: '/' :: (body ++ ['\n', ')'])) 0 =
      some ((body.length + 4 : Nat) : Int) := by
  generalize htext : '(' :: '/' :: '/' :: (body ++ ['\n', ')']) = text
  have hlen : text.length = body.length + 5 := by rw [← htext]; simp
  have c0 : charAt text 0 = '(' := by rw [← htext]; rfl
  have c1 : charAt text 1 = '/' := by rw [← htext]; rfl
  have c2 : charAt text (1 + 1) = '/' := by rw [← htext]; rfl
  have cn : charAt text ((3 + body.length : Nat) : Int) = '\n' := by
    have e : text = ('(' :: '/' :: '/' :: body) ++ '\n' :: [')'] := by rw [← htext]; simp
    rw [e]
    exact charAt_append_cons _ _ _ _ (by simp; omega)
  have cp : charAt text ((body.length + 4 : Nat) : Int) = ')' := by
    have e : text = ('(' :: '/' :: '/' :: (body ++ ['\n'])) ++ ')' :: [] := by
      rw [← htext]; simp
    rw [e]
    exact charAt_append_cons _ _ _ _ (by simp; omega)
  unfold findMatchingBracket findMatchingBracketWith
  rw [if_neg (by omega)]
  have hinfo : bracketInfo '(' = some (')', 1) := rfl
  simp only [c0, hinfo]
  apply scanLoop_mono text '(' ')' 1 ((body.length + 2) + 1) _ _ _ (by omega)
  rw [scanLoop, if_pos ⟨by simp, by simp only []; omega⟩]
  have hq : ¬ ('/' = '"' ∨ '/' = '\'') := by decide
  have hl1 : (1 : Int) + 1 < text.length := by omega
  have hsl : ¬ ('*' = '/') := by decide
  simp only [step, c1, show ((0 : Int) + 1) = 1 from rfl, c2, hq, hl1, hsl, and_self, if_true,
    if_false]
  have h2 := scanLoop_in_line_comment '(' ')' (Char.ofNat 0) body text ['(', '/', '/']
    ['\n', ')'] (by rw [← htext]; simp) hnl 2 0
  have e1 : ((1 : Int) + 1 + 1) = ((['(', '/', '/'].length : Nat) : Int) := by simp
  rw [e1, h2]
  have e2 : (((['(', '/', '/'] : List Char).length + body.length : Nat) : Int) =
      ((3 + body.length : Nat) : Int) := by simp
  rw [e2, scanLoop, if_pos ⟨by simp only []; omega, by simp only []; omega⟩]
  simp only [step, cn, if_true]
  have e3 : (((3 + body.length : Nat) : Int) + 1) = ((body.length + 4 : Nat) : Int) := by
    push_cast; ring
  rw [e3, scanLoop, if_pos ⟨by simp only []; omega, by simp only []; omega⟩]
  have hp : ¬ (')' = '"' ∨ ')' = '\'') := by decide
  have hps : ¬ (')' = '/') := by decide
  have hpo : ¬ (')' = '(') := by decide
  simp only [step, cp, hp, hps, hpo, false_and, if_true, if_false]

/-- C23 (forward scan and block comments). For every body without close
marker, matching the `(` at offset 0 of `(` `/*` body `*/` `)` returns the
offset of the final `)`: whatever stands in the comment, brackets and quotes
included, is passed over in the block-comment state, and `*/` brings the scan
back to `Normal` with both characters consumed. -/
theorem findMatchingBracket_skips_block_comment (body : List Char)
    (hbody : ∀ j, ¬ CppHighlighter.IsCloseAt body j) :
    findMatchingBracket ('(' :: '/' :: '*' :: (body ++ ['*', '/', ')'])) 0 =
      some ((body.length + 5 : Nat) : Int) := by
  generalize htext : '(' :: '/' :: '*' :: (body ++ ['*', '/', ')']) = text
  have hlen : text.length = body.length + 6 := by rw [← htext]; simp
  have c0 : charAt text 0 = '(' := by rw [← htext]; rfl
  have c1 : charAt text 1 = '/' := by rw [← htext]; rfl
  have c2 : charAt text (1 + 1) = '*' := by rw [← htext]; rfl
  have cs : charAt text ((3 + body.length : Nat) : Int) = '*' := by
    have e : text = ('(' :: '/' :: '*' :: body) ++ '*' :: ['/', ')'] := by rw [← htext]; simp
    rw [e]
    exact charAt_append_cons _ _ _ _ (by simp; omega)
  have cl : charAt text (((3 + body.length : Nat) : Int) + 1) = '/' := by
    have e : text = ('(' :: '/' :: '*' :: (body ++ ['*'])) ++ '/' :: [')'] := by
      rw [← htext]; simp
    rw [e]
    exact charAt_append_cons _ _ _ _ (by simp; omega)
  have cp : charAt text ((body.length + 5 : Nat) : Int) = ')' := by
    have e : text = ('(' :: '/' :: '*' :: (body ++ ['*', '/'])) ++ ')' :: [] := by
      rw [← htext]; simp
    rw [e]
    exact charAt_append_cons _ _ _ _ (by simp; omega)
  unfold findMatchingBracket findMatchingBracketWith
  rw [if_neg (by omega)]
  have hinfo : bracketInfo '(' = some (')', 1) := rfl
  simp only [c0, hinfo]
  apply scanLoop_mono text '(' ')' 1 ((body.length + 2) + 1) _ _ _ (by omega)
  rw [scanLoop, if_pos ⟨by simp, by simp only []; omega⟩]
  have hq : ¬ ('/' = '"' ∨ '/' = '\'') := by decide
  have hl1 : (1 : Int) + 1 < text.length := by omega
  have hsl : ¬ ('*' = '/') := by decide
  simp only [step, c1, show ((0 : Int) + 1) = 1 from rfl, c2, hq, hl1, hsl, and_self, if_true,
    if_false]
  have h2 := scanLoop_in_block_comment '(' ')' (Char.ofNat 0) body text ['(', '/', '*']
    ['*', '/', ')'] (by rw [← htext]; simp) hbody (by decide) 2 0
  have e1 : ((1 : Int) + 1 + 1) = ((['(', '/', '*'].length : Nat) : Int) := by simp
  rw [e1, h2]
  have e2 : (((['(', '/', '*'] : List Char).length + body.length : Nat) : Int) =
      ((3 + body.length : Nat) : Int) := by simp
  rw [e2, scanLoop, if_pos ⟨by simp only []; omega, by simp only []; omega⟩]
  have hl3 : ((3 + body.length : Nat) : Int) + 1 < text.length := by omega
  simp only [step, cs, cl, hl3, and_self, if_true]
  have e3 : (((3 + body.length : Nat) : Int) + 1 + 1) = ((body.length + 5 : Nat) : Int) := by
    push_cast; ring
  rw [e3, scanLoop, if_pos ⟨by simp only []; omega, by simp only []; omega⟩]
  have hp : ¬ (')' = '"' ∨ ')' = '\'') := by decide
  have hps : ¬ (')' = '/') := by decide
  have hpo : ¬ (')' = '(') := by decide
  simp only [step, cp, hp, hps, hpo, false_and, if_true, if_false]

/-- Witness for C22 and its body `a ) b`: the `)` inside the comment is not
the match. -/
theorem findMatchingBracket_skips_line_comment_witness :
    findMatchingBracket ('(' :: '/' :: '/' :: ([' ', 'a', ' ', ')', ' ', 'b'] ++ ['\n', ')'])) 0 =
      some ((([' ', 'a', ' ', ')', ' ', 'b'] : List Char).length + 4 : Nat) : Int) :=
  findMatchingBracket_skips_line_comment [' ', 'a', ' ', ')', ' ', 'b'] (by decide)

/-- Witness for C23 and its body ` a ) " b `: neither the `)` nor the quote
inside the comment has an effect. -/
theorem findMatchingBracket_skips_block_comment_witness :
    findMatchingBracket
        ('(' :: '/' :: '*' :: ([' ', 'a', ' ', ')', ' ', '"', ' ', 'b', ' '] ++ ['*', '/', ')'])) 0 =
      some ((([' ', 'a', ' ', ')', ' ', '"', ' ', 'b', ' '] : List Char).length + 5 : Nat) : Int) :=
  findMatchingBracket_skips_block_comment [' ', 'a', ' ', ')', ' ', '"', ' ', 'b', ' ']
    (fun j h => by
      have hlt := CppHighlighter.isCloseAt_lt h
      simp only [List.length_cons, List.length_nil] at hlt
      have hj : j < 8 := by omega
      clear hlt
      interval_cases j <;> exact absurd h (by decide))

theorem bracketInfo_some {c t : Char} {d : Int} (h : bracketInfo c = some (t, d)) :
    ((c, t) ∈ bracketPairs ∧ d = 1) ∨ ((t, c) ∈ bracketPairs ∧ d = -1) := by
  unfold bracketInfo at h
  split_ifs at h <;> simp only [Option.some.injEq, Prod.mk.injEq] at h <;>
    obtain ⟨rfl, rfl⟩ := h <;> subst_vars <;> simp [bracketPairs]

/-- C27 (shape of a successful match). When `findMatchingBracket` returns an
offset `r` other than -1, `pos` and `r` are offsets of the text, and either
`text[pos]` is an opening bracket, `text[r]` its closing partner and
`pos < r`, or `text[pos]` is a closing bracket, `text[r]` its opening partner
and `r < pos`. -/
theorem findMatchingBracket_match_shape (text : List Char) (pos r : Int)
    (h : findMatchingBracket text pos = some r) (hr : r ≠ -1) :
    0 ≤ pos ∧ pos < text.length ∧ 0 ≤ r ∧ r < text.length ∧
      (((charAt text pos, charAt text r) ∈ bracketPairs ∧ pos < r) ∨
        ((charAt text r, charAt text pos) ∈ bracketPairs ∧ r < pos)) := by
  unfold findMatchingBracket findMatchingBracketWith at h
  split at h
  · exact absurd (Option.some.inj h).symm hr
  · rename_i hpos
    simp only [] at h
    split at h
    · exact absurd (Option.some.inj h).symm hr
    · rename_i t d hinfo
      rcases scanLoop_result _ _ _ _ _ _ _ h with h1 | ⟨h1, h2, h3, h4, h5⟩
      · exact absurd h1 hr
      · refine ⟨by omega, by omega, h1, h2, ?_⟩
        rw [h3]
        rcases bracketInfo_some hinfo with ⟨hp, rfl⟩ | ⟨hp, rfl⟩
        · left
          have := h4 rfl
          simp only at this
          exact ⟨hp, by omega⟩
        · right
          have := h5 rfl
          simp only at this
          exact ⟨hp, by omega⟩

/-- Witness for C27: in `a[b]` offset 1 gives 3 and offset 3 gives 1. -/
theorem findMatchingBracket_match_shape_witness :
    ((0 : Int) ≤ 1 ∧ (1 : Int) < (['a', '[', 'b', ']'].length : Nat) ∧ (0 : Int) ≤ 3 ∧
      (3 : Int) < (['a', '[', 'b', ']'].length : Nat) ∧
      (((charAt ['a', '[', 'b', ']'] 1, charAt ['a', '[', 'b', ']'] 3) ∈ bracketPairs ∧
          (1 : Int) < 3) ∨
        ((charAt ['a', '[', 'b', ']'] 3, charAt ['a', '[', 'b', ']'] 1) ∈ bracketPairs ∧
          (3 : Int) < 1))) ∧
    ((0 : Int) ≤ 3 ∧ (3 : Int) < (['a', '[', 'b', ']'].length : Nat) ∧ (0 : Int) ≤ 1 ∧
      (1 : Int) < (['a', '[', 'b', ']'].length : Nat) ∧
      (((charAt ['a', '[', 'b', ']'] 3, charAt ['a', '[', 'b', ']'] 1) ∈ bracketPairs ∧
          (3 : Int) < 1) ∨
        ((charAt ['a', '[', 'b', ']'] 1, charAt ['a', '[', 'b', ']'] 3) ∈ bracketPairs ∧
          (1 : Int) < 3))) :=
  ⟨findMatchingBracket_match_shape ['a', '[', 'b', ']'] 1 3 (by decide) (by decide),
    findMatchingBracket_match_shape ['a', '[', 'b', ']'] 3 1 (by decide) (by decide)⟩

end CodeEditor
